import Mathlib

/-!
# SwiftRT `Complex<RealType>`: a shallow embedding and its verified properties

Source files: `Modules/SwiftRTCuda/complex.h`, `Modules/SwiftRTCuda/kernelHelpers.h`.

`RealType` is an IEEE-754 binary floating-point type.  It is embedded as the
datatype `Flt` (NaN, signed infinities, signed finite values), with the finite
values of a format `Fmt` stored as a natural-number multiple of the format's
smallest positive subnormal.  Arithmetic is exact rational arithmetic followed
by round-to-nearest, ties-to-even.  The transcendental helpers the source takes
from the C math library (`hypot`, `cos`, `sin`, `atan2`) are parameters,
collected in `Libm`.
-/

namespace SwiftRT

/-! ## The real type -/

/-- A binary floating-point format: `prec` significand bits (hidden bit included)
and largest exponent `emax`; the smallest normal exponent is `1 - emax`. -/
structure Fmt where
  prec : Nat
  emax : Nat
deriving DecidableEq, Repr

/-- IEEE-754 binary32 (`float`). -/
def binary32 : Fmt := ⟨24, 127⟩

/-- IEEE-754 binary64 (`double`). -/
def binary64 : Fmt := ⟨53, 1023⟩

/-- Formats with at least two significand bits and a positive largest exponent. -/
def Fmt.valid (f : Fmt) : Prop := 2 ≤ f.prec ∧ 1 ≤ f.emax

instance (f : Fmt) : Decidable f.valid := by
  unfold Fmt.valid; exact inferInstance

/-- The smallest positive subnormal is `2 ^ (-qexp)`; finite values are counted in this unit. -/
def Fmt.qexp (f : Fmt) : Nat := f.emax + f.prec - 2

/-- The value `1.0`, in units of the smallest subnormal. -/
def Fmt.oneK (f : Fmt) : Nat := 2 ^ f.qexp

/-- The smallest positive normal value (`numeric_limits::min()`), in units. -/
def Fmt.minNormalK (f : Fmt) : Nat := 2 ^ (f.prec - 1)

/-- The largest finite value (`numeric_limits::max()`), in units. -/
def Fmt.maxFiniteK (f : Fmt) : Nat := (2 ^ f.prec - 1) * 2 ^ (2 * f.emax - 1)

/-- Halving count: `⌊log₂ n⌋` as soon as `fuel ≥ n`. -/
def log2Fuel : Nat → Nat → Nat
  | 0, _ => 0
  | fuel + 1, n => if n < 2 then 0 else log2Fuel fuel (n / 2) + 1

/-- The binary logarithm `⌊log₂ n⌋`, with `ilog2 0 = 0`. -/
def ilog2 (n : Nat) : Nat := log2Fuel n n

/-- Integer square root by quartering, exact as soon as `fuel ≥ n`. -/
def isqrtFuel : Nat → Nat → Nat
  | 0, _ => 0
  | fuel + 1, n =>
    if n = 0 then 0
    else
      let r := 2 * isqrtFuel fuel (n / 4)
      if (r + 1) * (r + 1) ≤ n then r + 1 else r

/-- The integer square root `⌊√n⌋`. -/
def isqrt (n : Nat) : Nat := isqrtFuel n n

/-- Binary logarithm of the spacing of representable values around `k` units. -/
def Fmt.ulpShift (f : Fmt) (k : Nat) : Nat := ilog2 k - (f.prec - 1)

/-- A magnitude of `k` units is a value of the format: at most `prec` significant
bits, and not above the largest finite value. -/
def Fmt.representable (f : Fmt) (k : Nat) : Prop :=
  2 ^ f.ulpShift k ∣ k ∧ k ≤ f.maxFiniteK

instance (f : Fmt) (k : Nat) : Decidable (f.representable k) := by
  unfold Fmt.representable; exact inferInstance

/-- Values of `RealType`: NaN, the two infinities, and signed finite values
(`fin neg k` is `(-1)^neg * k * 2^(-qexp)`; `fin true 0` is `-0`). -/
inductive Flt where
  | nan : Flt
  | inf (neg : Bool) : Flt
  | fin (neg : Bool) (k : Nat) : Flt
deriving DecidableEq, Repr

/-- The value is one the format can store. -/
def Flt.wf (f : Fmt) : Flt → Prop
  | .fin _ k => f.representable k
  | _ => True

instance (f : Fmt) (x : Flt) : Decidable (x.wf f) := by
  cases x <;> unfold Flt.wf <;> exact inferInstance

/-- Quotient `a / b` rounded to the nearest integer, ties to even (`b > 0`). -/
def rhe (a b : Nat) : Nat :=
  if 2 * (a % b) < b then a / b
  else if b < 2 * (a % b) then a / b + 1
  else if (a / b) % 2 = 0 then a / b else a / b + 1

/-- Round the exact magnitude `n / d` units to the format (nearest, ties to even),
overflowing to the infinity of the given sign. -/
def Fmt.round (f : Fmt) (neg : Bool) (n d : Nat) : Flt :=
  let s := f.ulpShift (n / d)
  let k := rhe n (d * 2 ^ s) * 2 ^ s
  if f.maxFiniteK < k then .inf neg else .fin neg k

namespace Flt

/-- Positive zero, the conversion of the literal `0`. -/
def zero : Flt := .fin false 0

/-- The literal `1`. -/
def one (f : Fmt) : Flt := .fin false f.oneK

/-- Unary minus. -/
def neg : Flt → Flt
  | .nan => .nan
  | .inf s => .inf (!s)
  | .fin s k => .fin (!s) k

/-- The function `abs` on reals. -/
def abs : Flt → Flt
  | .nan => .nan
  | .inf _ => .inf false
  | .fin _ k => .fin false k

/-- The classification `isfinite`. -/
def isfinite : Flt → Bool
  | .fin _ _ => true
  | _ => false

/-- IEEE `==`: NaN is unequal to everything, `+0 == -0`. -/
def eq : Flt → Flt → Bool
  | .inf s, .inf t => s == t
  | .fin s a, .fin t b => a == b && (a == 0 || s == t)
  | _, _ => false

/-- IEEE `!=`. -/
def ne (x y : Flt) : Bool := !(eq x y)

/-- IEEE `<=`: false when either side is NaN. -/
def le : Flt → Flt → Bool
  | .nan, _ => false
  | _, .nan => false
  | .inf s, .inf t => s || !t
  | .inf s, .fin _ _ => s
  | .fin _ _, .inf t => !t
  | .fin false a, .fin false b => decide (a ≤ b)
  | .fin false a, .fin true b => a == 0 && b == 0
  | .fin true _, .fin false _ => true
  | .fin true a, .fin true b => decide (b ≤ a)

/-- IEEE `>=`. -/
def ge (x y : Flt) : Bool := le y x

/-- IEEE `<`. -/
def lt (x y : Flt) : Bool := le x y && !(eq x y)

/-- The function `max` on reals (`fmax`): a NaN operand is ignored. -/
def max (x y : Flt) : Flt :=
  match x, y with
  | .nan, _ => y
  | _, .nan => x
  | _, _ => if lt x y then y else x

/-- Product, correctly rounded. -/
def mul (f : Fmt) : Flt → Flt → Flt
  | .nan, _ => .nan
  | _, .nan => .nan
  | .inf s, .inf t => .inf (xor s t)
  | .inf s, .fin t k => if k = 0 then .nan else .inf (xor s t)
  | .fin s k, .inf t => if k = 0 then .nan else .inf (xor s t)
  | .fin s a, .fin t b => f.round (xor s t) (a * b) (2 ^ f.qexp)

/-- Quotient, correctly rounded. -/
def div (f : Fmt) : Flt → Flt → Flt
  | .nan, _ => .nan
  | _, .nan => .nan
  | .inf _, .inf _ => .nan
  | .inf s, .fin t _ => .inf (xor s t)
  | .fin s _, .inf t => .fin (xor s t) 0
  | .fin s a, .fin t b =>
    if b = 0 then (if a = 0 then .nan else .inf (xor s t))
    else f.round (xor s t) (a * 2 ^ f.qexp) b

/-- Sum, correctly rounded. -/
def add (f : Fmt) : Flt → Flt → Flt
  | .nan, _ => .nan
  | _, .nan => .nan
  | .inf s, .inf t => if s = t then .inf s else .nan
  | .inf s, .fin _ _ => .inf s
  | .fin _ _, .inf t => .inf t
  | .fin s a, .fin t b =>
    if s = t then f.round s (a + b) 1
    else if b < a then f.round s (a - b) 1
    else if a < b then f.round t (b - a) 1
    else .fin false 0

/-- Difference, correctly rounded. -/
def sub (f : Fmt) (x y : Flt) : Flt := add f x (neg y)

/-- The square root of `n` rounded to the spacing of the format around it (nearest,
ties to even). -/
def roundSqrt (f : Fmt) (n : Nat) : Nat :=
  let s := f.ulpShift (isqrt n)
  let m := isqrt (n / 4 ^ s)
  let odd := (2 * m + 1) ^ 2 * 4 ^ s
  let up := if odd < 4 * n then true else if 4 * n < odd then false else decide (m % 2 = 1)
  (if up then m + 1 else m) * 2 ^ s

/-- Square root of a magnitude of `k` units, correctly rounded, in units. -/
def sqrtK (f : Fmt) (k : Nat) : Nat := roundSqrt f (k * 2 ^ f.qexp)

/-- The function `sqrt`, correctly rounded. -/
def sqrt (f : Fmt) : Flt → Flt
  | .nan => .nan
  | .inf s => if s then .nan else .inf false
  | .fin s k => if k = 0 then .fin s 0 else if s then .nan else .fin false (sqrtK f k)

end Flt

/-- The math-library functions used by the source and not defined in it. -/
structure Libm where
  hypot : Flt → Flt → Flt
  cos : Flt → Flt
  sin : Flt → Flt
  atan2 : Flt → Flt → Flt

/-- C Annex F.10.4.3: `hypot(±0, ±0)` returns `+0`. -/
def Libm.hypotZero (M : Libm) : Prop :=
  ∀ s t : Bool, M.hypot (.fin s 0) (.fin t 0) = .fin false 0

/-- A correctly rounded `hypot`, with `hypot(±infinity, y) = +infinity` also for NaN `y`. -/
def Flt.hypotRef (f : Fmt) : Flt → Flt → Flt
  | .inf _, _ => .inf false
  | _, .inf _ => .inf false
  | .nan, _ => .nan
  | _, .nan => .nan
  | .fin _ a, .fin _ b =>
    if f.maxFiniteK < Flt.roundSqrt f (a * a + b * b) then .inf false
    else .fin false (Flt.roundSqrt f (a * a + b * b))

/-- A math library for instantiating the results: `hypot` is correctly rounded; the
trigonometric functions are given at zero arguments only, where their values are exact,
and are NaN elsewhere. -/
def Libm.sample (f : Fmt) : Libm where
  hypot := Flt.hypotRef f
  cos := fun x => match x with
    | .fin _ 0 => Flt.one f
    | _ => .nan
  sin := fun x => match x with
    | .fin s 0 => .fin s 0
    | _ => .nan
  atan2 := fun y x => match y, x with
    | .fin s 0, .fin false (_ + 1) => .fin s 0
    | _, _ => .nan

/-! ## `Complex<RealType>` (complex.h) -/

/-- The static helper `isNormal(RealType x)`:
`x != 0 && x >= numeric_limits::min() && x <= numeric_limits::max()`.
The calls `v.isNormal()` on a real `v` in `length` and `normalized` denote it too. -/
def isNormal (f : Fmt) (x : Flt) : Bool :=
  Flt.ne x Flt.zero && Flt.ge x (.fin false f.minNormalK) && Flt.le x (.fin false f.maxFiniteK)

/-- The struct `Complex`: raw storage `x` (real part) and `y` (imaginary part). -/
structure Complex where
  x : Flt
  y : Flt
deriving DecidableEq, Repr

/-- The nested struct `Polar`. -/
structure Polar where
  length : Flt
  phase : Flt
deriving DecidableEq, Repr

namespace Complex

/-- The constructor `Complex(RealType real)`: imaginary part `0`. -/
def ofReal (real : Flt) : Complex := ⟨real, Flt.zero⟩

/-- The constant `zero()`. -/
def zero : Complex := ⟨Flt.zero, Flt.zero⟩

/-- The constant `one()`. -/
def one (f : Fmt) : Complex := ⟨Flt.one f, Flt.zero⟩

/-- The constant `i()`. -/
def i (f : Fmt) : Complex := ⟨Flt.zero, Flt.one f⟩

/-- The constant `infinity()`: `Complex(INFINITY, 0)`. -/
def infinity : Complex := ⟨.inf false, Flt.zero⟩

/-- The method `conjugate()`. -/
def conjugate (z : Complex) : Complex := ⟨z.x, Flt.neg z.y⟩

/-- The method `isFinite()`. -/
def isFinite (z : Complex) : Bool := z.x.isfinite && z.y.isfinite

/-- The method `isNormal()` on complex values. -/
def isNormal (f : Fmt) (z : Complex) : Bool :=
  z.isFinite && (SwiftRT.isNormal f z.x || SwiftRT.isNormal f z.y)

/-- The method `isZero()`. -/
def isZero (z : Complex) : Bool := Flt.eq z.x Flt.zero && Flt.eq z.y Flt.zero

/-- The method `isSubnormal()`. -/
def isSubnormal (f : Fmt) (z : Complex) : Bool :=
  z.isFinite && !(z.isNormal f) && !z.isZero

/-- The method `magnitude()`. -/
def magnitude (z : Complex) : Flt :=
  if z.isFinite then Flt.max (Flt.abs z.x) (Flt.abs z.y) else .inf false

/-- The method `multipliedBy(a)`. -/
def multipliedBy (f : Fmt) (z : Complex) (a : Flt) : Complex :=
  ⟨Flt.mul f z.x a, Flt.mul f z.y a⟩

/-- The method `dividedBy(a)`. -/
def dividedBy (f : Fmt) (z : Complex) (a : Flt) : Complex :=
  ⟨Flt.div f z.x a, Flt.div f z.y a⟩

/-- The method `canonicalized()`. -/
def canonicalized (f : Fmt) (z : Complex) : Complex :=
  if z.isZero then zero
  else if z.isFinite then z.multipliedBy f (Flt.one f)
  else infinity

/-- The method `lengthSquared()`. -/
def lengthSquared (f : Fmt) (z : Complex) : Flt :=
  Flt.add f (Flt.mul f z.x z.x) (Flt.mul f z.y z.y)

/-- The method `carefulLength()`; its non-finite branch yields the real `+infinity`. -/
def carefulLength (M : Libm) (z : Complex) : Flt :=
  if z.isFinite then M.hypot z.x z.y else .inf false

/-- The method `length()`. -/
def length (f : Fmt) (M : Libm) (z : Complex) : Flt :=
  let naive := z.lengthSquared f
  if SwiftRT.isNormal f naive then Flt.sqrt f naive else z.carefulLength M

/-- The method `phase()`. -/
def phase (M : Libm) (z : Complex) : Flt :=
  if z.isFinite && !z.isZero then M.atan2 z.y z.x else .nan

/-- The method `polar()`. -/
def polar (f : Fmt) (M : Libm) (z : Complex) : Polar :=
  ⟨z.length f M, z.phase M⟩

/-- The constructor `Complex(Polar polar)`; `none` is a failure of its `assert`. -/
def ofPolar (f : Fmt) (M : Libm) (polar : Polar) : Option Complex :=
  if polar.phase.isfinite then
    some (multipliedBy f ⟨M.cos polar.phase, M.sin polar.phase⟩ polar.length)
  else if Flt.eq polar.length Flt.zero || polar.length.isfinite then
    some (ofReal polar.length)
  else none

/-- The operator `==`. -/
def eq (a b : Complex) : Bool :=
  if !(a.isFinite || b.isFinite) then true
  else Flt.eq a.x b.x && Flt.eq a.y b.y

/-- The binary operator `+`. -/
def add (f : Fmt) (z w : Complex) : Complex :=
  ⟨Flt.add f z.x w.x, Flt.add f z.y w.y⟩

/-- The binary operator `-`. -/
def sub (f : Fmt) (z w : Complex) : Complex :=
  ⟨Flt.sub f z.x w.x, Flt.sub f z.y w.y⟩

/-- The unary operator `-`. -/
def neg (z : Complex) : Complex := ⟨Flt.neg z.x, Flt.neg z.y⟩

/-- The operator `*`. -/
def mul (f : Fmt) (z w : Complex) : Complex :=
  ⟨Flt.sub f (Flt.mul f z.x w.x) (Flt.mul f z.y w.y),
   Flt.add f (Flt.mul f z.x w.y) (Flt.mul f z.y w.x)⟩

/-- The static method `rescaledDivide(z, w)`. -/
def rescaledDivide (f : Fmt) (z w : Complex) : Complex :=
  if w.isZero then infinity
  else if z.isZero || !w.isFinite then zero
  else
    let zScale := z.magnitude
    let wScale := w.magnitude
    let zNorm := z.dividedBy f zScale
    let wNorm := w.dividedBy f wScale
    let r := (mul f zNorm wNorm.conjugate).dividedBy f (wNorm.lengthSquared f)
    if SwiftRT.isNormal f (Flt.div f zScale wScale) then
      r.multipliedBy f (Flt.div f zScale wScale)
    else if SwiftRT.isNormal f (Flt.mul f r.magnitude zScale) then
      (r.multipliedBy f zScale).dividedBy f wScale
    else
      (r.dividedBy f wScale).multipliedBy f zScale

/-- The operator `/`. -/
def div (f : Fmt) (z w : Complex) : Complex :=
  let lenSq := w.lengthSquared f
  if SwiftRT.isNormal f lenSq then mul f z (w.conjugate.dividedBy f lenSq)
  else rescaledDivide f z w

/-- The method `normalized()`, with the recursion depth bounded by `fuel`:
the outer `none` is exhausted fuel, `some none` is `std::nullopt`. -/
def normalized (f : Fmt) (M : Libm) : Nat → Complex → Option (Option Complex)
  | 0, _ => none
  | fuel + 1, z =>
    if SwiftRT.isNormal f (z.length f M) then some (some (z.dividedBy f (z.length f M)))
    else if z.isZero || !z.isFinite then some none
    else normalized f M fuel (z.dividedBy f z.magnitude)

/-- The method `reciprocal()`; the dividend `1` is `Complex(1)`. -/
def reciprocal (f : Fmt) (z : Complex) : Option Complex :=
  let recip := div f (ofReal (Flt.one f)) z
  if recip.isNormal f || z.isZero || !z.isFinite then some recip else none

end Complex

/-- Both stored components are values of the format. -/
def Complex.wf (f : Fmt) (z : Complex) : Prop := z.x.wf f ∧ z.y.wf f

instance (f : Fmt) (z : Complex) : Decidable (z.wf f) := by
  unfold Complex.wf; exact inferInstance

/-! ## The specification's wording of normality, for comparison with the code -/

/-- The real `isNormal(x)` in the specification's words:
`x != 0` and `min(R) <= |x| <= max(R)`. -/
def specIsNormal (f : Fmt) (x : Flt) : Bool :=
  Flt.ne x Flt.zero && Flt.le (.fin false f.minNormalK) (Flt.abs x)
    && Flt.le (Flt.abs x) (.fin false f.maxFiniteK)

/-- The complex `isNormal()` in the specification's words: finite, and the real
component is normal or the imaginary component is normal. -/
def Complex.specIsNormal (f : Fmt) (z : Complex) : Bool :=
  z.isFinite && (SwiftRT.specIsNormal f z.x || SwiftRT.specIsNormal f z.y)

/-! ## Rational values of reals, for error bounds -/

/-- The rational value of a finite real, `1.0` being `1`; NaN and the infinities are
given the value `0`. -/
def Flt.toQ (f : Fmt) : Flt → ℚ
  | .fin s k => (if s then -(k : ℚ) else (k : ℚ)) / 2 ^ f.qexp
  | _ => 0

/-- The unit roundoff `2 ^ (-prec)`: the relative error bound of one rounding. -/
def Fmt.uQ (f : Fmt) : ℚ := 1 / 2 ^ f.prec

/-- Half the smallest subnormal: the absolute error bound of a rounding that underflows. -/
def Fmt.hQ (f : Fmt) : ℚ := 1 / (2 * 2 ^ f.qexp)

/-- The rational value of `numeric_limits::max()`. -/
def Fmt.maxQ (f : Fmt) : ℚ := (f.maxFiniteK : ℚ) / 2 ^ f.qexp

/-- The rational value of `numeric_limits::min()`. -/
def Fmt.minQ (f : Fmt) : ℚ := (f.minNormalK : ℚ) / 2 ^ f.qexp

/-! ## `Complex<RealType>` at an exact real type

The template instantiated at an exact ordered field (the rationals): no operation
rounds and every value is finite, so `isFinite()` is constantly true.  The field has no
`numeric_limits`, so the helper `isNormal(RealType)` is a parameter `normal`, and it has
no infinity, so a result `infinity()` is `none`. -/

namespace Exact

/-- The struct `Complex` over the rationals. -/
structure Complex where
  x : ℚ
  y : ℚ
deriving DecidableEq

namespace Complex

/-- The method `conjugate()`. -/
def conjugate (z : Complex) : Complex := ⟨z.x, -z.y⟩

/-- The method `isFinite()`: every rational is finite. -/
def isFinite (_ : Complex) : Bool := true

/-- The method `isZero()`. -/
def isZero (z : Complex) : Bool := decide (z.x = 0) && decide (z.y = 0)

/-- The constant `zero()`. -/
def zero : Complex := ⟨0, 0⟩

/-- The method `magnitude()`, on its finite branch. -/
def magnitude (z : Complex) : ℚ := max |z.x| |z.y|

/-- The method `lengthSquared()`. -/
def lengthSquared (z : Complex) : ℚ := z.x * z.x + z.y * z.y

/-- The method `multipliedBy(a)`. -/
def multipliedBy (z : Complex) (a : ℚ) : Complex := ⟨z.x * a, z.y * a⟩

/-- The method `dividedBy(a)`. -/
def dividedBy (z : Complex) (a : ℚ) : Complex := ⟨z.x / a, z.y / a⟩

/-- The operator `*`. -/
def mul (z w : Complex) : Complex :=
  ⟨z.x * w.x - z.y * w.y, z.x * w.y + z.y * w.x⟩

/-- The static method `rescaledDivide(z, w)`. -/
def rescaledDivide (normal : ℚ → Bool) (z w : Complex) : Option Complex :=
  if w.isZero then none
  else if z.isZero || !w.isFinite then some zero
  else
    let zScale := z.magnitude
    let wScale := w.magnitude
    let zNorm := z.dividedBy zScale
    let wNorm := w.dividedBy wScale
    let r := (mul zNorm wNorm.conjugate).dividedBy wNorm.lengthSquared
    if normal (zScale / wScale) then
      some (r.multipliedBy (zScale / wScale))
    else if normal (r.magnitude * zScale) then
      some ((r.multipliedBy zScale).dividedBy wScale)
    else
      some ((r.dividedBy wScale).multipliedBy zScale)

/-- The operator `/`. -/
def div (normal : ℚ → Bool) (z w : Complex) : Option Complex :=
  let lenSq := w.lengthSquared
  if normal lenSq then some (mul z (w.conjugate.dividedBy lenSq))
  else rescaledDivide normal z w

end Complex

end Exact

/-! ## kernelHelpers.h -/

/-- The constant `THREADS_PER_BLOCK`. -/
def THREADS_PER_BLOCK : Nat := 1024

/-- The function `BLOCK_COUNT` on 32-bit `unsigned`. -/
def BLOCK_COUNT (N : Nat) : Nat :=
  ((N + THREADS_PER_BLOCK - 1) % 2 ^ 32) / THREADS_PER_BLOCK


/-! ## Facts about the real type -/

theorem log2Fuel_eq (fuel n : Nat) (h : n ≤ fuel) : log2Fuel fuel n = Nat.log 2 n := by
  induction fuel generalizing n with
  | zero =>
    have : n = 0 := by omega
    subst this; simp [log2Fuel]
  | succ m ih =>
    unfold log2Fuel
    split_ifs with h2
    · rw [Nat.log_of_lt h2]
    · rw [ih (n / 2) (by omega)]
      have : 2 ≤ n := by omega
      rw [Nat.log_of_one_lt_of_le (by norm_num) this]

theorem ilog2_eq (n : Nat) : ilog2 n = Nat.log 2 n := log2Fuel_eq n n le_rfl

theorem isqrtFuel_eq (fuel n : Nat) (h : n ≤ fuel) : isqrtFuel fuel n = Nat.sqrt n := by
  induction fuel generalizing n with
  | zero =>
    have : n = 0 := by omega
    subst this; simp [isqrtFuel]
  | succ m ih =>
    unfold isqrtFuel
    have hlo := Nat.sqrt_le (n / 4)
    have hhi := Nat.lt_succ_sqrt (n / 4)
    simp only [Nat.succ_eq_add_one] at hhi
    have e1 : (2 * Nat.sqrt (n / 4) + 1 + 1) * (2 * Nat.sqrt (n / 4) + 1 + 1)
        = 4 * ((Nat.sqrt (n / 4) + 1) * (Nat.sqrt (n / 4) + 1)) := by ring
    have e2 : (2 * Nat.sqrt (n / 4)) * (2 * Nat.sqrt (n / 4))
        = 4 * (Nat.sqrt (n / 4) * Nat.sqrt (n / 4)) := by ring
    by_cases h0 : n = 0
    · subst h0; simp
    · simp only [h0, if_false]
      rw [ih (n / 4) (by omega)]
      split_ifs with h1
      · exact Nat.eq_sqrt.2 ⟨h1, by omega⟩
      · exact Nat.eq_sqrt.2 ⟨by omega, by omega⟩

theorem isqrt_eq (n : Nat) : isqrt n = Nat.sqrt n := isqrtFuel_eq n n le_rfl

namespace Flt

theorem feq_comm (x y : Flt) : eq x y = eq y x := by
  cases x <;> cases y <;> simp only [eq]
  · rw [Bool.beq_comm]
  · rename_i s a t b
    by_cases h : a = b
    · subst h
      rw [Bool.beq_comm (a := s)]
    · have h2 : ¬ b = a := fun e => h e.symm
      have e1 : (a == b) = false := by simpa using h
      have e2 : (b == a) = false := by simpa using h2
      rw [e1, e2, Bool.false_and, Bool.false_and]

theorem feq_trans {x y z : Flt} (h1 : eq x y = true) (h2 : eq y z = true) : eq x z = true := by
  cases x <;> cases y <;> cases z <;> simp only [eq] at h1 h2 ⊢ <;> try contradiction
  · simp only [beq_iff_eq] at h1 h2 ⊢
    exact h1.trans h2
  · rename_i s a t b u c
    simp only [Bool.and_eq_true, Bool.or_eq_true, beq_iff_eq] at h1 h2 ⊢
    obtain ⟨rfl, h1⟩ := h1
    obtain ⟨rfl, h2⟩ := h2
    refine ⟨rfl, ?_⟩
    rcases h1 with h1 | h1
    · exact Or.inl h1
    · rcases h2 with h2 | h2
      · exact Or.inl h2
      · exact Or.inr (h1.trans h2)

theorem eq_isfinite {x y : Flt} (h : eq x y = true) : x.isfinite = y.isfinite := by
  cases x <;> cases y <;> simp_all [eq, isfinite]

theorem eq_self_of_isfinite {x : Flt} (h : x.isfinite = true) : eq x x = true := by
  cases x <;> simp_all [eq, isfinite]

end Flt

namespace Complex

/-- Characterisation of `operator==` shared by the equality results. -/
theorem ceq_iff (a b : Complex) :
    eq a b = true ↔
      (a.isFinite = true ∧ b.isFinite = true ∧ Flt.eq a.x b.x = true ∧ Flt.eq a.y b.y = true)
      ∨ (a.isFinite = false ∧ b.isFinite = false) := by
  unfold eq
  cases ha : a.isFinite <;> cases hb : b.isFinite
  · simp
  · have key : ¬ (Flt.eq a.x b.x = true ∧ Flt.eq a.y b.y = true) := by
      rintro ⟨hx, hy⟩
      have e1 := Flt.eq_isfinite hx
      have e2 := Flt.eq_isfinite hy
      unfold isFinite at ha hb
      rw [← e1, ← e2] at hb
      rw [hb] at ha
      exact absurd ha (by decide)
    simp [key]
  · have key : ¬ (Flt.eq a.x b.x = true ∧ Flt.eq a.y b.y = true) := by
      rintro ⟨hx, hy⟩
      have e1 := Flt.eq_isfinite hx
      have e2 := Flt.eq_isfinite hy
      unfold isFinite at ha hb
      rw [e1, e2] at ha
      rw [ha] at hb
      exact absurd hb (by decide)
    simp [key]
  · simp

end Complex

namespace Complex

theorem ceq_refl (a : Complex) : eq a a = true := by
  rw [ceq_iff]
  cases ha : a.isFinite
  · exact Or.inr ⟨rfl, rfl⟩
  · left
    have h := ha
    unfold isFinite at h
    simp only [Bool.and_eq_true] at h
    exact ⟨rfl, rfl, Flt.eq_self_of_isfinite h.1, Flt.eq_self_of_isfinite h.2⟩

theorem ceq_symm {a b : Complex} (h : eq a b = true) : eq b a = true := by
  rw [ceq_iff] at h ⊢
  rcases h with ⟨ha, hb, hx, hy⟩ | ⟨ha, hb⟩
  · left
    exact ⟨hb, ha, by rw [Flt.feq_comm]; exact hx, by rw [Flt.feq_comm]; exact hy⟩
  · right
    exact ⟨hb, ha⟩

theorem ceq_trans {a b c : Complex} (h1 : eq a b = true) (h2 : eq b c = true) :
    eq a c = true := by
  rw [ceq_iff] at h1 h2 ⊢
  rcases h1 with ⟨ha, hb, hx, hy⟩ | ⟨ha, hb⟩
  · rcases h2 with ⟨_, hc, hx2, hy2⟩ | ⟨hb2, _⟩
    · left
      exact ⟨ha, hc, Flt.feq_trans hx hx2, Flt.feq_trans hy hy2⟩
    · rw [hb] at hb2
      exact absurd hb2 (by decide)
  · rcases h2 with ⟨hb2, _, _, _⟩ | ⟨_, hc⟩
    · rw [hb] at hb2
      exact absurd hb2 (by decide)
    · right
      exact ⟨ha, hc⟩

end Complex

/-! ## Equality -/

/-- C1: `operator==` is reflexive (also on values with a NaN component), symmetric and
transitive over all pairs of stored components. -/
theorem C1_eq_equivalence :
    (∀ a : Complex, Complex.eq a a = true) ∧
    (∀ a b : Complex, Complex.eq a b = true → Complex.eq b a = true) ∧
    (∀ a b c : Complex, Complex.eq a b = true → Complex.eq b c = true →
      Complex.eq a c = true) :=
  ⟨Complex.ceq_refl, fun _ _ h => Complex.ceq_symm h, fun _ _ _ h1 h2 => Complex.ceq_trans h1 h2⟩

/-- Witness of C1 on `(NaN, 0)`, `(0, +infinity)` and `(-infinity, NaN)`. -/
theorem C1_eq_equivalence_witness :
    Complex.eq ⟨.nan, Flt.zero⟩ ⟨Flt.zero, .inf false⟩ = true ∧
    Complex.eq ⟨Flt.zero, .inf false⟩ ⟨.inf true, .nan⟩ = true ∧
    Complex.eq ⟨.nan, Flt.zero⟩ ⟨.inf true, .nan⟩ = true :=
  ⟨by decide, by decide,
    C1_eq_equivalence.2.2 ⟨.nan, Flt.zero⟩ ⟨Flt.zero, .inf false⟩ ⟨.inf true, .nan⟩
      (by decide) (by decide)⟩

/-- C2: `a == b` holds exactly when both are finite with componentwise equal parts, or
neither is finite; `(NaN, 0) == (0, +infinity)`, neither equals `(0, 0)`, and a finite
value never equals a non-finite one. -/
theorem C2_eq_characterisation :
    (∀ a b : Complex, Complex.eq a b = true ↔
      ((a.isFinite = true ∧ b.isFinite = true) ∧
        Flt.eq a.x b.x = true ∧ Flt.eq a.y b.y = true)
      ∨ (a.isFinite = false ∧ b.isFinite = false)) ∧
    Complex.eq ⟨.nan, Flt.zero⟩ ⟨Flt.zero, .inf false⟩ = true ∧
    Complex.eq ⟨.nan, Flt.zero⟩ ⟨Flt.zero, Flt.zero⟩ = false ∧
    Complex.eq ⟨Flt.zero, .inf false⟩ ⟨Flt.zero, Flt.zero⟩ = false ∧
    (∀ a b : Complex, a.isFinite = true → b.isFinite = false →
      Complex.eq a b = false ∧ Complex.eq b a = false) := by
  refine ⟨?_, by decide, by decide, by decide, ?_⟩
  · intro a b
    rw [Complex.ceq_iff]
    constructor
    · rintro (⟨ha, hb, hx, hy⟩ | h)
      · exact Or.inl ⟨⟨ha, hb⟩, hx, hy⟩
      · exact Or.inr h
    · rintro (⟨⟨ha, hb⟩, hx, hy⟩ | h)
      · exact Or.inl ⟨ha, hb, hx, hy⟩
      · exact Or.inr h
  · intro a b ha hb
    constructor
    · cases h : Complex.eq a b
      · rfl
      · rw [Complex.ceq_iff] at h
        rcases h with ⟨_, hb2, _, _⟩ | ⟨ha2, _⟩
        · rw [hb] at hb2; exact absurd hb2 (by decide)
        · rw [ha] at ha2; exact absurd ha2 (by decide)
    · cases h : Complex.eq b a
      · rfl
      · rw [Complex.ceq_iff] at h
        rcases h with ⟨hb2, _, _, _⟩ | ⟨_, ha2⟩
        · rw [hb] at hb2; exact absurd hb2 (by decide)
        · rw [ha] at ha2; exact absurd ha2 (by decide)

/-- Witness of C2 on the finite `(0, 0)` and the non-finite `(NaN, 0)`. -/
theorem C2_eq_characterisation_witness :
    Complex.isFinite ⟨Flt.zero, Flt.zero⟩ = true ∧ Complex.isFinite ⟨.nan, Flt.zero⟩ = false ∧
    Complex.eq ⟨Flt.zero, Flt.zero⟩ ⟨.nan, Flt.zero⟩ = false ∧
    Complex.eq ⟨.nan, Flt.zero⟩ ⟨Flt.zero, Flt.zero⟩ = false :=
  ⟨by decide, by decide,
    C2_eq_characterisation.2.2.2.2 ⟨Flt.zero, Flt.zero⟩ ⟨.nan, Flt.zero⟩ (by decide) (by decide)⟩


/-! ## Rounding -/

theorem ilog2_zero : ilog2 0 = 0 := rfl

theorem rhe_zero (b : Nat) : rhe 0 b = 0 := by
  unfold rhe
  simp

theorem rhe_mul_self (c b : Nat) (hb : 0 < b) : rhe (c * b) b = c := by
  unfold rhe
  have h1 : c * b % b = 0 := Nat.mul_mod_left c b
  have h2 : c * b / b = c := Nat.mul_div_cancel c hb
  rw [h1, h2]
  simp [hb]

theorem round_zero (f : Fmt) (s : Bool) (d : Nat) : f.round s 0 d = .fin s 0 := by
  unfold Fmt.round
  simp [rhe_zero]

theorem round_cases (f : Fmt) (s : Bool) (n d : Nat) :
    f.round s n d = .inf s ∨ ∃ k, f.round s n d = .fin s k := by
  unfold Fmt.round
  simp only
  split_ifs
  · exact Or.inl rfl
  · exact Or.inr ⟨_, rfl⟩

/-- Rounding is exact on the values of the format. -/
theorem round_exact (f : Fmt) (s : Bool) (k d : Nat) (hd : 0 < d) (hk : f.representable k) :
    f.round s (k * d) d = .fin s k := by
  unfold Fmt.round
  obtain ⟨⟨c, hc⟩, hmax⟩ := hk
  have h1 : k * d / d = k := Nat.mul_div_cancel k hd
  simp only [h1]
  generalize f.ulpShift k = sh at hc ⊢
  have h2 : k * d = c * (d * 2 ^ sh) := by
    rw [hc]; ring
  have h3 : rhe (k * d) (d * 2 ^ sh) = c := by
    rw [h2]
    exact rhe_mul_self c _ (Nat.mul_pos hd (Nat.pos_pow_of_pos _ (by norm_num)))
  have h4 : c * 2 ^ sh = k := by
    rw [hc]; ring
  rw [h3, h4]
  simp [Nat.not_lt.2 hmax]

namespace Flt

theorem mul_one (f : Fmt) (s : Bool) (k : Nat) (hk : f.representable k) :
    mul f (.fin s k) (one f) = .fin s k := by
  unfold mul one Fmt.oneK
  simp only [Bool.xor_false]
  exact round_exact f s k _ (Nat.pos_pow_of_pos _ (by norm_num)) hk

theorem eq_zero_iff (x : Flt) : eq x zero = true ↔ ∃ s, x = .fin s 0 := by
  cases x <;> simp [eq, zero]
  intro h
  exact Or.inl h

theorem isfinite_iff (x : Flt) : x.isfinite = true ↔ ∃ s k, x = .fin s k := by
  cases x <;> simp [isfinite]

end Flt

theorem isNormal_nan (f : Fmt) : isNormal f .nan = false := by
  simp [isNormal, Flt.ge, Flt.le]

theorem isNormal_inf (f : Fmt) (s : Bool) : isNormal f (.inf s) = false := by
  cases s <;> simp [isNormal, Flt.ge, Flt.le]

theorem isNormal_neg (f : Fmt) (k : Nat) : isNormal f (.fin true k) = false := by
  by_cases hk : k = 0
  · subst hk; simp [isNormal, Flt.ne, Flt.eq, Flt.zero]
  · have : 0 < 2 ^ (f.prec - 1) := Nat.pos_pow_of_pos _ (by norm_num)
    have h2 : ¬ 2 ^ (f.prec - 1) = 0 := by omega
    simp [isNormal, Flt.ge, Flt.le, Fmt.minNormalK, h2]

theorem isNormal_zero (f : Fmt) (s : Bool) : isNormal f (.fin s 0) = false := by
  simp [isNormal, Flt.ne, Flt.eq, Flt.zero]

/-- The helper `isNormal(RealType)` holds exactly on the positive values from
`numeric_limits::min()` to `numeric_limits::max()`. -/
theorem isNormal_iff (f : Fmt) (x : Flt) :
    isNormal f x = true ↔ ∃ k, x = .fin false k ∧ f.minNormalK ≤ k ∧ k ≤ f.maxFiniteK := by
  have hpos : 0 < f.minNormalK := Nat.pos_pow_of_pos _ (by norm_num)
  cases x with
  | nan => simp [isNormal_nan]
  | inf s => simp [isNormal_inf]
  | fin s k =>
    cases s
    · by_cases hk : k = 0
      · subst hk
        rw [isNormal_zero]
        simp
        omega
      · simp [isNormal, Flt.ne, Flt.eq, Flt.zero, Flt.ge, Flt.le, hk]
    · simp [isNormal_neg]

namespace Complex

theorem isZero_iff (z : Complex) : z.isZero = true ↔ ∃ s t, z = ⟨.fin s 0, .fin t 0⟩ := by
  unfold isZero
  rw [Bool.and_eq_true, Flt.eq_zero_iff, Flt.eq_zero_iff]
  constructor
  · rintro ⟨⟨s, hs⟩, ⟨t, ht⟩⟩
    refine ⟨s, t, ?_⟩
    cases z
    simp_all
  · rintro ⟨s, t, rfl⟩
    exact ⟨⟨s, rfl⟩, ⟨t, rfl⟩⟩

theorem isFinite_of_isZero {z : Complex} (h : z.isZero = true) : z.isFinite = true := by
  obtain ⟨s, t, rfl⟩ := (isZero_iff z).1 h
  rfl

theorem isZero_of_not_isFinite {z : Complex} (h : z.isFinite = false) : z.isZero = false := by
  cases hz : z.isZero
  · rfl
  · rw [isFinite_of_isZero hz] at h
    exact absurd h (by decide)

theorem canonicalized_of_isZero (f : Fmt) {z : Complex} (h : z.isZero = true) :
    z.canonicalized f = ⟨.fin false 0, .fin false 0⟩ := by
  unfold canonicalized
  rw [h]
  rfl

theorem canonicalized_of_not_isFinite (f : Fmt) {z : Complex} (h : z.isFinite = false) :
    z.canonicalized f = ⟨.inf false, .fin false 0⟩ := by
  unfold canonicalized
  rw [isZero_of_not_isFinite h, h]
  rfl

theorem canonicalized_of_finite (f : Fmt) {z : Complex} (hw : z.wf f)
    (hz : z.isZero = false) (hf : z.isFinite = true) : z.canonicalized f = z := by
  unfold canonicalized
  rw [hz, hf]
  simp only [Bool.false_eq_true, if_false, if_true]
  obtain ⟨x, y⟩ := z
  unfold isFinite at hf
  simp only [Bool.and_eq_true, Flt.isfinite_iff] at hf
  obtain ⟨⟨s, k, rfl⟩, ⟨t, j, rfl⟩⟩ := hf
  unfold multipliedBy
  simp only
  rw [Flt.mul_one f s k hw.1, Flt.mul_one f t j hw.2]

end Complex

/-! ## Canonical representatives -/

/-- C3: `canonicalized()` is idempotent on every value of the format: canonicalizing twice
gives the same stored components as canonicalizing once, hence a value `==` to it. -/
theorem C3_canonicalized_idempotent (f : Fmt) (c : Complex) (hc : c.wf f) :
    (c.canonicalized f).canonicalized f = c.canonicalized f ∧
    Complex.eq (c.canonicalized f) ((c.canonicalized f).canonicalized f) = true := by
  have key : (c.canonicalized f).canonicalized f = c.canonicalized f := by
    cases hz : c.isZero
    · cases hf : c.isFinite
      · rw [Complex.canonicalized_of_not_isFinite f hf]
        exact Complex.canonicalized_of_not_isFinite f rfl
      · rw [Complex.canonicalized_of_finite f hc hz hf]
        exact Complex.canonicalized_of_finite f hc hz hf
    · rw [Complex.canonicalized_of_isZero f hz]
      exact Complex.canonicalized_of_isZero f rfl
  refine ⟨key, ?_⟩
  rw [key]
  exact Complex.ceq_refl _

set_option maxRecDepth 100000 in
/-- Witness of C3 in binary32 on `(1, -0)`. -/
theorem C3_canonicalized_idempotent_witness :
    Complex.wf binary32 ⟨.fin false (2 ^ 149), .fin true 0⟩ ∧
    (Complex.canonicalized binary32
      (Complex.canonicalized binary32 ⟨.fin false (2 ^ 149), .fin true 0⟩)
      = Complex.canonicalized binary32 ⟨.fin false (2 ^ 149), .fin true 0⟩ ∧
     Complex.eq (Complex.canonicalized binary32 ⟨.fin false (2 ^ 149), .fin true 0⟩)
      (Complex.canonicalized binary32
        (Complex.canonicalized binary32 ⟨.fin false (2 ^ 149), .fin true 0⟩)) = true) :=
  ⟨by decide, C3_canonicalized_idempotent binary32 ⟨.fin false (2 ^ 149), .fin true 0⟩ (by decide)⟩

/-- C4: `canonicalized()` sends every non-finite value (a component NaN, `+infinity` or
`-infinity`) to exactly `(+infinity, +0)` and every zero value (components `+0` or `-0` in
any combination) to exactly `(+0, +0)`. -/
theorem C4_canonicalized_representatives (f : Fmt) :
    (∀ z : Complex, z.isFinite = false →
      z.canonicalized f = ⟨.inf false, .fin false 0⟩) ∧
    (∀ z : Complex, z.isZero = true →
      z.canonicalized f = ⟨.fin false 0, .fin false 0⟩) ∧
    (∀ z : Complex, z.isFinite = false ↔
      (z.x = .nan ∨ z.x = .inf false ∨ z.x = .inf true ∨
       z.y = .nan ∨ z.y = .inf false ∨ z.y = .inf true)) ∧
    (∀ z : Complex, z.isZero = true ↔
      ((z.x = .fin false 0 ∨ z.x = .fin true 0) ∧ (z.y = .fin false 0 ∨ z.y = .fin true 0))) := by
  refine ⟨fun z h => Complex.canonicalized_of_not_isFinite f h,
    fun z h => Complex.canonicalized_of_isZero f h, ?_, ?_⟩
  · rintro ⟨x, y⟩
    cases x <;> cases y <;> simp [Complex.isFinite, Flt.isfinite]
  · rintro ⟨x, y⟩
    rw [Complex.isZero_iff]
    constructor
    · rintro ⟨s, t, h⟩
      cases h
      cases s <;> cases t <;> simp
    · rintro ⟨hx | hx, hy | hy⟩ <;> simp only at hx hy <;> subst hx <;> subst hy
      · exact ⟨false, false, rfl⟩
      · exact ⟨false, true, rfl⟩
      · exact ⟨true, false, rfl⟩
      · exact ⟨true, true, rfl⟩

/-- Witness of C4 in binary32 on the non-finite `(1, NaN)` and the zero `(-0, +0)`. -/
theorem C4_canonicalized_representatives_witness :
    Complex.canonicalized binary32 ⟨.fin false (2 ^ 149), .nan⟩ = ⟨.inf false, .fin false 0⟩ ∧
    Complex.canonicalized binary32 ⟨.fin true 0, .fin false 0⟩ = ⟨.fin false 0, .fin false 0⟩ :=
  ⟨(C4_canonicalized_representatives binary32).1 ⟨.fin false (2 ^ 149), .nan⟩ (by decide),
   (C4_canonicalized_representatives binary32).2.1 ⟨.fin true 0, .fin false 0⟩ (by decide)⟩


/-! ## Normality of reals -/

set_option maxRecDepth 100000 in
/-- C5: at `x = -1` in binary32 the helper `isNormal(x)` is false, while `x != 0` and
`min(R) <= |x| <= max(R)` hold; the helper compares `x`, not `|x|`, with the bounds, so
it is false on every negative value and agrees with the stated condition on the
non-negative ones. -/
theorem C5_isNormal_negative_one :
    isNormal binary32 (.fin true binary32.oneK) = false ∧
    specIsNormal binary32 (.fin true binary32.oneK) = true ∧
    (∀ (f : Fmt) (k : Nat), isNormal f (.fin true k) = false) ∧
    (∀ (f : Fmt) (k : Nat), isNormal f (.fin false k) = specIsNormal f (.fin false k)) :=
  ⟨by decide, by decide, isNormal_neg, fun _ _ => rfl⟩

/-! ## Division -/

namespace Flt

theorem mul_self_zero (f : Fmt) (s : Bool) : mul f (.fin s 0) (.fin s 0) = .fin false 0 := by
  unfold mul
  simp [round_zero]

theorem add_zero_zero (f : Fmt) : add f (.fin false 0) (.fin false 0) = .fin false 0 := by
  unfold add
  simp [round_zero]

/-- A square is `NaN`, `+infinity` or a non-negative finite value. -/
theorem mul_self_cases (f : Fmt) (x : Flt) :
    mul f x x = .nan ∨ mul f x x = .inf false ∨ ∃ k, mul f x x = .fin false k := by
  cases x with
  | nan => exact Or.inl rfl
  | inf s => right; left; simp [mul]
  | fin s k =>
    unfold mul
    simp only [Bool.xor_self]
    rcases round_cases f false (k * k) (2 ^ f.qexp) with h | h
    · exact Or.inr (Or.inl h)
    · exact Or.inr (Or.inr h)

theorem mul_self_of_not_isfinite (f : Fmt) {x : Flt} (h : x.isfinite = false) :
    mul f x x = .nan ∨ mul f x x = .inf false := by
  cases x with
  | nan => exact Or.inl rfl
  | inf s => right; simp [mul]
  | fin s k => simp [isfinite] at h

end Flt

namespace Complex

theorem lengthSquared_of_isZero (f : Fmt) {w : Complex} (h : w.isZero = true) :
    w.lengthSquared f = .fin false 0 := by
  obtain ⟨s, t, rfl⟩ := (isZero_iff w).1 h
  unfold lengthSquared
  simp only
  rw [Flt.mul_self_zero, Flt.mul_self_zero, Flt.add_zero_zero]

/-- The squared length of a non-finite value is `NaN` or `+infinity`. -/
theorem lengthSquared_of_not_isFinite (f : Fmt) {w : Complex} (h : w.isFinite = false) :
    w.lengthSquared f = .nan ∨ w.lengthSquared f = .inf false := by
  unfold lengthSquared
  unfold isFinite at h
  rw [Bool.and_eq_false_iff] at h
  rcases h with h | h
  · rcases Flt.mul_self_of_not_isfinite f h with e | e <;>
      rcases Flt.mul_self_cases f w.y with e2 | e2 | ⟨k, e2⟩ <;>
      rw [e, e2] <;> simp [Flt.add]
  · rcases Flt.mul_self_of_not_isfinite f h with e | e <;>
      rcases Flt.mul_self_cases f w.x with e2 | e2 | ⟨k, e2⟩ <;>
      rw [e, e2] <;> simp [Flt.add]

theorem lengthSquared_not_normal_of_not_isFinite (f : Fmt) {w : Complex}
    (h : w.isFinite = false) : SwiftRT.isNormal f (w.lengthSquared f) = false := by
  rcases lengthSquared_of_not_isFinite f h with e | e <;> rw [e]
  · exact isNormal_nan f
  · exact isNormal_inf f false

theorem div_of_not_normal (f : Fmt) (z w : Complex)
    (h : SwiftRT.isNormal f (w.lengthSquared f) = false) :
    div f z w = rescaledDivide f z w := by
  unfold div
  simp [h]

end Complex

/-- C6: for every dividend `z` and every divisor `w` with `w.isZero()`, the divisor's
`lengthSquared()` is not normal, `operator/` dispatches to `rescaledDivide`, and the
quotient is exactly `infinity() = (+infinity, +0)`. -/
theorem C6_div_by_zero (f : Fmt) (z w : Complex) (hw : w.isZero = true) :
    isNormal f (w.lengthSquared f) = false ∧
    Complex.div f z w = Complex.rescaledDivide f z w ∧
    Complex.div f z w = Complex.infinity ∧
    Complex.infinity = ⟨.inf false, .fin false 0⟩ := by
  have h1 : isNormal f (w.lengthSquared f) = false := by
    rw [Complex.lengthSquared_of_isZero f hw]
    exact isNormal_zero f false
  refine ⟨h1, Complex.div_of_not_normal f z w h1, ?_, rfl⟩
  rw [Complex.div_of_not_normal f z w h1]
  unfold Complex.rescaledDivide
  simp [hw]

/-- Witness of C6 in binary32: `(NaN, 1) / (-0, +0)`. -/
theorem C6_div_by_zero_witness :
    Complex.isZero ⟨.fin true 0, .fin false 0⟩ = true ∧
    Complex.div binary32 ⟨.nan, .fin false (2 ^ 149)⟩ ⟨.fin true 0, .fin false 0⟩
      = Complex.infinity :=
  ⟨by decide,
   (C6_div_by_zero binary32 ⟨.nan, .fin false (2 ^ 149)⟩ ⟨.fin true 0, .fin false 0⟩
      (by decide)).2.2.1⟩

/-- C7: for every dividend `z` and every non-finite divisor `w`, `z / w` is exactly
`zero() = (+0, +0)`; and for every non-zero divisor `w` whose `lengthSquared()` is not
normal, `zero() / w` is exactly `zero()`. -/
theorem C7_div_zero_results (f : Fmt) (z w : Complex) :
    (w.isFinite = false → Complex.div f z w = Complex.zero) ∧
    (w.isZero = false → isNormal f (w.lengthSquared f) = false →
      Complex.div f Complex.zero w = Complex.zero) ∧
    Complex.zero = ⟨.fin false 0, .fin false 0⟩ := by
  refine ⟨?_, ?_, rfl⟩
  · intro hw
    rw [Complex.div_of_not_normal f z w (Complex.lengthSquared_not_normal_of_not_isFinite f hw)]
    unfold Complex.rescaledDivide
    simp [hw, Complex.isZero_of_not_isFinite hw]
  · intro hz hn
    rw [Complex.div_of_not_normal f _ w hn]
    unfold Complex.rescaledDivide
    have : Complex.zero.isZero = true := rfl
    simp [hz, this]

set_option maxRecDepth 100000 in
/-- Witness of C7 in binary32: `(NaN, 1) / (1, -infinity)`, and `zero()` divided by the
smallest subnormal `(2^-149, 0)`, whose squared length underflows to zero. -/
theorem C7_div_zero_results_witness :
    (Complex.isFinite ⟨.fin false (2 ^ 149), .inf true⟩ = false ∧
      Complex.div binary32 ⟨.nan, .fin false (2 ^ 149)⟩ ⟨.fin false (2 ^ 149), .inf true⟩
        = Complex.zero) ∧
    (Complex.isZero ⟨.fin false 1, .fin false 0⟩ = false ∧
      isNormal binary32 (Complex.lengthSquared binary32 ⟨.fin false 1, .fin false 0⟩) = false ∧
      Complex.div binary32 Complex.zero ⟨.fin false 1, .fin false 0⟩ = Complex.zero) :=
  ⟨⟨by decide,
    (C7_div_zero_results binary32 ⟨.nan, .fin false (2 ^ 149)⟩
      ⟨.fin false (2 ^ 149), .inf true⟩).1 (by decide)⟩,
   ⟨by decide, by decide,
    (C7_div_zero_results binary32 Complex.zero ⟨.fin false 1, .fin false 0⟩).2.1
      (by decide) (by decide)⟩⟩

/-! ## Reciprocal -/

set_option maxRecDepth 100000 in
/-- C8: in binary32 the quotient `one() / (-2, 0)` is `(-0.5, -0)`, a finite value whose
real component satisfies `c != 0` and `min(R) <= |c| <= max(R)`, yet `reciprocal()` of
`(-2, 0)` is absent, because the code's `isNormal()` rejects it. -/
theorem C8_reciprocal_negative_absent :
    Complex.div binary32 (Complex.one binary32) ⟨.fin true (2 ^ 150), .fin false 0⟩
      = ⟨.fin true (2 ^ 148), .fin true 0⟩ ∧
    Complex.specIsNormal binary32 ⟨.fin true (2 ^ 148), .fin true 0⟩ = true ∧
    Complex.isNormal binary32 ⟨.fin true (2 ^ 148), .fin true 0⟩ = false ∧
    Complex.reciprocal binary32 ⟨.fin true (2 ^ 150), .fin false 0⟩ = none := by
  refine ⟨by decide, by decide, by decide, by decide⟩

/-! ## Bounds on rounded results -/

theorem rhe_le (a b c : Nat) (hb : 0 < b) (h : a ≤ c * b) : rhe a b ≤ c := by
  unfold rhe
  have hq : a / b ≤ c := Nat.div_le_of_le_mul (by rw [Nat.mul_comm]; exact h)
  rcases Nat.lt_or_ge (a / b) c with hlt | hge
  · split_ifs <;> omega
  · have hqc : a / b = c := le_antisymm hq hge
    have hm : a % b = 0 := by
      have := Nat.div_add_mod a b
      rw [hqc] at this
      have h3 : b * c = c * b := Nat.mul_comm b c
      omega
    rw [hm, hqc]
    simp [hb]

theorem le_rhe (a b c : Nat) (hb : 0 < b) (h : c * b ≤ a) : c ≤ rhe a b := by
  unfold rhe
  have hq : c ≤ a / b := (Nat.le_div_iff_mul_le hb).2 h
  split_ifs <;> omega

theorem ulpShift_mono (f : Fmt) {a b : Nat} (h : a ≤ b) : f.ulpShift a ≤ f.ulpShift b := by
  unfold Fmt.ulpShift
  rw [ilog2_eq, ilog2_eq]
  exact Nat.sub_le_sub_right (Nat.log_mono_right h) _

/-- Rounding does not exceed a value of the format that bounds the exact result. -/
theorem round_le (f : Fmt) (s : Bool) (n d K : Nat) (hd : 0 < d) (hK : f.representable K)
    (h : n ≤ K * d) : ∃ k, f.round s n d = .fin s k ∧ k ≤ K := by
  unfold Fmt.round
  simp only
  have hq : n / d ≤ K := Nat.div_le_of_le_mul (by rw [Nat.mul_comm]; exact h)
  obtain ⟨hdiv, hmax⟩ := hK
  obtain ⟨c, hc⟩ := (pow_dvd_pow 2 (ulpShift_mono f hq)).trans hdiv
  generalize f.ulpShift (n / d) = sh at hc ⊢
  have hpos : 0 < d * 2 ^ sh := Nat.mul_pos hd (Nat.pos_pow_of_pos _ (by norm_num))
  have h1 : rhe n (d * 2 ^ sh) ≤ c := by
    apply rhe_le _ _ _ hpos
    calc n ≤ K * d := h
      _ = c * (d * 2 ^ sh) := by rw [hc]; ring
  have hk : rhe n (d * 2 ^ sh) * 2 ^ sh ≤ K := by
    calc rhe n (d * 2 ^ sh) * 2 ^ sh ≤ c * 2 ^ sh := Nat.mul_le_mul_right _ h1
      _ = K := by rw [hc]; ring
  refine ⟨_, ?_, hk⟩
  simp [Nat.not_lt.2 (hk.trans hmax)]

/-- Rounding does not fall below a power of two that bounds the exact result. -/
theorem le_round (f : Fmt) (s : Bool) (n d j : Nat) (hd : 0 < d) (h : 2 ^ j * d ≤ n) :
    f.round s n d = .inf s ∨ ∃ k, f.round s n d = .fin s k ∧ 2 ^ j ≤ k := by
  have key : 2 ^ j ≤ rhe n (d * 2 ^ f.ulpShift (n / d)) * 2 ^ f.ulpShift (n / d) := by
    have hq : 2 ^ j ≤ n / d := (Nat.le_div_iff_mul_le hd).2 h
    have hq0 : n / d ≠ 0 := by
      have : 0 < 2 ^ j := Nat.pos_pow_of_pos _ (by norm_num)
      omega
    have hlog : 2 ^ f.ulpShift (n / d) ≤ n / d := by
      unfold Fmt.ulpShift
      rw [ilog2_eq]
      calc 2 ^ (Nat.log 2 (n / d) - (f.prec - 1)) ≤ 2 ^ Nat.log 2 (n / d) :=
            Nat.pow_le_pow_right (by norm_num) (Nat.sub_le _ _)
        _ ≤ n / d := Nat.pow_log_le_self 2 hq0
    generalize f.ulpShift (n / d) = sh at hlog ⊢
    have hpos : 0 < d * 2 ^ sh := Nat.mul_pos hd (Nat.pos_pow_of_pos _ (by norm_num))
    rcases Nat.le_total sh j with hle | hle
    · have h1 : 2 ^ (j - sh) ≤ rhe n (d * 2 ^ sh) := by
        apply le_rhe _ _ _ hpos
        calc 2 ^ (j - sh) * (d * 2 ^ sh) = 2 ^ (j - sh) * 2 ^ sh * d := by ring
          _ = 2 ^ j * d := by rw [← Nat.pow_add, Nat.sub_add_cancel hle]
          _ ≤ n := h
      calc 2 ^ j = 2 ^ (j - sh) * 2 ^ sh := by rw [← Nat.pow_add, Nat.sub_add_cancel hle]
        _ ≤ rhe n (d * 2 ^ sh) * 2 ^ sh := Nat.mul_le_mul_right _ h1
    · have h1 : 1 ≤ rhe n (d * 2 ^ sh) := by
        apply le_rhe _ _ _ hpos
        have := (Nat.le_div_iff_mul_le hd).1 hlog
        calc 1 * (d * 2 ^ sh) = 2 ^ sh * d := by ring
          _ ≤ n := this
      calc 2 ^ j ≤ 2 ^ sh := Nat.pow_le_pow_right (by norm_num) hle
        _ = 1 * 2 ^ sh := (Nat.one_mul _).symm
        _ ≤ rhe n (d * 2 ^ sh) * 2 ^ sh := Nat.mul_le_mul_right _ h1
  unfold Fmt.round
  simp only
  split_ifs
  · exact Or.inl rfl
  · exact Or.inr ⟨_, rfl, key⟩

/-- Rounding stays between a power of two and a value of the format that enclose the
exact result. -/
theorem round_between (f : Fmt) (s : Bool) (n d j K : Nat) (hd : 0 < d)
    (hK : f.representable K) (h1 : 2 ^ j * d ≤ n) (h2 : n ≤ K * d) :
    ∃ k, f.round s n d = .fin s k ∧ 2 ^ j ≤ k ∧ k ≤ K := by
  obtain ⟨k, hk, hle⟩ := round_le f s n d K hd hK h2
  rcases le_round f s n d j hd h1 with e | ⟨k2, e, hge⟩
  · rw [hk] at e
    cases e
  · rw [hk] at e
    cases e
    exact ⟨k, hk, hge, hle⟩


/-! ## Facts about valid formats -/

theorem pow_representable (f : Fmt) (j : Nat) (h : 2 ^ j ≤ f.maxFiniteK) :
    f.representable (2 ^ j) := by
  refine ⟨?_, h⟩
  unfold Fmt.ulpShift
  rw [ilog2_eq, Nat.log_pow (by norm_num)]
  exact pow_dvd_pow 2 (Nat.sub_le _ _)

theorem two_one_le_max (f : Fmt) (hf : f.valid) : 2 ^ (f.qexp + 1) ≤ f.maxFiniteK := by
  obtain ⟨hp, he⟩ := hf
  unfold Fmt.qexp Fmt.maxFiniteK
  have e1 : f.emax + f.prec - 2 + 1 = (f.prec - 1) + f.emax := by omega
  rw [e1, Nat.pow_add]
  have h1 : 2 ^ (f.prec - 1) ≤ 2 ^ f.prec - 1 := by
    have e2 : f.prec = (f.prec - 1) + 1 := by omega
    have h3 : 2 ^ f.prec = 2 * 2 ^ (f.prec - 1) := by
      conv_lhs => rw [e2, Nat.pow_succ]
      ring
    have h4 : 0 < 2 ^ (f.prec - 1) := Nat.pos_pow_of_pos _ (by norm_num)
    omega
  have h2 : 2 ^ f.emax ≤ 2 ^ (2 * f.emax - 1) :=
    Nat.pow_le_pow_right (by norm_num) (by omega)
  exact Nat.mul_le_mul h1 h2

theorem one_le_max (f : Fmt) (hf : f.valid) : f.oneK ≤ f.maxFiniteK := by
  unfold Fmt.oneK
  calc 2 ^ f.qexp ≤ 2 ^ (f.qexp + 1) := Nat.pow_le_pow_right (by norm_num) (Nat.le_succ _)
    _ ≤ f.maxFiniteK := two_one_le_max f hf

theorem min_le_one (f : Fmt) (hf : f.valid) : f.minNormalK ≤ f.oneK := by
  obtain ⟨hp, he⟩ := hf
  unfold Fmt.minNormalK Fmt.oneK Fmt.qexp
  exact Nat.pow_le_pow_right (by norm_num) (by omega)

theorem one_representable (f : Fmt) (hf : f.valid) : f.representable f.oneK :=
  pow_representable f f.qexp (one_le_max f hf)

theorem two_representable (f : Fmt) (hf : f.valid) : f.representable (2 * f.oneK) := by
  have : 2 * f.oneK = 2 ^ (f.qexp + 1) := by
    unfold Fmt.oneK
    rw [Nat.pow_succ]; ring
  rw [this]
  exact pow_representable f _ (two_one_le_max f hf)

/-- Values from `1.0` to `2.0` are normal for the helper `isNormal`. -/
theorem isNormal_of_one_two (f : Fmt) (hf : f.valid) (k : Nat) (h1 : f.oneK ≤ k)
    (h2 : k ≤ 2 * f.oneK) : isNormal f (.fin false k) = true := by
  rw [isNormal_iff]
  refine ⟨k, rfl, (min_le_one f hf).trans h1, h2.trans (two_representable f hf).2⟩

/-! ## Bounds on the rounded square root -/

theorem roundSqrt_bounds (f : Fmt) (n q : Nat) (h1 : 2 ^ q * 2 ^ q ≤ n)
    (h2 : n < (2 * 2 ^ q) * (2 * 2 ^ q)) :
    2 ^ q ≤ Flt.roundSqrt f n ∧ Flt.roundSqrt f n ≤ 2 * 2 ^ q := by
  unfold Flt.roundSqrt
  simp only [isqrt_eq]
  have hr : Nat.sqrt n < 2 * 2 ^ q := Nat.sqrt_lt.2 h2
  have hsh : f.ulpShift (Nat.sqrt n) ≤ q := by
    unfold Fmt.ulpShift
    rw [ilog2_eq]
    have : Nat.log 2 (Nat.sqrt n) < q + 1 := by
      apply Nat.log_lt_of_lt_pow
      · have : 2 ^ q ≤ Nat.sqrt n := Nat.le_sqrt.2 h1
        have : 0 < 2 ^ q := Nat.pos_pow_of_pos _ (by norm_num)
        omega
      · rw [Nat.pow_succ]; omega
    omega
  generalize f.ulpShift (Nat.sqrt n) = sh at hsh ⊢
  have eq : 2 ^ q = 2 ^ (q - sh) * 2 ^ sh := by
    rw [← Nat.pow_add, Nat.sub_add_cancel hsh]
  have e4 : 4 ^ sh = 2 ^ sh * 2 ^ sh := by
    rw [← Nat.mul_pow]
  have hB : 0 < 2 ^ sh * 2 ^ sh := Nat.mul_pos (Nat.pos_pow_of_pos _ (by norm_num))
    (Nat.pos_pow_of_pos _ (by norm_num))
  rw [e4]
  generalize 2 ^ (q - sh) = A at eq
  generalize 2 ^ sh = B at eq hB ⊢
  rw [eq] at h1 h2 ⊢
  have hlo : A ≤ Nat.sqrt (n / (B * B)) := by
    rw [Nat.le_sqrt, Nat.le_div_iff_mul_le hB]
    calc A * A * (B * B) = A * B * (A * B) := by ring
      _ ≤ n := h1
  have hhi : Nat.sqrt (n / (B * B)) < 2 * A := by
    rw [Nat.sqrt_lt, Nat.div_lt_iff_lt_mul hB]
    calc n < 2 * (A * B) * (2 * (A * B)) := h2
      _ = 2 * A * (2 * A) * (B * B) := by ring
  generalize Nat.sqrt (n / (B * B)) = m at hlo hhi ⊢
  have aux : ∀ c : Bool, A * B ≤ (if c = true then m + 1 else m) * B ∧
      (if c = true then m + 1 else m) * B ≤ 2 * (A * B) := by
    intro c
    have e : 2 * (A * B) = (2 * A) * B := by ring
    rw [e]
    cases c
    · simp only [Bool.false_eq_true, if_false]
      exact ⟨Nat.mul_le_mul_right _ hlo, Nat.mul_le_mul_right _ (by omega)⟩
    · simp only [if_true]
      exact ⟨Nat.mul_le_mul_right _ (by omega), Nat.mul_le_mul_right _ (by omega)⟩
  exact aux _

theorem sqrtK_bounds (f : Fmt) (v : Nat) (h1 : f.oneK ≤ v) (h2 : v ≤ 2 * f.oneK) :
    f.oneK ≤ Flt.sqrtK f v ∧ Flt.sqrtK f v ≤ 2 * f.oneK := by
  unfold Flt.sqrtK
  unfold Fmt.oneK at *
  have hpos : 0 < 2 ^ f.qexp := Nat.pos_pow_of_pos _ (by norm_num)
  apply roundSqrt_bounds
  · exact Nat.mul_le_mul_right _ h1
  · calc v * 2 ^ f.qexp ≤ 2 * 2 ^ f.qexp * 2 ^ f.qexp := Nat.mul_le_mul_right _ h2
      _ < 2 * 2 ^ f.qexp * (2 * 2 ^ f.qexp) := by
        apply Nat.mul_lt_mul_of_pos_left _ (by omega)
        omega


/-! ## Normalization -/

namespace Flt

theorem max_fin (a b : Nat) :
    max (.fin false a) (.fin false b) = .fin false (if a < b then b else a) := by
  unfold max
  simp only [lt, le, eq]
  by_cases h : a < b
  · have h1 : a ≤ b := Nat.le_of_lt h
    have h2 : ¬ a = b := Nat.ne_of_lt h
    simp [h, h1, h2]
  · by_cases h3 : a = b
    · subst h3; simp
    · have h1 : ¬ a ≤ b := by omega
      simp [h, h1]

theorem div_fin (f : Fmt) (s : Bool) (a m : Nat) (hm : m ≠ 0) :
    div f (.fin s a) (.fin false m) = f.round s (a * 2 ^ f.qexp) m := by
  unfold div
  simp [hm]

end Flt

namespace Complex

theorem isFinite_iff (z : Complex) :
    z.isFinite = true ↔ ∃ sx kx sy ky, z = ⟨.fin sx kx, .fin sy ky⟩ := by
  obtain ⟨x, y⟩ := z
  unfold isFinite
  simp only [Bool.and_eq_true, Flt.isfinite_iff]
  constructor
  · rintro ⟨⟨sx, kx, rfl⟩, ⟨sy, ky, rfl⟩⟩
    exact ⟨sx, kx, sy, ky, rfl⟩
  · rintro ⟨sx, kx, sy, ky, h⟩
    cases h
    exact ⟨⟨sx, kx, rfl⟩, ⟨sy, ky, rfl⟩⟩

theorem isZero_fin (sx sy : Bool) (kx ky : Nat) :
    isZero ⟨.fin sx kx, .fin sy ky⟩ = true ↔ kx = 0 ∧ ky = 0 := by
  rw [isZero_iff]
  constructor
  · rintro ⟨s, t, h⟩
    cases h
    exact ⟨rfl, rfl⟩
  · rintro ⟨rfl, rfl⟩
    exact ⟨sx, sy, rfl⟩

theorem magnitude_fin (sx sy : Bool) (kx ky : Nat) :
    magnitude ⟨.fin sx kx, .fin sy ky⟩ = .fin false (if kx < ky then ky else kx) := by
  unfold magnitude
  simp only [isFinite, Flt.isfinite, Bool.and_self, if_true, Flt.abs]
  exact Flt.max_fin kx ky

/-- Dividing a finite non-zero value by its `magnitude()` gives components of absolute
value at most `1`, one of them exactly `1`. -/
theorem dividedBy_magnitude (f : Fmt) (hf : f.valid) (z : Complex)
    (hfin : z.isFinite = true) (hz : z.isZero = false) :
    ∃ sx sy a b, z.dividedBy f z.magnitude = ⟨.fin sx a, .fin sy b⟩ ∧
      a ≤ f.oneK ∧ b ≤ f.oneK ∧ (a = f.oneK ∨ b = f.oneK) := by
  obtain ⟨sx, kx, sy, ky, rfl⟩ := (isFinite_iff z).1 hfin
  have hnz : ¬ (kx = 0 ∧ ky = 0) := by
    intro h
    rw [(isZero_fin sx sy kx ky).2 h] at hz
    exact absurd hz (by decide)
  rw [magnitude_fin]
  have hone := one_representable f hf
  have hQ : f.oneK = 2 ^ f.qexp := rfl
  by_cases hlt : kx < ky
  · simp only [hlt, if_true]
    have hm : ky ≠ 0 := by omega
    unfold dividedBy
    simp only
    rw [Flt.div_fin f sx kx ky hm, Flt.div_fin f sy ky ky hm]
    obtain ⟨a, ha, hale⟩ := round_le f sx (kx * 2 ^ f.qexp) ky f.oneK (by omega) hone
      (by rw [hQ, Nat.mul_comm]; exact Nat.mul_le_mul_left _ (Nat.le_of_lt hlt))
    have hb : f.round sy (ky * 2 ^ f.qexp) ky = .fin sy f.oneK := by
      rw [Nat.mul_comm]
      exact round_exact f sy f.oneK ky (by omega) hone
    rw [ha, hb]
    exact ⟨sx, sy, a, f.oneK, rfl, hale, le_rfl, Or.inr rfl⟩
  · simp only [hlt, if_false]
    have hm : kx ≠ 0 := by omega
    unfold dividedBy
    simp only
    rw [Flt.div_fin f sx kx kx hm, Flt.div_fin f sy ky kx hm]
    obtain ⟨b, hb, hble⟩ := round_le f sy (ky * 2 ^ f.qexp) kx f.oneK (by omega) hone
      (by rw [hQ, Nat.mul_comm]; exact Nat.mul_le_mul_left _ (Nat.le_of_not_lt hlt))
    have ha : f.round sx (kx * 2 ^ f.qexp) kx = .fin sx f.oneK := by
      rw [Nat.mul_comm]
      exact round_exact f sx f.oneK kx (by omega) hone
    rw [ha, hb]
    exact ⟨sx, sy, f.oneK, b, rfl, le_rfl, hble, Or.inl rfl⟩

/-- The square of a component of absolute value at most `1` is at most `1`, and the
square of `±1` is `1`. -/
theorem mul_self_unit (f : Fmt) (hf : f.valid) (s : Bool) (a : Nat) (ha : a ≤ f.oneK) :
    ∃ u, Flt.mul f (.fin s a) (.fin s a) = .fin false u ∧ u ≤ f.oneK ∧
      (a = f.oneK → u = f.oneK) := by
  have hone := one_representable f hf
  have hQ : f.oneK = 2 ^ f.qexp := rfl
  have hpos : 0 < 2 ^ f.qexp := Nat.pos_pow_of_pos _ (by norm_num)
  unfold Flt.mul
  simp only [Bool.xor_self]
  obtain ⟨u, hu, hule⟩ := round_le f false (a * a) (2 ^ f.qexp) f.oneK hpos hone
    (by rw [← hQ]; exact Nat.mul_le_mul ha ha)
  refine ⟨u, hu, hule, ?_⟩
  intro e
  subst e
  have := round_exact f false f.oneK (2 ^ f.qexp) hpos hone
  rw [← hQ] at this hu
  rw [this] at hu
  cases hu
  rfl

/-- On a value with components of absolute value at most `1`, one of them `1`, the
squared length lies between `1` and `2`. -/
theorem lengthSquared_unit (f : Fmt) (hf : f.valid) (sx sy : Bool) (a b : Nat)
    (ha : a ≤ f.oneK) (hb : b ≤ f.oneK) (h1 : a = f.oneK ∨ b = f.oneK) :
    ∃ v, lengthSquared f ⟨.fin sx a, .fin sy b⟩ = .fin false v ∧
      f.oneK ≤ v ∧ v ≤ 2 * f.oneK := by
  obtain ⟨u, hu, hule, hu1⟩ := mul_self_unit f hf sx a ha
  obtain ⟨w, hw, hwle, hw1⟩ := mul_self_unit f hf sy b hb
  unfold lengthSquared
  simp only
  rw [hu, hw]
  unfold Flt.add
  simp only [if_true]
  have hQ : f.oneK = 2 ^ f.qexp := rfl
  have hlo : 2 ^ f.qexp * 1 ≤ u + w := by
    rw [← hQ]
    rcases h1 with e | e
    · have := hu1 e; omega
    · have := hw1 e; omega
  obtain ⟨v, hv, hvlo, hvhi⟩ := round_between f false (u + w) 1 f.qexp (2 * f.oneK)
    (by norm_num) (two_representable f hf) hlo (by omega)
  exact ⟨v, hv, hvlo, hvhi⟩

/-- On such a value `length()` takes the square-root branch and is normal. -/
theorem length_unit_normal (f : Fmt) (hf : f.valid) (M : Libm) (sx sy : Bool) (a b : Nat)
    (ha : a ≤ f.oneK) (hb : b ≤ f.oneK) (h1 : a = f.oneK ∨ b = f.oneK) :
    SwiftRT.isNormal f (length f M ⟨.fin sx a, .fin sy b⟩) = true := by
  obtain ⟨v, hv, hvlo, hvhi⟩ := lengthSquared_unit f hf sx sy a b ha hb h1
  unfold length
  simp only
  rw [hv, isNormal_of_one_two f hf v hvlo hvhi]
  simp only [if_true]
  have hpos : 0 < f.oneK := Nat.pos_pow_of_pos _ (by norm_num)
  have hv0 : v ≠ 0 := by omega
  unfold Flt.sqrt
  simp only [hv0, if_false, Bool.false_eq_true]
  obtain ⟨h3, h4⟩ := sqrtK_bounds f v hvlo hvhi
  exact isNormal_of_one_two f hf _ h3 h4

theorem length_of_isZero (f : Fmt) (M : Libm) (hM : M.hypotZero) {z : Complex}
    (hz : z.isZero = true) : length f M z = .fin false 0 := by
  unfold length
  simp only
  rw [lengthSquared_of_isZero f hz, isNormal_zero]
  simp only [Bool.false_eq_true, if_false]
  unfold carefulLength
  rw [isFinite_of_isZero hz]
  obtain ⟨s, t, rfl⟩ := (isZero_iff z).1 hz
  exact hM s t

theorem length_of_not_isFinite (f : Fmt) (M : Libm) {z : Complex}
    (hz : z.isFinite = false) : length f M z = .inf false := by
  unfold length
  simp only
  rw [lengthSquared_not_normal_of_not_isFinite f hz]
  simp only [Bool.false_eq_true, if_false]
  unfold carefulLength
  rw [hz]
  simp

end Complex

/-- C9: with fuel for one retry, `normalized()` returns; the result is absent exactly
when the value is zero or not finite, and present for every finite non-zero value,
whatever its `length()`. -/
theorem C9_normalized_absent_iff (f : Fmt) (hf : f.valid) (M : Libm) (hM : M.hypotZero)
    (z : Complex) (fuel : Nat) (hfuel : 2 ≤ fuel) :
    ∃ r, Complex.normalized f M fuel z = some r ∧
      (r = none ↔ (z.isZero = true ∨ z.isFinite = false)) ∧
      (z.isZero = true ∨ z.isFinite = false → r = none) ∧
      (z.isFinite = true → z.isZero = false → ∃ v, r = some v) := by
  obtain ⟨n, rfl⟩ : ∃ n, fuel = n + 2 := ⟨fuel - 2, by omega⟩
  have main : ∃ r, Complex.normalized f M (n + 2) z = some r ∧
      (r = none ↔ (z.isZero = true ∨ z.isFinite = false)) := by
    by_cases hzero : z.isZero = true
    · refine ⟨none, ?_, by simp [hzero]⟩
      unfold Complex.normalized
      rw [Complex.length_of_isZero f M hM hzero, isNormal_zero]
      simp [hzero]
    · have hzero' : z.isZero = false := by simpa using hzero
      by_cases hfin : z.isFinite = true
      · by_cases hn : isNormal f (z.length f M) = true
        · refine ⟨some (z.dividedBy f (z.length f M)), ?_, by simp [hzero', hfin]⟩
          unfold Complex.normalized
          simp [hn]
        · have hn' : isNormal f (z.length f M) = false := by simpa using hn
          obtain ⟨sx, sy, a, b, hd, ha, hb, h1⟩ :=
            Complex.dividedBy_magnitude f hf z hfin hzero'
          have hlen := Complex.length_unit_normal f hf M sx sy a b ha hb h1
          refine ⟨some (Complex.dividedBy f ⟨.fin sx a, .fin sy b⟩
            (Complex.length f M ⟨.fin sx a, .fin sy b⟩)), ?_, by simp [hzero', hfin]⟩
          unfold Complex.normalized
          simp only [hn', hzero', hfin, Bool.false_eq_true, if_false, Bool.not_true,
            Bool.or_self]
          rw [hd]
          unfold Complex.normalized
          simp [hlen]
      · have hfin' : z.isFinite = false := by simpa using hfin
        refine ⟨none, ?_, by simp [hfin']⟩
        unfold Complex.normalized
        rw [Complex.length_of_not_isFinite f M hfin', isNormal_inf]
        simp [hfin']
  obtain ⟨r, hr, hiff⟩ := main
  refine ⟨r, hr, hiff, hiff.2, ?_⟩
  intro hfin hz
  cases r with
  | none =>
    rcases hiff.1 rfl with h | h
    · rw [hz] at h; exact absurd h (by decide)
    · rw [hfin] at h; exact absurd h (by decide)
  | some v => exact ⟨v, rfl⟩


theorem sample_hypotZero (f : Fmt) : (Libm.sample f).hypotZero := by
  intro s t
  show Flt.hypotRef f (.fin s 0) (.fin t 0) = .fin false 0
  have h : Flt.roundSqrt f (0 * 0 + 0 * 0) = 0 := by
    unfold Flt.roundSqrt Fmt.ulpShift
    simp [isqrt_eq, ilog2_eq]
  unfold Flt.hypotRef
  simp only [h]
  simp

set_option maxRecDepth 100000 in
/-- Witness of C9 in binary32 on the smallest subnormal `(2^-149, 0)`, whose `length()`
is subnormal: the retry yields `(1, 0)`. -/
theorem C9_normalized_absent_iff_witness :
    binary32.valid ∧ (Libm.sample binary32).hypotZero ∧
    Complex.normalized binary32 (Libm.sample binary32) 2 ⟨.fin false 1, .fin false 0⟩
      = some (some ⟨.fin false (2 ^ 149), .fin false 0⟩) ∧
    ∃ r, Complex.normalized binary32 (Libm.sample binary32) 2 ⟨.fin false 1, .fin false 0⟩
        = some r ∧
      (r = none ↔ (Complex.isZero ⟨.fin false 1, .fin false 0⟩ = true ∨
        Complex.isFinite ⟨.fin false 1, .fin false 0⟩ = false)) ∧
      (Complex.isZero ⟨.fin false 1, .fin false 0⟩ = true ∨
        Complex.isFinite ⟨.fin false 1, .fin false 0⟩ = false → r = none) ∧
      (Complex.isFinite ⟨.fin false 1, .fin false 0⟩ = true →
        Complex.isZero ⟨.fin false 1, .fin false 0⟩ = false → ∃ v, r = some v) :=
  ⟨by decide, sample_hypotZero binary32, by decide,
   C9_normalized_absent_iff binary32 (by decide) (Libm.sample binary32)
     (sample_hypotZero binary32) ⟨.fin false 1, .fin false 0⟩ 2 (by decide)⟩

/-! ## Polar construction -/

/-- C10: with length `+infinity` and a phase that is NaN, `+infinity` or `-infinity`, the
`assert` of the polar constructor fails (it asks for a zero or finite length); with a
finite phase the construction is accepted and the value `== infinity()`. -/
theorem C10_polar_infinite_length (f : Fmt) (M : Libm) :
    Complex.ofPolar f M ⟨.inf false, .nan⟩ = none ∧
    Complex.ofPolar f M ⟨.inf false, .inf false⟩ = none ∧
    Complex.ofPolar f M ⟨.inf false, .inf true⟩ = none ∧
    (∀ (s : Bool) (k : Nat), ∃ v, Complex.ofPolar f M ⟨.inf false, .fin s k⟩ = some v ∧
      Complex.eq v Complex.infinity = true) := by
  refine ⟨rfl, rfl, rfl, ?_⟩
  intro s k
  refine ⟨_, rfl, ?_⟩
  rw [Complex.ceq_iff]
  right
  refine ⟨?_, rfl⟩
  unfold Complex.multipliedBy Complex.isFinite
  simp only
  cases M.cos (.fin s k) <;> simp [Flt.mul, Flt.isfinite]
  split_ifs <;> simp



namespace Flt

theorem neg_round (f : Fmt) (s : Bool) (n d : Nat) :
    neg (f.round s n d) = f.round (!s) n d := by
  unfold Fmt.round
  simp only
  split_ifs <;> rfl

/-- Multiplying by the negated factor negates the product. -/
theorem mul_neg (f : Fmt) (x r : Flt) : mul f x (neg r) = neg (mul f x r) := by
  cases x <;> cases r <;> simp only [mul, neg]
  · rename_i s t
    cases s <;> cases t <;> rfl
  · split_ifs
    · rfl
    · rename_i s t k h
      cases s <;> cases t <;> rfl
  · split_ifs
    · rfl
    · rename_i s k t h
      cases s <;> cases t <;> rfl
  · rename_i s a t b
    have h := neg_round f (xor s t) (a * b) (2 ^ f.qexp)
    unfold neg at h
    rw [h]
    cases s <;> cases t <;> rfl

theorem neg_isfinite (x : Flt) : (neg x).isfinite = x.isfinite := by
  cases x <;> rfl

theorem eq_zero_neg (x : Flt) : eq (neg x) zero = eq x zero := by
  cases x with
  | nan => rfl
  | inf s => rfl
  | fin s k =>
    simp only [eq, neg, zero]
    by_cases h : k = 0
    · subst h; simp
    · have e : (k == 0) = false := by simpa using h
      rw [e]; rfl

theorem mul_zero_of_isfinite (f : Fmt) {x : Flt} (h : x.isfinite = true) (s : Bool) :
    ∃ t, mul f x (.fin s 0) = .fin t 0 := by
  obtain ⟨t, k, rfl⟩ := (isfinite_iff x).1 h
  unfold mul
  simp only [Nat.mul_zero]
  exact ⟨_, round_zero f _ _⟩

end Flt

/-- C11: with a phase that is NaN, `+infinity` or `-infinity`, every finite non-zero
length passes the `assert` of the polar constructor, and the value `(length, +0)` is
constructed; in binary32, `Polar(1, NaN)` gives `(1, 0)`. -/
theorem C11_polar_nonfinite_phase_finite_length (f : Fmt) (M : Libm) :
    (∀ (s : Bool) (k : Nat),
      Complex.ofPolar f M ⟨.fin s k, .nan⟩ = some ⟨.fin s k, .fin false 0⟩ ∧
      Complex.ofPolar f M ⟨.fin s k, .inf false⟩ = some ⟨.fin s k, .fin false 0⟩ ∧
      Complex.ofPolar f M ⟨.fin s k, .inf true⟩ = some ⟨.fin s k, .fin false 0⟩) ∧
    Complex.ofPolar binary32 M ⟨Flt.one binary32, .nan⟩
      = some ⟨Flt.one binary32, .fin false 0⟩ := by
  have h : ∀ (s : Bool) (k : Nat) (θ : Flt), θ.isfinite = false →
      Complex.ofPolar f M ⟨.fin s k, θ⟩ = some ⟨.fin s k, .fin false 0⟩ := by
    intro s k θ hθ
    unfold Complex.ofPolar
    simp only [hθ, Bool.false_eq_true, if_false]
    simp [Flt.isfinite, Complex.ofReal, Flt.zero]
  refine ⟨fun s k => ⟨h s k _ rfl, h s k _ rfl, h s k _ rfl⟩, ?_⟩
  unfold Complex.ofPolar
  simp [Flt.isfinite, Complex.ofReal, Flt.zero, Flt.one]

/-- C12: for every phase, polar construction with a zero length (of either sign) is
accepted and the constructed value is zero, hence `== zero()`; for a finite phase this
uses that `cos` and `sin` of it are finite. -/
theorem C12_polar_zero_length (f : Fmt) (M : Libm) (s : Bool) (θ : Flt)
    (hcos : θ.isfinite = true → (M.cos θ).isfinite = true)
    (hsin : θ.isfinite = true → (M.sin θ).isfinite = true) :
    ∃ v, Complex.ofPolar f M ⟨.fin s 0, θ⟩ = some v ∧
      Complex.eq v Complex.zero = true ∧ v.isZero = true ∧
      (v.x = .fin false 0 ∨ v.x = .fin true 0) ∧ (v.y = .fin false 0 ∨ v.y = .fin true 0) := by
  have key : ∃ v, Complex.ofPolar f M ⟨.fin s 0, θ⟩ = some v ∧ v.isZero = true := by
    unfold Complex.ofPolar
    cases hθ : θ.isfinite
    · refine ⟨Complex.ofReal (.fin s 0), ?_, ?_⟩
      · simp [Flt.eq, Flt.zero]
      · rw [Complex.isZero_iff]
        exact ⟨s, false, rfl⟩
    · obtain ⟨a, ha⟩ := Flt.mul_zero_of_isfinite f (hcos hθ) s
      obtain ⟨b, hb⟩ := Flt.mul_zero_of_isfinite f (hsin hθ) s
      refine ⟨⟨.fin a 0, .fin b 0⟩, ?_, ?_⟩
      · simp only [if_true]
        unfold Complex.multipliedBy
        simp only
        rw [ha, hb]
      · rw [Complex.isZero_iff]
        exact ⟨a, b, rfl⟩
  obtain ⟨v, hv, hz⟩ := key
  refine ⟨v, hv, ?_, hz, ?_⟩
  · rw [Complex.ceq_iff]
    left
    have hz2 := hz
    unfold Complex.isZero at hz2
    simp only [Bool.and_eq_true] at hz2
    exact ⟨Complex.isFinite_of_isZero hz, rfl, hz2.1, hz2.2⟩
  · obtain ⟨a, b, rfl⟩ := (Complex.isZero_iff v).1 hz
    cases a <;> cases b <;> simp

/-- Witness of C12 in binary32 at the phases `0` (where the sample `cos` and `sin` are
`1` and `0`) and NaN. -/
theorem C12_polar_zero_length_witness :
    (∃ v, Complex.ofPolar binary32 (Libm.sample binary32) ⟨.fin true 0, .fin false 0⟩ = some v ∧
      Complex.eq v Complex.zero = true ∧ v.isZero = true ∧
      (v.x = .fin false 0 ∨ v.x = .fin true 0) ∧ (v.y = .fin false 0 ∨ v.y = .fin true 0)) ∧
    (∃ v, Complex.ofPolar binary32 (Libm.sample binary32) ⟨.fin false 0, .nan⟩ = some v ∧
      Complex.eq v Complex.zero = true ∧ v.isZero = true ∧
      (v.x = .fin false 0 ∨ v.x = .fin true 0) ∧ (v.y = .fin false 0 ∨ v.y = .fin true 0)) :=
  ⟨C12_polar_zero_length binary32 (Libm.sample binary32) true (.fin false 0)
      (fun _ => rfl) (fun _ => rfl),
   C12_polar_zero_length binary32 (Libm.sample binary32) false .nan
      (fun h => absurd h (by decide)) (fun h => absurd h (by decide))⟩


namespace Complex

theorem multipliedBy_neg (f : Fmt) (z : Complex) (r : Flt) :
    z.multipliedBy f (Flt.neg r) = neg (z.multipliedBy f r) := by
  unfold multipliedBy neg
  simp only
  rw [Flt.mul_neg, Flt.mul_neg]

end Complex

/-- C13: negative lengths reflect through the origin.  Whenever the construction from
`(r, θ)` is accepted, so is the one from `(-r, θ)`, and its value is `==` to the negated
value; for finite `θ` both are `(cos θ, sin θ).multipliedBy(∓r)` with identical stored
components, for non-finite `θ` they are `Complex(-r)` and `-Complex(r)`. -/
theorem C13_polar_negative_length (f : Fmt) (M : Libm) (r θ : Flt) (v : Complex)
    (h : Complex.ofPolar f M ⟨r, θ⟩ = some v) :
    ∃ w, Complex.ofPolar f M ⟨Flt.neg r, θ⟩ = some w ∧
      Complex.eq w (Complex.neg v) = true ∧
      (θ.isfinite = true →
        v = Complex.multipliedBy f ⟨M.cos θ, M.sin θ⟩ r ∧
        w = Complex.multipliedBy f ⟨M.cos θ, M.sin θ⟩ (Flt.neg r) ∧ w = Complex.neg v) ∧
      (θ.isfinite = false → v = Complex.ofReal r ∧ w = Complex.ofReal (Flt.neg r)) := by
  unfold Complex.ofPolar at h ⊢
  cases hθ : θ.isfinite
  · simp only [hθ, Bool.false_eq_true, if_false] at h ⊢
    simp only [Flt.neg_isfinite, Flt.eq_zero_neg]
    by_cases hr : (Flt.eq r Flt.zero || r.isfinite) = true
    · simp only [hr, if_true] at h ⊢
      cases h
      refine ⟨_, rfl, ?_, fun h => absurd h (by decide), fun _ => ⟨rfl, rfl⟩⟩
      have hfin : r.isfinite = true := by
        rcases Bool.or_eq_true _ _ ▸ hr with h1 | h1
        · obtain ⟨s, rfl⟩ := (Flt.eq_zero_iff r).1 h1
          rfl
        · exact h1
      obtain ⟨s, k, rfl⟩ := (Flt.isfinite_iff r).1 hfin
      simp [Complex.eq, Complex.ofReal, Complex.neg, Complex.isFinite, Flt.isfinite, Flt.neg,
        Flt.eq, Flt.zero]
    · simp only [hr, if_false] at h
      cases h
  · simp only [hθ, if_true] at h ⊢
    cases h
    refine ⟨_, rfl, ?_, fun _ => ⟨rfl, rfl, Complex.multipliedBy_neg f _ r⟩,
      fun h => absurd h (by decide)⟩
    rw [Complex.multipliedBy_neg]
    exact Complex.ceq_refl _

/-- Witness of C13 in binary32: `Polar(1, NaN)` is accepted with value `(1, +0)`, and
`Polar(-1, NaN)` gives `(-1, +0)`, which is `==` to `-(1, +0) = (-1, -0)`. -/
theorem C13_polar_negative_length_witness :
    Complex.ofPolar binary32 (Libm.sample binary32) ⟨Flt.one binary32, .nan⟩
      = some ⟨Flt.one binary32, .fin false 0⟩ ∧
    ∃ w, Complex.ofPolar binary32 (Libm.sample binary32) ⟨Flt.neg (Flt.one binary32), .nan⟩
        = some w ∧
      Complex.eq w (Complex.neg ⟨Flt.one binary32, .fin false 0⟩) = true ∧
      (Flt.isfinite .nan = true →
        (⟨Flt.one binary32, .fin false 0⟩ : Complex) = Complex.multipliedBy binary32
          ⟨(Libm.sample binary32).cos .nan, (Libm.sample binary32).sin .nan⟩
          (Flt.one binary32) ∧
        w = Complex.multipliedBy binary32
          ⟨(Libm.sample binary32).cos .nan, (Libm.sample binary32).sin .nan⟩
          (Flt.neg (Flt.one binary32)) ∧
        w = Complex.neg ⟨Flt.one binary32, .fin false 0⟩) ∧
      (Flt.isfinite .nan = false →
        (⟨Flt.one binary32, .fin false 0⟩ : Complex) = Complex.ofReal (Flt.one binary32) ∧
        w = Complex.ofReal (Flt.neg (Flt.one binary32))) :=
  ⟨rfl, C13_polar_negative_length binary32 (Libm.sample binary32) (Flt.one binary32) .nan
    ⟨Flt.one binary32, .fin false 0⟩ rfl⟩


/-! ## Norms and phase -/

/-- C14: `polar()` of a non-finite value is `(+infinity, NaN)`; of a zero value (any
signs) it is `(+0, NaN)`, given `hypot(±0, ±0) = +0`; and `phase()` is `atan2(im, re)`
on finite non-zero values and NaN on all others. -/
theorem C14_polar_edge_cases (f : Fmt) (M : Libm) (hM : M.hypotZero) (z : Complex) :
    (z.isFinite = false → z.polar f M = ⟨.inf false, .nan⟩) ∧
    (z.isZero = true → z.polar f M = ⟨.fin false 0, .nan⟩) ∧
    (z.isFinite = true → z.isZero = false → z.phase M = M.atan2 z.y z.x) ∧
    (z.isFinite = false ∨ z.isZero = true → z.phase M = .nan) := by
  refine ⟨?_, ?_, ?_, ?_⟩
  · intro h
    unfold Complex.polar Complex.phase
    rw [Complex.length_of_not_isFinite f M h, h]
    rfl
  · intro h
    unfold Complex.polar Complex.phase
    rw [Complex.length_of_isZero f M hM h, h]
    simp
  · intro h1 h2
    unfold Complex.phase
    rw [h1, h2]
    rfl
  · intro h
    unfold Complex.phase
    rcases h with h | h
    · rw [h]; rfl
    · rw [h]; simp

set_option maxRecDepth 100000 in
/-- Witness of C14 in binary32 on `(NaN, 1)`, `(-0, +0)` and `(1, 0)`. -/
theorem C14_polar_edge_cases_witness :
    (Libm.sample binary32).hypotZero ∧
    Complex.polar binary32 (Libm.sample binary32) ⟨.nan, Flt.one binary32⟩
      = ⟨.inf false, .nan⟩ ∧
    Complex.polar binary32 (Libm.sample binary32) ⟨.fin true 0, .fin false 0⟩
      = ⟨.fin false 0, .nan⟩ ∧
    Complex.phase (Libm.sample binary32) ⟨Flt.one binary32, .fin false 0⟩
      = (Libm.sample binary32).atan2 (.fin false 0) (Flt.one binary32) :=
  ⟨sample_hypotZero binary32,
   (C14_polar_edge_cases binary32 (Libm.sample binary32) (sample_hypotZero binary32)
      ⟨.nan, Flt.one binary32⟩).1 (by decide),
   (C14_polar_edge_cases binary32 (Libm.sample binary32) (sample_hypotZero binary32)
      ⟨.fin true 0, .fin false 0⟩).2.1 (by decide),
   (C14_polar_edge_cases binary32 (Libm.sample binary32) (sample_hypotZero binary32)
      ⟨Flt.one binary32, .fin false 0⟩).2.2.1 (by decide) (by decide)⟩

/-- C15: on a finite value `magnitude()` is `max(|re|, |im|)`, a finite non-negative value
that is `0` exactly when the value is zero; on a non-finite value it is `+infinity`. -/
theorem C15_magnitude (z : Complex) :
    (z.isFinite = true →
      z.magnitude = Flt.max (Flt.abs z.x) (Flt.abs z.y) ∧
      z.magnitude.isfinite = true ∧
      (Flt.eq z.magnitude Flt.zero = true ↔ z.isZero = true)) ∧
    (∀ sx sy kx ky, z = ⟨.fin sx kx, .fin sy ky⟩ →
      z.magnitude = .fin false (Nat.max kx ky)) ∧
    (z.isFinite = false → z.magnitude = .inf false) := by
  refine ⟨?_, ?_, ?_⟩
  · intro h
    obtain ⟨sx, kx, sy, ky, rfl⟩ := (Complex.isFinite_iff z).1 h
    refine ⟨?_, ?_, ?_⟩
    · unfold Complex.magnitude
      rw [h]
      rfl
    · rw [Complex.magnitude_fin]
      rfl
    · rw [Complex.magnitude_fin, Complex.isZero_fin, Flt.eq_zero_iff]
      constructor
      · rintro ⟨s, hs⟩
        have hk : (if kx < ky then ky else kx) = 0 := by
          injection hs
        split_ifs at hk <;> omega
      · rintro ⟨rfl, rfl⟩
        exact ⟨false, by simp⟩
  · rintro sx sy kx ky rfl
    rw [Complex.magnitude_fin]
    congr 1
    rcases Nat.lt_or_ge kx ky with h | h
    · simp [h, Nat.max_eq_right (Nat.le_of_lt h)]
    · simp [Nat.not_lt.2 h, Nat.max_eq_left h]
  · intro h
    unfold Complex.magnitude
    rw [h]
    rfl

/-- Witness of C15 in binary32 on `(-2, 1)`, `(-0, +0)` and `(1, -infinity)`. -/
theorem C15_magnitude_witness :
    Complex.magnitude ⟨.fin true (2 ^ 150), .fin false (2 ^ 149)⟩ = .fin false (2 ^ 150) ∧
    (Flt.eq (Complex.magnitude ⟨.fin true 0, .fin false 0⟩) Flt.zero = true ↔
      Complex.isZero ⟨.fin true 0, .fin false 0⟩ = true) ∧
    Complex.magnitude ⟨.fin false (2 ^ 149), .inf true⟩ = .inf false :=
  ⟨((C15_magnitude ⟨.fin true (2 ^ 150), .fin false (2 ^ 149)⟩).2.1 _ _ _ _ rfl).trans
      (by decide),
   ((C15_magnitude ⟨.fin true 0, .fin false 0⟩).1 (by decide)).2.2,
   (C15_magnitude ⟨.fin false (2 ^ 149), .inf true⟩).2.2 (by decide)⟩


set_option maxRecDepth 100000 in
/-- C16: `length()` is `sqrt(lengthSquared())` when the squared length is normal, is
`hypot(re, im)` on finite values whose squared length is not normal, and is `+infinity`
on non-finite values.  In binary32, with `3e20`, `4e20` and `5e20` rounded to the format,
`(3e20, 4e20)` has squared length `+infinity`, whose square root is `+infinity`, while
`length()` is the `hypot` result, `5e20` for a correctly rounded `hypot`. -/
theorem C16_length_dispatch (f : Fmt) (M : Libm) (z : Complex) :
    (isNormal f (z.lengthSquared f) = true →
      z.length f M = Flt.sqrt f (z.lengthSquared f)) ∧
    (z.isFinite = true → isNormal f (z.lengthSquared f) = false →
      z.length f M = M.hypot z.x z.y) ∧
    (z.isFinite = false → z.length f M = .inf false) ∧
    (binary32.round false (3 * 10 ^ 20 * 2 ^ 149) 1 = .fin false (0x821AB1 * 2 ^ 194) ∧
     binary32.round false (4 * 10 ^ 20 * 2 ^ 149) 1 = .fin false (0xAD78EC * 2 ^ 194) ∧
     binary32.round false (5 * 10 ^ 20 * 2 ^ 149) 1 = .fin false (0xD8D727 * 2 ^ 194) ∧
     Complex.lengthSquared binary32
       ⟨.fin false (0x821AB1 * 2 ^ 194), .fin false (0xAD78EC * 2 ^ 194)⟩ = .inf false ∧
     Flt.sqrt binary32 (.inf false) = .inf false ∧
     Complex.length binary32 M
       ⟨.fin false (0x821AB1 * 2 ^ 194), .fin false (0xAD78EC * 2 ^ 194)⟩
       = M.hypot (.fin false (0x821AB1 * 2 ^ 194)) (.fin false (0xAD78EC * 2 ^ 194)) ∧
     Complex.length binary32 (Libm.sample binary32)
       ⟨.fin false (0x821AB1 * 2 ^ 194), .fin false (0xAD78EC * 2 ^ 194)⟩
       = .fin false (0xD8D727 * 2 ^ 194)) := by
  have h2 : z.isFinite = true → isNormal f (z.lengthSquared f) = false →
      z.length f M = M.hypot z.x z.y := by
    intro hfin hn
    unfold Complex.length Complex.carefulLength
    simp [hn, hfin]
  have hsq : Complex.lengthSquared binary32
       ⟨.fin false (0x821AB1 * 2 ^ 194), .fin false (0xAD78EC * 2 ^ 194)⟩ = .inf false := by
    decide
  refine ⟨?_, h2, fun h => Complex.length_of_not_isFinite f M h,
    by decide, by decide, by decide, hsq, by decide, ?_, by decide⟩
  · intro hn
    unfold Complex.length
    simp [hn]
  · unfold Complex.length Complex.carefulLength
    rw [hsq]
    rfl

set_option maxRecDepth 100000 in
/-- Witness of C16 in binary32: `(3, 4)` has the normal squared length `25` and
`length()` is its square root `5`; the smallest subnormal `(2^-149, 0)` has squared
length `0` and `length()` is the `hypot` result; `(NaN, 1)` has length `+infinity`. -/
theorem C16_length_dispatch_witness :
    (isNormal binary32 (Complex.lengthSquared binary32
        ⟨.fin false (3 * 2 ^ 149), .fin false (4 * 2 ^ 149)⟩) = true ∧
      Complex.length binary32 (Libm.sample binary32)
        ⟨.fin false (3 * 2 ^ 149), .fin false (4 * 2 ^ 149)⟩ = .fin false (5 * 2 ^ 149)) ∧
    (isNormal binary32 (Complex.lengthSquared binary32 ⟨.fin false 1, .fin false 0⟩) = false ∧
      Complex.length binary32 (Libm.sample binary32) ⟨.fin false 1, .fin false 0⟩
        = .fin false 1) ∧
    Complex.length binary32 (Libm.sample binary32) ⟨.nan, Flt.one binary32⟩ = .inf false :=
  ⟨⟨by decide,
    ((C16_length_dispatch binary32 (Libm.sample binary32)
      ⟨.fin false (3 * 2 ^ 149), .fin false (4 * 2 ^ 149)⟩).1 (by decide)).trans (by decide)⟩,
   ⟨by decide,
    ((C16_length_dispatch binary32 (Libm.sample binary32)
      ⟨.fin false 1, .fin false 0⟩).2.1 (by decide) (by decide)).trans (by decide)⟩,
   (C16_length_dispatch binary32 (Libm.sample binary32) ⟨.nan, Flt.one binary32⟩).2.2.1
     (by decide)⟩

/-! ## Classification -/

namespace Complex

theorem isNormal_of_isZero (f : Fmt) {z : Complex} (h : z.isZero = true) :
    z.isNormal f = false := by
  obtain ⟨s, t, rfl⟩ := (isZero_iff z).1 h
  unfold isNormal
  simp only [isNormal_zero]
  simp

end Complex

/-- C18: every complex value lies in exactly one of the classes not finite, zero, normal,
subnormal; `isNormal()` is false whenever `isZero()` is true, and `isSubnormal()` holds
exactly when the value is finite, not normal and not zero. -/
theorem C18_classes_partition (f : Fmt) (z : Complex) :
    ((z.isFinite = false ∧ z.isZero = false ∧ z.isNormal f = false ∧
        z.isSubnormal f = false) ∨
     (z.isFinite = true ∧ z.isZero = true ∧ z.isNormal f = false ∧
        z.isSubnormal f = false) ∨
     (z.isFinite = true ∧ z.isZero = false ∧ z.isNormal f = true ∧
        z.isSubnormal f = false) ∨
     (z.isFinite = true ∧ z.isZero = false ∧ z.isNormal f = false ∧
        z.isSubnormal f = true)) ∧
    (z.isZero = true → z.isNormal f = false) ∧
    (z.isSubnormal f = true ↔
      (z.isFinite = true ∧ z.isNormal f = false ∧ z.isZero = false)) := by
  have hsub : z.isSubnormal f = (z.isFinite && !(z.isNormal f) && !z.isZero) := rfl
  refine ⟨?_, fun h => Complex.isNormal_of_isZero f h, ?_⟩
  · cases hfin : z.isFinite
    · left
      have hn : z.isNormal f = false := by
        unfold Complex.isNormal
        rw [hfin]
        rfl
      refine ⟨rfl, Complex.isZero_of_not_isFinite hfin, hn, ?_⟩
      rw [hsub, hfin]
      rfl
    · right
      cases hz : z.isZero
      · right
        cases hn : z.isNormal f
        · right
          refine ⟨rfl, rfl, rfl, ?_⟩
          rw [hsub, hfin, hn, hz]
          rfl
        · left
          refine ⟨rfl, rfl, rfl, ?_⟩
          rw [hsub, hfin, hn, hz]
          rfl
      · left
        have hn := Complex.isNormal_of_isZero f hz
        refine ⟨rfl, rfl, hn, ?_⟩
        rw [hsub, hfin, hn, hz]
        rfl
  · rw [hsub]
    cases z.isFinite <;> cases z.isNormal f <;> cases z.isZero <;> simp

/-- Witness of C18 in binary32 on the zero value `(-0, +0)`. -/
theorem C18_classes_partition_witness :
    Complex.isZero ⟨.fin true 0, .fin false 0⟩ = true ∧
    Complex.isNormal binary32 ⟨.fin true 0, .fin false 0⟩ = false :=
  ⟨by decide, (C18_classes_partition binary32 ⟨.fin true 0, .fin false 0⟩).2.1 (by decide)⟩


/-! ## Termination of `normalized()` -/

/-- C19: `normalized()` retries at most once.  For a finite non-zero `z` whose `length()`
is not normal, the retried value `z.dividedBy(z.magnitude())` has `magnitude()` exactly
`1`, a squared length between `1` and `2`, and a normal `length()`, so the recursive call
returns on its first branch and fuel for one retry suffices; for zero and non-finite `z`,
and for `z` with a normal `length()`, the call returns without recursing. -/
theorem C19_normalized_single_retry (f : Fmt) (hf : f.valid) (M : Libm) (hM : M.hypotZero)
    (z : Complex) :
    (z.isFinite = true → z.isZero = false → isNormal f (z.length f M) = false →
      (z.dividedBy f z.magnitude).magnitude = Flt.one f ∧
      (∃ v, (z.dividedBy f z.magnitude).lengthSquared f = .fin false v ∧
        f.oneK ≤ v ∧ v ≤ 2 * f.oneK) ∧
      isNormal f ((z.dividedBy f z.magnitude).length f M) = true ∧
      Complex.normalized f M 1 (z.dividedBy f z.magnitude)
        = some (some ((z.dividedBy f z.magnitude).dividedBy f
            ((z.dividedBy f z.magnitude).length f M))) ∧
      Complex.normalized f M 2 z = Complex.normalized f M 1 (z.dividedBy f z.magnitude)) ∧
    (z.isZero = true ∨ z.isFinite = false → Complex.normalized f M 1 z = some none) ∧
    (isNormal f (z.length f M) = true →
      Complex.normalized f M 1 z = some (some (z.dividedBy f (z.length f M)))) ∧
    (∃ r, Complex.normalized f M 2 z = some r) := by
  have hfirst : ∀ w : Complex, isNormal f (w.length f M) = true →
      Complex.normalized f M 1 w = some (some (w.dividedBy f (w.length f M))) := by
    intro w hw
    unfold Complex.normalized
    simp [hw]
  have hnone : z.isZero = true ∨ z.isFinite = false →
      Complex.normalized f M 1 z = some none := by
    intro h
    unfold Complex.normalized
    rcases h with h | h
    · rw [Complex.length_of_isZero f M hM h, isNormal_zero]
      simp [h]
    · rw [Complex.length_of_not_isFinite f M h, isNormal_inf]
      simp [h]
  have hretry : z.isFinite = true → z.isZero = false → isNormal f (z.length f M) = false →
      (z.dividedBy f z.magnitude).magnitude = Flt.one f ∧
      (∃ v, (z.dividedBy f z.magnitude).lengthSquared f = .fin false v ∧
        f.oneK ≤ v ∧ v ≤ 2 * f.oneK) ∧
      isNormal f ((z.dividedBy f z.magnitude).length f M) = true ∧
      Complex.normalized f M 1 (z.dividedBy f z.magnitude)
        = some (some ((z.dividedBy f z.magnitude).dividedBy f
            ((z.dividedBy f z.magnitude).length f M))) ∧
      Complex.normalized f M 2 z
        = Complex.normalized f M 1 (z.dividedBy f z.magnitude) := by
    intro hfin hz hn
    obtain ⟨sx, sy, a, b, hd, ha, hb, h1⟩ := Complex.dividedBy_magnitude f hf z hfin hz
    have hlen := Complex.length_unit_normal f hf M sx sy a b ha hb h1
    rw [hd]
    refine ⟨?_, Complex.lengthSquared_unit f hf sx sy a b ha hb h1, hlen, hfirst _ hlen, ?_⟩
    · rw [Complex.magnitude_fin]
      unfold Flt.one
      congr 1
      rcases h1 with e | e
      · subst e
        simp [Nat.not_lt.2 hb]
      · subst e
        split_ifs with h
        · rfl
        · omega
    · conv_lhs => unfold Complex.normalized
      simp only [hn, hz, hfin, Bool.false_eq_true, if_false, Bool.not_true, Bool.or_self]
      rw [hd]
  refine ⟨hretry, hnone, hfirst z, ?_⟩
  by_cases hn : isNormal f (z.length f M) = true
  · refine ⟨some (z.dividedBy f (z.length f M)), ?_⟩
    unfold Complex.normalized
    simp [hn]
  · have hn' : isNormal f (z.length f M) = false := by simpa using hn
    by_cases hz : z.isZero = true
    · refine ⟨none, ?_⟩
      unfold Complex.normalized
      simp [hn', hz]
    · have hz' : z.isZero = false := by simpa using hz
      by_cases hfin : z.isFinite = true
      · obtain ⟨_, _, _, h4, h5⟩ := hretry hfin hz' hn'
        exact ⟨_, h5.trans h4⟩
      · have hfin' : z.isFinite = false := by simpa using hfin
        refine ⟨none, ?_⟩
        unfold Complex.normalized
        simp [hn', hfin']

set_option maxRecDepth 100000 in
/-- Witness of C19 in binary32 on the subnormal `(3 * 2^-149, -4 * 2^-149)`, whose
squared length underflows to `0` and whose `hypot` is subnormal: the retried value is
`(0.75, -1)`. -/
theorem C19_normalized_single_retry_witness :
    binary32.valid ∧ (Libm.sample binary32).hypotZero ∧
    Complex.isFinite ⟨.fin false 3, .fin true 4⟩ = true ∧
    Complex.isZero ⟨.fin false 3, .fin true 4⟩ = false ∧
    isNormal binary32 (Complex.length binary32 (Libm.sample binary32)
      ⟨.fin false 3, .fin true 4⟩) = false ∧
    Complex.dividedBy binary32 ⟨.fin false 3, .fin true 4⟩
      (Complex.magnitude ⟨.fin false 3, .fin true 4⟩)
      = ⟨.fin false (3 * 2 ^ 147), .fin true (2 ^ 149)⟩ ∧
    Complex.magnitude (Complex.dividedBy binary32 ⟨.fin false 3, .fin true 4⟩
      (Complex.magnitude ⟨.fin false 3, .fin true 4⟩)) = Flt.one binary32 ∧
    Complex.normalized binary32 (Libm.sample binary32) 2 ⟨.fin false 3, .fin true 4⟩
      = Complex.normalized binary32 (Libm.sample binary32) 1
          (Complex.dividedBy binary32 ⟨.fin false 3, .fin true 4⟩
            (Complex.magnitude ⟨.fin false 3, .fin true 4⟩)) :=
  ⟨by decide, sample_hypotZero binary32, by decide, by decide, by decide, by decide,
   ((C19_normalized_single_retry binary32 (by decide) (Libm.sample binary32)
      (sample_hypotZero binary32) ⟨.fin false 3, .fin true 4⟩).1
      (by decide) (by decide) (by decide)).1,
   ((C19_normalized_single_retry binary32 (by decide) (Libm.sample binary32)
      (sample_hypotZero binary32) ⟨.fin false 3, .fin true 4⟩).1
      (by decide) (by decide) (by decide)).2.2.2.2⟩


/-! ## Division at an exact real type -/

namespace Exact.Complex

theorem isZero_eq_false_iff (z : Complex) : z.isZero = false ↔ (z.x ≠ 0 ∨ z.y ≠ 0) := by
  unfold isZero
  by_cases hx : z.x = 0 <;> by_cases hy : z.y = 0 <;> simp [hx, hy]

theorem magnitude_ne_zero {z : Complex} (h : z.isZero = false) : z.magnitude ≠ 0 := by
  rw [isZero_eq_false_iff] at h
  unfold magnitude
  have h1 : 0 ≤ |z.x| := abs_nonneg _
  have h2 : 0 ≤ |z.y| := abs_nonneg _
  rcases h with h | h
  · have : 0 < |z.x| := abs_pos.2 h
    exact ne_of_gt (lt_of_lt_of_le this (le_max_left _ _))
  · have : 0 < |z.y| := abs_pos.2 h
    exact ne_of_gt (lt_of_lt_of_le this (le_max_right _ _))

theorem lengthSquared_ne_zero {z : Complex} (h : z.isZero = false) : z.lengthSquared ≠ 0 := by
  rw [isZero_eq_false_iff] at h
  unfold lengthSquared
  rcases h with h | h
  · have : 0 < z.x * z.x := mul_self_pos.2 h
    have := mul_self_nonneg z.y
    linarith
  · have : 0 < z.y * z.y := mul_self_pos.2 h
    have := mul_self_nonneg z.x
    linarith

/-- The three scaling orders of `rescaledDivide` all give the direct quotient. -/
theorem scaling_orders (z w : Complex) (hz : z.isZero = false) (hw : w.isZero = false) :
    (((mul (z.dividedBy z.magnitude) (w.dividedBy w.magnitude).conjugate).dividedBy
        (w.dividedBy w.magnitude).lengthSquared).multipliedBy (z.magnitude / w.magnitude)
      = mul z (w.conjugate.dividedBy w.lengthSquared)) ∧
    ((((mul (z.dividedBy z.magnitude) (w.dividedBy w.magnitude).conjugate).dividedBy
        (w.dividedBy w.magnitude).lengthSquared).multipliedBy z.magnitude).dividedBy
          w.magnitude
      = mul z (w.conjugate.dividedBy w.lengthSquared)) ∧
    ((((mul (z.dividedBy z.magnitude) (w.dividedBy w.magnitude).conjugate).dividedBy
        (w.dividedBy w.magnitude).lengthSquared).dividedBy w.magnitude).multipliedBy
          z.magnitude
      = mul z (w.conjugate.dividedBy w.lengthSquared)) := by
  have hzs := magnitude_ne_zero hz
  have hws := magnitude_ne_zero hw
  have hN := lengthSquared_ne_zero hw
  obtain ⟨a, b⟩ := z
  obtain ⟨c, d⟩ := w
  generalize magnitude ⟨a, b⟩ = zs at hzs
  generalize magnitude ⟨c, d⟩ = ws at hws
  simp only [lengthSquared] at hN
  have hL : c / ws * (c / ws) + d / ws * (d / ws) ≠ 0 := by
    have e : c / ws * (c / ws) + d / ws * (d / ws) = (c * c + d * d) / (ws * ws) := by
      field_simp
    rw [e]
    exact div_ne_zero hN (mul_ne_zero hws hws)
  simp only [mul, dividedBy, multipliedBy, conjugate, lengthSquared, Complex.mk.injEq]
  refine ⟨⟨?_, ?_⟩, ⟨?_, ?_⟩, ⟨?_, ?_⟩⟩ <;> field_simp <;> ring

end Exact.Complex

/-- C20: under exact arithmetic `rescaledDivide(z, w)` on non-zero `z` and `w` equals the
direct quotient `z * conjugate(w) / lengthSquared(w)`, whichever of the three scaling
orders the `isNormal` tests select; with `r = (zNorm * conjugate(wNorm)) /
lengthSquared(wNorm)`, each of `r * (zScale / wScale)`, `(r * zScale) / wScale` and
`(r / wScale) * zScale` is that quotient. -/
theorem C20_rescaledDivide_refines (normal : ℚ → Bool) (z w : Exact.Complex)
    (hz : z.isZero = false) (hw : w.isZero = false) :
    Exact.Complex.rescaledDivide normal z w
      = some (Exact.Complex.mul z (w.conjugate.dividedBy w.lengthSquared)) ∧
    Exact.Complex.mul z (w.conjugate.dividedBy w.lengthSquared)
      = (Exact.Complex.mul z w.conjugate).dividedBy w.lengthSquared ∧
    Exact.Complex.div normal z w
      = some ((Exact.Complex.mul z w.conjugate).dividedBy w.lengthSquared) ∧
    ((((Exact.Complex.mul (z.dividedBy z.magnitude)
          (w.dividedBy w.magnitude).conjugate).dividedBy
        (w.dividedBy w.magnitude).lengthSquared).multipliedBy z.magnitude).dividedBy
          w.magnitude
      = (Exact.Complex.mul z w.conjugate).dividedBy w.lengthSquared) := by
  obtain ⟨h1, h2, h3⟩ := Exact.Complex.scaling_orders z w hz hw
  have hdir : Exact.Complex.mul z (w.conjugate.dividedBy w.lengthSquared)
      = (Exact.Complex.mul z w.conjugate).dividedBy w.lengthSquared := by
    simp only [Exact.Complex.mul, Exact.Complex.dividedBy, Exact.Complex.conjugate,
      Exact.Complex.mk.injEq]
    constructor <;> ring
  have hres : Exact.Complex.rescaledDivide normal z w
      = some (Exact.Complex.mul z (w.conjugate.dividedBy w.lengthSquared)) := by
    unfold Exact.Complex.rescaledDivide
    simp only [hz, hw, Exact.Complex.isFinite, Bool.false_eq_true, if_false, Bool.not_true,
      Bool.or_self]
    split_ifs
    · rw [h1]
    · rw [h2]
    · rw [h3]
  refine ⟨hres, hdir, ?_, h2.trans hdir⟩
  unfold Exact.Complex.div
  simp only
  split_ifs
  · rw [hdir]
  · rw [hres, hdir]

/-- Witness of C20: `(1 + 2i) / (3 + 4i) = 11/25 + (2/25) i`, on the slow path. -/
theorem C20_rescaledDivide_refines_witness :
    Exact.Complex.isZero ⟨1, 2⟩ = false ∧ Exact.Complex.isZero ⟨3, 4⟩ = false ∧
    Exact.Complex.rescaledDivide (fun _ => false) ⟨1, 2⟩ ⟨3, 4⟩
      = some (Exact.Complex.mul ⟨1, 2⟩
          (Exact.Complex.dividedBy (Exact.Complex.conjugate ⟨3, 4⟩)
            (Exact.Complex.lengthSquared ⟨3, 4⟩))) :=
  ⟨by decide, by decide,
   (C20_rescaledDivide_refines (fun _ => false) ⟨1, 2⟩ ⟨3, 4⟩ (by decide) (by decide)).1⟩


namespace Exact.Complex

/-- Multiplying the direct quotient by the divisor returns the dividend. -/
theorem direct_mul_cancel (z w : Complex) (hw : w.isZero = false) :
    mul (mul z (w.conjugate.dividedBy w.lengthSquared)) w = z := by
  have hN := lengthSquared_ne_zero hw
  obtain ⟨a, b⟩ := z
  obtain ⟨c, d⟩ := w
  simp only [lengthSquared] at hN
  simp only [mul, dividedBy, conjugate, lengthSquared, Complex.mk.injEq]
  constructor <;> field_simp <;> ring

end Exact.Complex


/-! ## Rounding error -/

theorem rhe_err (a b : Nat) (hb : 0 < b) :
    2 * (rhe a b * b) ≤ 2 * a + b ∧ 2 * a ≤ 2 * (rhe a b * b) + b := by
  unfold rhe
  have h1 := Nat.div_add_mod a b
  have h2 := Nat.mod_lt a hb
  have e : b * (a / b) = a / b * b := Nat.mul_comm _ _
  have e2 : (a / b + 1) * b = a / b * b + b := by ring
  split_ifs <;> (try rw [e2]) <;> omega

/-- The spacing used by `round` is `1`, or at most `n / d` scaled by `2 ^ (1 - prec)`. -/
theorem ulpShift_div_bound (f : Fmt) (n d : Nat) :
    f.ulpShift (n / d) = 0 ∨ 2 ^ f.ulpShift (n / d) * 2 ^ (f.prec - 1) * d ≤ n := by
  by_cases h0 : f.ulpShift (n / d) = 0
  · exact Or.inl h0
  · right
    unfold Fmt.ulpShift at h0 ⊢
    rw [ilog2_eq] at h0 ⊢
    have hle : f.prec - 1 ≤ Nat.log 2 (n / d) := by omega
    have hq0 : n / d ≠ 0 := by
      intro e
      rw [e] at h0
      simp at h0
    rw [← Nat.pow_add, Nat.sub_add_cancel hle]
    calc 2 ^ Nat.log 2 (n / d) * d ≤ n / d * d :=
          Nat.mul_le_mul_right _ (Nat.pow_log_le_self 2 hq0)
      _ ≤ n := Nat.div_mul_le_self n d

/-- The error of one rounding: at most half a unit, or at most the relative `2^(-prec)`. -/
theorem round_err (f : Fmt) (s : Bool) (n d k : Nat) (hd : 0 < d)
    (h : f.round s n d = .fin s k) :
    (2 * (k * d) ≤ 2 * n + d ∧ 2 * n ≤ 2 * (k * d) + d) ∨
    (2 ^ f.prec * (k * d) ≤ 2 ^ f.prec * n + n ∧ 2 ^ f.prec * n ≤ 2 ^ f.prec * (k * d) + n) := by
  unfold Fmt.round at h
  simp only at h
  split_ifs at h
  injection h with _ hk
  have hpos : 0 < d * 2 ^ f.ulpShift (n / d) :=
    Nat.mul_pos hd (Nat.pos_pow_of_pos _ (by norm_num))
  obtain ⟨e1, e2⟩ := rhe_err n (d * 2 ^ f.ulpShift (n / d)) hpos
  rcases ulpShift_div_bound f n d with h0 | hb
  · left
    rw [h0] at hk e1 e2
    simp only [pow_zero, Nat.mul_one] at hk e1 e2
    rw [← hk]
    exact ⟨e1, e2⟩
  · right
    generalize f.ulpShift (n / d) = sh at hk e1 e2 hb
    generalize rhe n (d * 2 ^ sh) = m at hk e1 e2
    subst hk
    have hp : 2 ^ f.prec = 2 * 2 ^ (f.prec - 1) ∨ f.prec = 0 := by
      rcases Nat.eq_zero_or_pos f.prec with h0 | h0
      · exact Or.inr h0
      · left
        have : f.prec = (f.prec - 1) + 1 := by omega
        conv_lhs => rw [this, Nat.pow_succ]
        ring
    have e3 : m * (d * 2 ^ sh) = m * 2 ^ sh * d := by ring
    rw [e3] at e1 e2
    rcases hp with hp | hp
    · rw [hp]
      generalize 2 ^ (f.prec - 1) = P at hb ⊢
      have hb2 : P * (d * 2 ^ sh) ≤ n := by
        calc P * (d * 2 ^ sh) = 2 ^ sh * P * d := by ring
          _ ≤ n := hb
      have k1 : P * (2 * (m * 2 ^ sh * d)) ≤ P * (2 * n + d * 2 ^ sh) :=
        Nat.mul_le_mul_left _ e1
      have k2 : P * (2 * n) ≤ P * (2 * (m * 2 ^ sh * d) + d * 2 ^ sh) :=
        Nat.mul_le_mul_left _ e2
      constructor
      · calc 2 * P * (m * 2 ^ sh * d) = P * (2 * (m * 2 ^ sh * d)) := by ring
          _ ≤ P * (2 * n + d * 2 ^ sh) := k1
          _ = 2 * P * n + P * (d * 2 ^ sh) := by ring
          _ ≤ 2 * P * n + n := Nat.add_le_add_left hb2 _
      · calc 2 * P * n = P * (2 * n) := by ring
          _ ≤ P * (2 * (m * 2 ^ sh * d) + d * 2 ^ sh) := k2
          _ = 2 * P * (m * 2 ^ sh * d) + P * (d * 2 ^ sh) := by ring
          _ ≤ 2 * P * (m * 2 ^ sh * d) + n := Nat.add_le_add_left hb2 _
    · rw [hp]
      simp only [pow_zero, Nat.one_mul]
      rw [hp] at hb
      simp only [Nat.zero_sub, pow_zero, Nat.mul_one] at hb
      have hb2 : d * 2 ^ sh ≤ n := by
        calc d * 2 ^ sh = 2 ^ sh * d := by ring
          _ ≤ n := hb
      omega


theorem uQ_pos (f : Fmt) : 0 < f.uQ := by
  unfold Fmt.uQ
  positivity

theorem hQ_pos (f : Fmt) : 0 < f.hQ := by
  unfold Fmt.hQ
  positivity

/-- The error of one rounding, over the rationals. -/
theorem round_err_Q (f : Fmt) (s : Bool) (n d k : Nat) (hd : 0 < d)
    (h : f.round s n d = .fin s k) :
    |(k : ℚ) - (n : ℚ) / d| ≤ f.uQ * ((n : ℚ) / d) + 1 / 2 := by
  have hdq : (0 : ℚ) < d := by exact_mod_cast hd
  have hu := uQ_pos f
  have hq0 : (0 : ℚ) ≤ (n : ℚ) / d := by positivity
  have hn : (n : ℚ) = (n : ℚ) / d * d := by field_simp
  generalize (n : ℚ) / d = q at hq0 hn ⊢
  rcases round_err f s n d k hd h with ⟨h1, h2⟩ | ⟨h1, h2⟩
  · have h1q : (2 * (k * d) : ℚ) ≤ 2 * n + d := by exact_mod_cast h1
    have h2q : (2 * n : ℚ) ≤ 2 * (k * d) + d := by exact_mod_cast h2
    rw [hn] at h1q h2q
    have a1 : (k : ℚ) ≤ q + 1 / 2 := by
      by_contra hc
      push_neg at hc
      nlinarith
    have a2 : q ≤ (k : ℚ) + 1 / 2 := by
      by_contra hc
      push_neg at hc
      nlinarith
    rw [abs_le]
    constructor <;> nlinarith
  · have h1q : ((2 : ℚ) ^ f.prec * (k * d)) ≤ 2 ^ f.prec * n + n := by exact_mod_cast h1
    have h2q : ((2 : ℚ) ^ f.prec * n) ≤ 2 ^ f.prec * (k * d) + n := by exact_mod_cast h2
    rw [hn] at h1q h2q
    have hP : (0 : ℚ) < 2 ^ f.prec := by positivity
    have hu' : f.uQ * 2 ^ f.prec = 1 := by
      unfold Fmt.uQ
      field_simp
    generalize (2 : ℚ) ^ f.prec = P at h1q h2q hP hu'
    generalize f.uQ = u at hu hu' ⊢
    have a1 : (k : ℚ) - q ≤ u * q := by
      have : P * ((k : ℚ) - q) * d ≤ P * (u * q) * d := by
        have e : P * (u * q) * d = (u * P) * (q * d) := by ring
        rw [e, hu']
        nlinarith
      have hPd : 0 < P * d := mul_pos hP hdq
      by_contra hc
      push_neg at hc
      have := mul_lt_mul_of_pos_left hc hPd
      nlinarith
    have a2 : q - (k : ℚ) ≤ u * q := by
      have : P * (q - (k : ℚ)) * d ≤ P * (u * q) * d := by
        have e : P * (u * q) * d = (u * P) * (q * d) := by ring
        rw [e, hu']
        nlinarith
      have hPd : 0 < P * d := mul_pos hP hdq
      by_contra hc
      push_neg at hc
      have := mul_lt_mul_of_pos_left hc hPd
      nlinarith
    rw [abs_le]
    constructor <;> linarith

/-- The error of rounding an integer: purely relative. -/
theorem round_err_int (f : Fmt) (s : Bool) (n k : Nat) (h : f.round s n 1 = .fin s k) :
    |(k : ℚ) - (n : ℚ)| ≤ f.uQ * (n : ℚ) := by
  have hu := uQ_pos f
  have hn0 : (0 : ℚ) ≤ n := by positivity
  rcases round_err f s n 1 k (by norm_num) h with ⟨h1, h2⟩ | ⟨h1, h2⟩
  · have : k = n := by omega
    subst this
    simp only [sub_self, abs_zero]
    positivity
  · have h1q : ((2 : ℚ) ^ f.prec * (k * 1)) ≤ 2 ^ f.prec * n + n := by
      exact_mod_cast h1
    have h2q : ((2 : ℚ) ^ f.prec * n) ≤ 2 ^ f.prec * (k * 1) + n := by
      exact_mod_cast h2
    have hP : (0 : ℚ) < 2 ^ f.prec := by positivity
    have hu' : f.uQ * 2 ^ f.prec = 1 := by
      unfold Fmt.uQ
      field_simp
    generalize (2 : ℚ) ^ f.prec = P at h1q h2q hP hu'
    generalize f.uQ = u at hu hu' ⊢
    have e : P * (u * (n : ℚ)) = n := by
      calc P * (u * (n : ℚ)) = (u * P) * n := by ring
        _ = n := by rw [hu']; ring
    rw [abs_le]
    constructor
    · by_contra hc
      push_neg at hc
      have := mul_lt_mul_of_pos_left hc hP
      nlinarith
    · by_contra hc
      push_neg at hc
      have := mul_lt_mul_of_pos_left hc hP
      nlinarith


theorem max_representable (f : Fmt) (hf : f.valid) : f.representable f.maxFiniteK := by
  refine ⟨?_, le_rfl⟩
  obtain ⟨hp, he⟩ := hf
  have hle : f.ulpShift f.maxFiniteK ≤ 2 * f.emax - 1 := by
    unfold Fmt.ulpShift
    rw [ilog2_eq]
    have hlt : f.maxFiniteK < 2 ^ (f.prec + (2 * f.emax - 1)) := by
      unfold Fmt.maxFiniteK
      rw [Nat.pow_add]
      apply Nat.mul_lt_mul_of_pos_right
      · have : 0 < 2 ^ f.prec := Nat.pos_pow_of_pos _ (by norm_num)
        omega
      · exact Nat.pos_pow_of_pos _ (by norm_num)
    have hne : f.maxFiniteK ≠ 0 := by
      have := two_one_le_max f ⟨hp, he⟩
      have : 0 < 2 ^ (f.qexp + 1) := Nat.pos_pow_of_pos _ (by norm_num)
      omega
    have := Nat.log_lt_of_lt_pow hne hlt
    omega
  exact (pow_dvd_pow 2 hle).trans (Dvd.intro_left _ rfl)

namespace Flt

/-- The sign factor of a value. -/
theorem toQ_fin (f : Fmt) (s : Bool) (k : Nat) :
    toQ f (.fin s k) = (if s then (-1 : ℚ) else 1) * ((k : ℚ) / 2 ^ f.qexp) := by
  unfold toQ
  cases s <;> simp
  ring

theorem sign_xor (s t : Bool) :
    (if xor s t then (-1 : ℚ) else 1) = (if s then (-1 : ℚ) else 1) * (if t then -1 else 1) := by
  cases s <;> cases t <;> simp

theorem abs_sign (s : Bool) : |(if s then (-1 : ℚ) else 1)| = 1 := by
  cases s <;> simp

theorem toQ_neg (f : Fmt) (x : Flt) : toQ f (neg x) = - toQ f x := by
  cases x with
  | nan => simp [toQ, neg]
  | inf s => simp [toQ, neg]
  | fin s k =>
    simp only [neg, toQ_fin]
    cases s <;> simp

theorem abs_toQ_fin (f : Fmt) (s : Bool) (k : Nat) :
    |toQ f (.fin s k)| = (k : ℚ) / 2 ^ f.qexp := by
  rw [toQ_fin, abs_mul, abs_sign, one_mul]
  exact abs_of_nonneg (by positivity)

theorem signed_err (σ k e S u : ℚ) (hσ : |σ| = 1) (hS : 0 < S)
    (h : |k - e| ≤ u * e + 1 / 2) :
    |σ * (k / S) - σ * (e / S)| ≤ u * (e / S) + 1 / (2 * S) := by
  have e1 : σ * (k / S) - σ * (e / S) = σ * ((k - e) / S) := by ring
  rw [e1, abs_mul, hσ, one_mul, abs_div, abs_of_pos hS]
  have e2 : u * (e / S) + 1 / (2 * S) = (u * e + 1 / 2) / S := by
    field_simp
    ring
  rw [e2]
  exact div_le_div_of_nonneg_right h (le_of_lt hS)

theorem signed_err_int (σ k e S u : ℚ) (hσ : |σ| = 1) (hS : 0 < S)
    (h : |k - e| ≤ u * e) :
    |σ * (k / S) - σ * (e / S)| ≤ u * (e / S) := by
  have e1 : σ * (k / S) - σ * (e / S) = σ * ((k - e) / S) := by ring
  rw [e1, abs_mul, hσ, one_mul, abs_div, abs_of_pos hS]
  have e2 : u * (e / S) = (u * e) / S := by ring
  rw [e2]
  exact div_le_div_of_nonneg_right h (le_of_lt hS)

theorem abs_sign_mul (s t : Bool) :
    |(if s then (-1 : ℚ) else 1) * (if t then -1 else 1)| = 1 := by
  cases s <;> cases t <;> simp

/-- Error of a finite product. -/
theorem mul_err (f : Fmt) (x y : Flt) (hx : x.isfinite = true) (hy : y.isfinite = true)
    (hr : (mul f x y).isfinite = true) :
    |toQ f (mul f x y) - toQ f x * toQ f y| ≤ f.uQ * |toQ f x * toQ f y| + f.hQ := by
  obtain ⟨s, a, rfl⟩ := (isfinite_iff x).1 hx
  obtain ⟨t, b, rfl⟩ := (isfinite_iff y).1 hy
  have hS : (0 : ℚ) < 2 ^ f.qexp := by positivity
  have hSn : 0 < 2 ^ f.qexp := Nat.pos_pow_of_pos _ (by norm_num)
  unfold mul at hr ⊢
  simp only at hr ⊢
  rcases round_cases f (xor s t) (a * b) (2 ^ f.qexp) with e | ⟨k, e⟩
  · rw [e] at hr
    simp [isfinite] at hr
  · rw [e]
    have herr := round_err_Q f (xor s t) (a * b) (2 ^ f.qexp) k hSn e
    push_cast at herr
    have key := signed_err _ _ _ _ _ (abs_sign_mul s t) hS herr
    rw [abs_mul, abs_toQ_fin, abs_toQ_fin]
    simp only [toQ_fin, sign_xor]
    have e1 : (if s then (-1 : ℚ) else 1) * ((a : ℚ) / 2 ^ f.qexp)
          * ((if t then (-1 : ℚ) else 1) * ((b : ℚ) / 2 ^ f.qexp))
        = (if s then (-1 : ℚ) else 1) * (if t then (-1 : ℚ) else 1)
          * ((a : ℚ) * b / 2 ^ f.qexp / 2 ^ f.qexp) := by
      field_simp
    have e2 : (a : ℚ) / 2 ^ f.qexp * ((b : ℚ) / 2 ^ f.qexp)
        = (a : ℚ) * b / 2 ^ f.qexp / 2 ^ f.qexp := by
      field_simp
    rw [e1, e2]
    unfold Fmt.hQ
    exact key

/-- Error of a finite quotient. -/
theorem div_err (f : Fmt) (x y : Flt) (hx : x.isfinite = true) (hy : y.isfinite = true)
    (hy0 : toQ f y ≠ 0) (hr : (div f x y).isfinite = true) :
    |toQ f (div f x y) - toQ f x / toQ f y| ≤ f.uQ * |toQ f x / toQ f y| + f.hQ := by
  obtain ⟨s, a, rfl⟩ := (isfinite_iff x).1 hx
  obtain ⟨t, b, rfl⟩ := (isfinite_iff y).1 hy
  have hS : (0 : ℚ) < 2 ^ f.qexp := by positivity
  have hb : b ≠ 0 := by
    intro h0
    subst h0
    simp [toQ] at hy0
  have hbn : 0 < b := Nat.pos_of_ne_zero hb
  have hbq : (0 : ℚ) < b := by exact_mod_cast hbn
  unfold div at hr ⊢
  simp only [hb, if_false] at hr ⊢
  rcases round_cases f (xor s t) (a * 2 ^ f.qexp) b with e | ⟨k, e⟩
  · rw [e] at hr
    simp [isfinite] at hr
  · rw [e]
    have herr := round_err_Q f (xor s t) (a * 2 ^ f.qexp) b k hbn e
    push_cast at herr
    have key := signed_err _ _ _ _ _ (abs_sign_mul s t) hS herr
    rw [abs_div, abs_toQ_fin, abs_toQ_fin]
    simp only [toQ_fin, sign_xor]
    have e1 : (if s then (-1 : ℚ) else 1) * ((a : ℚ) / 2 ^ f.qexp)
          / ((if t then (-1 : ℚ) else 1) * ((b : ℚ) / 2 ^ f.qexp))
        = (if s then (-1 : ℚ) else 1) * (if t then (-1 : ℚ) else 1)
          * ((a : ℚ) * 2 ^ f.qexp / b / 2 ^ f.qexp) := by
      have hb0 : (b : ℚ) ≠ 0 := ne_of_gt hbq
      have hS0 : (2 : ℚ) ^ f.qexp ≠ 0 := ne_of_gt hS
      cases s <;> cases t <;>
        simp only [if_true, if_false, Bool.false_eq_true, one_mul, neg_mul, mul_neg,
          div_neg, neg_div, neg_neg, mul_one] <;>
        field_simp <;> ring
    have e2 : (a : ℚ) / 2 ^ f.qexp / ((b : ℚ) / 2 ^ f.qexp)
        = (a : ℚ) * 2 ^ f.qexp / b / 2 ^ f.qexp := by
      field_simp
      ring
    rw [e1, e2]
    unfold Fmt.hQ
    exact key

end Flt
namespace Flt

theorem sign_not (s : Bool) :
    (if (!s) then (-1 : ℚ) else 1) = -(if s then (-1 : ℚ) else 1) := by
  cases s <;> simp

/-- Error of a finite sum: purely relative. -/
theorem add_err (f : Fmt) (x y : Flt) (hx : x.isfinite = true) (hy : y.isfinite = true)
    (hr : (add f x y).isfinite = true) :
    |toQ f (add f x y) - (toQ f x + toQ f y)| ≤ f.uQ * |toQ f x + toQ f y| := by
  obtain ⟨s, a, rfl⟩ := (isfinite_iff x).1 hx
  obtain ⟨t, b, rfl⟩ := (isfinite_iff y).1 hy
  have hS : (0 : ℚ) < 2 ^ f.qexp := by positivity
  have hu := uQ_pos f
  unfold add at hr ⊢
  simp only at hr ⊢
  by_cases hst : s = t
  · subst hst
    simp only [if_true] at hr ⊢
    rcases round_cases f s (a + b) 1 with e | ⟨k, e⟩
    · rw [e] at hr
      simp [isfinite] at hr
    · rw [e]
      have herr := round_err_int f s (a + b) k e
      push_cast at herr
      have key := signed_err_int _ _ _ _ _ (abs_sign s) hS herr
      have e1 : toQ f (fin s a) + toQ f (fin s b)
          = (if s then (-1 : ℚ) else 1) * (((a : ℚ) + b) / 2 ^ f.qexp) := by
        simp only [toQ_fin]
        ring
      have habs : |(if s then (-1 : ℚ) else 1) * (((a : ℚ) + b) / 2 ^ f.qexp)|
          = ((a : ℚ) + b) / 2 ^ f.qexp := by
        rw [abs_mul, abs_sign, one_mul]
        exact abs_of_nonneg (by positivity)
      rw [e1, habs, toQ_fin]
      exact key
  · simp only [hst, if_false] at hr ⊢
    have hts : t = !s := by
      cases s <;> cases t <;> simp_all
    by_cases hba : b < a
    · simp only [hba, if_true] at hr ⊢
      rcases round_cases f s (a - b) 1 with e | ⟨k, e⟩
      · rw [e] at hr
        simp [isfinite] at hr
      · rw [e]
        have herr := round_err_int f s (a - b) k e
        rw [Nat.cast_sub (Nat.le_of_lt hba)] at herr
        have key := signed_err_int _ _ _ _ _ (abs_sign s) hS herr
        have hab : (b : ℚ) < a := by exact_mod_cast hba
        have e1 : toQ f (fin s a) + toQ f (fin t b)
            = (if s then (-1 : ℚ) else 1) * (((a : ℚ) - b) / 2 ^ f.qexp) := by
          rw [hts]
          simp only [toQ_fin, sign_not]
          ring
        have hnn : 0 ≤ ((a : ℚ) - b) / 2 ^ f.qexp :=
          div_nonneg (by linarith) (le_of_lt hS)
        have habs : |(if s then (-1 : ℚ) else 1) * (((a : ℚ) - b) / 2 ^ f.qexp)|
            = ((a : ℚ) - b) / 2 ^ f.qexp := by
          rw [abs_mul, abs_sign, one_mul]
          exact abs_of_nonneg hnn
        rw [e1, habs, toQ_fin]
        exact key
    · simp only [hba, if_false] at hr ⊢
      by_cases hab : a < b
      · simp only [hab, if_true] at hr ⊢
        rcases round_cases f t (b - a) 1 with e | ⟨k, e⟩
        · rw [e] at hr
          simp [isfinite] at hr
        · rw [e]
          have herr := round_err_int f t (b - a) k e
          rw [Nat.cast_sub (Nat.le_of_lt hab)] at herr
          have key := signed_err_int _ _ _ _ _ (abs_sign t) hS herr
          have habq : (a : ℚ) < b := by exact_mod_cast hab
          have e1 : toQ f (fin s a) + toQ f (fin t b)
              = (if t then (-1 : ℚ) else 1) * (((b : ℚ) - a) / 2 ^ f.qexp) := by
            have hst2 : s = !t := by
              rw [hts, Bool.not_not]
            rw [hst2]
            simp only [toQ_fin, sign_not]
            ring
          have hnn : 0 ≤ ((b : ℚ) - a) / 2 ^ f.qexp :=
            div_nonneg (by linarith) (le_of_lt hS)
          have habs : |(if t then (-1 : ℚ) else 1) * (((b : ℚ) - a) / 2 ^ f.qexp)|
              = ((b : ℚ) - a) / 2 ^ f.qexp := by
            rw [abs_mul, abs_sign, one_mul]
            exact abs_of_nonneg hnn
          rw [e1, habs, toQ_fin]
          exact key
      · simp only [hab, if_false]
        have hEq : a = b := by omega
        subst hEq
        have e1 : toQ f (fin s a) + toQ f (fin t a) = 0 := by
          rw [hts]
          simp only [toQ_fin, sign_not]
          ring
        rw [e1]
        simp [toQ]

/-- Error of a finite difference: purely relative. -/
theorem sub_err (f : Fmt) (x y : Flt) (hx : x.isfinite = true) (hy : y.isfinite = true)
    (hr : (sub f x y).isfinite = true) :
    |toQ f (sub f x y) - (toQ f x - toQ f y)| ≤ f.uQ * |toQ f x - toQ f y| := by
  unfold sub at hr ⊢
  have h := add_err f x (neg y) hx (by rw [neg_isfinite]; exact hy) hr
  rw [toQ_neg] at h
  simpa [sub_eq_add_neg] using h

theorem round_isfinite (f : Fmt) (hf : f.valid) (s : Bool) (n d : Nat) (hd : 0 < d)
    (h : n ≤ f.maxFiniteK * d) : (f.round s n d).isfinite = true := by
  obtain ⟨k, hk, _⟩ := round_le f s n d f.maxFiniteK hd (max_representable f hf) h
  rw [hk]
  rfl

/-- A product whose exact value is within range is finite. -/
theorem mul_isfinite (f : Fmt) (hf : f.valid) (x y : Flt) (hx : x.isfinite = true)
    (hy : y.isfinite = true) (hb : |toQ f x * toQ f y| ≤ f.maxQ) :
    (mul f x y).isfinite = true := by
  obtain ⟨s, a, rfl⟩ := (isfinite_iff x).1 hx
  obtain ⟨t, b, rfl⟩ := (isfinite_iff y).1 hy
  have hS : (0 : ℚ) < 2 ^ f.qexp := by positivity
  unfold mul
  simp only
  apply round_isfinite f hf _ _ _ (Nat.pos_pow_of_pos _ (by norm_num))
  rw [abs_mul, abs_toQ_fin, abs_toQ_fin] at hb
  unfold Fmt.maxQ at hb
  have h2 : (a : ℚ) * b ≤ (f.maxFiniteK : ℚ) * 2 ^ f.qexp := by
    have e : (a : ℚ) / 2 ^ f.qexp * ((b : ℚ) / 2 ^ f.qexp)
        = (a : ℚ) * b / (2 ^ f.qexp * 2 ^ f.qexp) := by
      field_simp
    rw [e, div_le_div_iff₀ (mul_pos hS hS) hS] at hb
    have h3 : (a : ℚ) * b * 2 ^ f.qexp ≤ (f.maxFiniteK : ℚ) * 2 ^ f.qexp * 2 ^ f.qexp := by
      calc (a : ℚ) * b * 2 ^ f.qexp ≤ (f.maxFiniteK : ℚ) * (2 ^ f.qexp * 2 ^ f.qexp) := hb
        _ = (f.maxFiniteK : ℚ) * 2 ^ f.qexp * 2 ^ f.qexp := by ring
    exact le_of_mul_le_mul_right h3 hS
  exact_mod_cast h2

/-- A quotient whose exact value is within range is finite. -/
theorem div_isfinite (f : Fmt) (hf : f.valid) (x y : Flt) (hx : x.isfinite = true)
    (hy : y.isfinite = true) (hy0 : toQ f y ≠ 0) (hb : |toQ f x / toQ f y| ≤ f.maxQ) :
    (div f x y).isfinite = true := by
  obtain ⟨s, a, rfl⟩ := (isfinite_iff x).1 hx
  obtain ⟨t, b, rfl⟩ := (isfinite_iff y).1 hy
  have hS : (0 : ℚ) < 2 ^ f.qexp := by positivity
  have hb0 : b ≠ 0 := by
    intro h0
    subst h0
    simp [toQ] at hy0
  have hbn : 0 < b := Nat.pos_of_ne_zero hb0
  have hbq : (0 : ℚ) < b := by exact_mod_cast hbn
  unfold div
  simp only [hb0, if_false]
  apply round_isfinite f hf _ _ _ hbn
  rw [abs_div, abs_toQ_fin, abs_toQ_fin] at hb
  unfold Fmt.maxQ at hb
  have e : (a : ℚ) / 2 ^ f.qexp / ((b : ℚ) / 2 ^ f.qexp) = (a : ℚ) / b := by
    field_simp
  rw [e, div_le_div_iff₀ hbq hS] at hb
  have h2 : (a : ℚ) * 2 ^ f.qexp ≤ (f.maxFiniteK : ℚ) * b := hb
  exact_mod_cast h2

/-- A sum whose exact value is within range is finite. -/
theorem add_isfinite (f : Fmt) (hf : f.valid) (x y : Flt) (hx : x.isfinite = true)
    (hy : y.isfinite = true) (hb : |toQ f x + toQ f y| ≤ f.maxQ) :
    (add f x y).isfinite = true := by
  obtain ⟨s, a, rfl⟩ := (isfinite_iff x).1 hx
  obtain ⟨t, b, rfl⟩ := (isfinite_iff y).1 hy
  have hS : (0 : ℚ) < 2 ^ f.qexp := by positivity
  unfold Fmt.maxQ at hb
  unfold add
  simp only
  by_cases hst : s = t
  · subst hst
    simp only [if_true]
    apply round_isfinite f hf _ _ _ (by norm_num)
    have e1 : toQ f (fin s a) + toQ f (fin s b)
        = (if s then (-1 : ℚ) else 1) * (((a : ℚ) + b) / 2 ^ f.qexp) := by
      simp only [toQ_fin]
      ring
    have hnn : (0 : ℚ) ≤ ((a : ℚ) + b) / 2 ^ f.qexp := by positivity
    rw [e1, abs_mul, abs_sign, one_mul, abs_of_nonneg hnn,
      div_le_div_iff_of_pos_right hS] at hb
    have : ((a + b : ℕ) : ℚ) ≤ ((f.maxFiniteK * 1 : ℕ) : ℚ) := by
      push_cast
      linarith
    exact_mod_cast this
  · simp only [hst, if_false]
    have hts : t = !s := by
      cases s <;> cases t <;> simp_all
    have e1 : toQ f (fin s a) + toQ f (fin t b)
        = (if s then (-1 : ℚ) else 1) * (((a : ℚ) - b) / 2 ^ f.qexp) := by
      rw [hts]
      simp only [toQ_fin, sign_not]
      ring
    rw [e1, abs_mul, abs_sign, one_mul, abs_div, abs_of_pos hS, div_le_div_iff_of_pos_right hS] at hb
    rw [abs_le] at hb
    split_ifs with hba hab
    · apply round_isfinite f hf _ _ _ (by norm_num)
      have : ((a - b : ℕ) : ℚ) ≤ ((f.maxFiniteK * 1 : ℕ) : ℚ) := by
        rw [Nat.cast_sub (Nat.le_of_lt hba)]
        push_cast
        linarith
      exact_mod_cast this
    · apply round_isfinite f hf _ _ _ (by norm_num)
      have : ((b - a : ℕ) : ℚ) ≤ ((f.maxFiniteK * 1 : ℕ) : ℚ) := by
        rw [Nat.cast_sub (Nat.le_of_lt hab)]
        push_cast
        linarith
      exact_mod_cast this
    · rfl

/-- A difference whose exact value is within range is finite. -/
theorem sub_isfinite (f : Fmt) (hf : f.valid) (x y : Flt) (hx : x.isfinite = true)
    (hy : y.isfinite = true) (hb : |toQ f x - toQ f y| ≤ f.maxQ) :
    (sub f x y).isfinite = true := by
  unfold sub
  apply add_isfinite f hf x (neg y) hx (by rw [neg_isfinite]; exact hy)
  rw [toQ_neg]
  simpa [sub_eq_add_neg] using hb

end Flt

/-! ## Error of one complex multiplication -/

theorem abs_mul_le_of_le {x y B1 B2 : ℚ} (hx : |x| ≤ B1) (hy : |y| ≤ B2) :
    |x * y| ≤ B1 * B2 := by
  rw [abs_mul]
  exact mul_le_mul hx hy (abs_nonneg _) (le_trans (abs_nonneg _) hx)

/-- One rounded product and its size. -/
theorem prod_bound {u h x y B1 B2 p : ℚ} (hu : 0 ≤ u) (hx : |x| ≤ B1) (hy : |y| ≤ B2)
    (hp : |p - x * y| ≤ u * |x * y| + h) :
    |p - x * y| ≤ u * (B1 * B2) + h := by
  have := abs_mul_le_of_le hx hy
  nlinarith

/-- The real part of a rounded complex product: error against the exact real part. -/
theorem cmul_re_bound {u h x1 y1 x2 y2 B1 B2 p1 p2 re : ℚ} (hu : 0 ≤ u) (hu1 : u ≤ 1 / 2)
    (hh : 0 ≤ h)
    (hx1 : |x1| ≤ B1) (hy1 : |y1| ≤ B1) (hx2 : |x2| ≤ B2) (hy2 : |y2| ≤ B2)
    (hp1 : |p1 - x1 * x2| ≤ u * |x1 * x2| + h)
    (hp2 : |p2 - y1 * y2| ≤ u * |y1 * y2| + h)
    (hre : |re - (p1 - p2)| ≤ u * |p1 - p2|) :
    |re - (x1 * x2 - y1 * y2)| ≤ 5 * u * (B1 * B2) + 3 * h := by
  have k1 := prod_bound hu hx1 hx2 hp1
  have k2 := prod_bound hu hy1 hy2 hp2
  have m1 := abs_mul_le_of_le hx1 hx2
  have m2 := abs_mul_le_of_le hy1 hy2
  have hB : 0 ≤ B1 * B2 := le_trans (abs_nonneg _) m1
  rw [abs_le] at k1 k2 m1 m2
  have hd : |p1 - p2| ≤ 2 * (B1 * B2) + 2 * (u * (B1 * B2) + h) := by
    rw [abs_le]
    constructor <;> linarith [k1.1, k1.2, k2.1, k2.2, m1.1, m1.2, m2.1, m2.2]
  have hre2 : |re - (p1 - p2)| ≤ u * (2 * (B1 * B2) + 2 * (u * (B1 * B2) + h)) :=
    le_trans hre (mul_le_mul_of_nonneg_left hd hu)
  rw [abs_le] at hre2 ⊢
  have huu : u * (u * (B1 * B2)) ≤ 1 / 2 * (u * (B1 * B2)) :=
    mul_le_mul_of_nonneg_right hu1 (mul_nonneg hu hB)
  have huh : u * h ≤ 1 / 2 * h := mul_le_mul_of_nonneg_right hu1 hh
  constructor <;> nlinarith [k1.1, k1.2, k2.1, k2.2, hre2.1, hre2.2]

/-- The imaginary part of a rounded complex product. -/
theorem cmul_im_bound {u h x1 y1 x2 y2 B1 B2 p3 p4 im : ℚ} (hu : 0 ≤ u) (hu1 : u ≤ 1 / 2)
    (hh : 0 ≤ h)
    (hx1 : |x1| ≤ B1) (hy1 : |y1| ≤ B1) (hx2 : |x2| ≤ B2) (hy2 : |y2| ≤ B2)
    (hp3 : |p3 - x1 * y2| ≤ u * |x1 * y2| + h)
    (hp4 : |p4 - y1 * x2| ≤ u * |y1 * x2| + h)
    (him : |im - (p3 + p4)| ≤ u * |p3 + p4|) :
    |im - (x1 * y2 + y1 * x2)| ≤ 5 * u * (B1 * B2) + 3 * h := by
  have k1 := prod_bound hu hx1 hy2 hp3
  have k2 := prod_bound hu hy1 hx2 hp4
  have m1 := abs_mul_le_of_le hx1 hy2
  have m2 := abs_mul_le_of_le hy1 hx2
  have hB : 0 ≤ B1 * B2 := le_trans (abs_nonneg _) m1
  rw [abs_le] at k1 k2 m1 m2
  have hd : |p3 + p4| ≤ 2 * (B1 * B2) + 2 * (u * (B1 * B2) + h) := by
    rw [abs_le]
    constructor <;> linarith [k1.1, k1.2, k2.1, k2.2, m1.1, m1.2, m2.1, m2.2]
  have him2 : |im - (p3 + p4)| ≤ u * (2 * (B1 * B2) + 2 * (u * (B1 * B2) + h)) :=
    le_trans him (mul_le_mul_of_nonneg_left hd hu)
  rw [abs_le] at him2 ⊢
  have huu : u * (u * (B1 * B2)) ≤ 1 / 2 * (u * (B1 * B2)) :=
    mul_le_mul_of_nonneg_right hu1 (mul_nonneg hu hB)
  have huh : u * h ≤ 1 / 2 * h := mul_le_mul_of_nonneg_right hu1 hh
  constructor <;> nlinarith [k1.1, k1.2, k2.1, k2.2, him2.1, him2.2]


theorem uQ_le_half (f : Fmt) (hf : f.valid) : f.uQ ≤ 1 / 2 := by
  unfold Fmt.uQ
  have h1 : (2 : ℚ) ^ 1 ≤ 2 ^ f.prec :=
    pow_le_pow_right₀ (by norm_num) (by have := hf.1; omega)
  have h2 : (0 : ℚ) < 2 ^ f.prec := by positivity
  rw [div_le_div_iff₀ h2 (by norm_num)]
  linarith

namespace Complex

/-- One rounded complex product: it is finite when the exact products and sums are
within range, and each part is within `5 u B1 B2 + 3 h` of the exact part. -/
theorem mul_spec (f : Fmt) (hf : f.valid) (z w : Complex) (hz : z.isFinite = true)
    (hw : w.isFinite = true) (B1 B2 : ℚ)
    (hx1 : |Flt.toQ f z.x| ≤ B1) (hy1 : |Flt.toQ f z.y| ≤ B1)
    (hx2 : |Flt.toQ f w.x| ≤ B2) (hy2 : |Flt.toQ f w.y| ≤ B2)
    (hprod : B1 * B2 ≤ f.maxQ)
    (hre : |Flt.toQ f z.x * Flt.toQ f w.x - Flt.toQ f z.y * Flt.toQ f w.y|
      + 2 * (f.uQ * (B1 * B2) + f.hQ) ≤ f.maxQ)
    (him : |Flt.toQ f z.x * Flt.toQ f w.y + Flt.toQ f z.y * Flt.toQ f w.x|
      + 2 * (f.uQ * (B1 * B2) + f.hQ) ≤ f.maxQ) :
    (mul f z w).isFinite = true ∧
    |Flt.toQ f (mul f z w).x
        - (Flt.toQ f z.x * Flt.toQ f w.x - Flt.toQ f z.y * Flt.toQ f w.y)|
      ≤ 5 * f.uQ * (B1 * B2) + 3 * f.hQ ∧
    |Flt.toQ f (mul f z w).y
        - (Flt.toQ f z.x * Flt.toQ f w.y + Flt.toQ f z.y * Flt.toQ f w.x)|
      ≤ 5 * f.uQ * (B1 * B2) + 3 * f.hQ := by
  have hu := le_of_lt (uQ_pos f)
  have hh := le_of_lt (hQ_pos f)
  have hu1 := uQ_le_half f hf
  unfold isFinite at hz hw
  simp only [Bool.and_eq_true] at hz hw
  obtain ⟨hzx, hzy⟩ := hz
  obtain ⟨hwx, hwy⟩ := hw
  have f1 := Flt.mul_isfinite f hf z.x w.x hzx hwx
    (le_trans (abs_mul_le_of_le hx1 hx2) hprod)
  have f2 := Flt.mul_isfinite f hf z.y w.y hzy hwy
    (le_trans (abs_mul_le_of_le hy1 hy2) hprod)
  have f3 := Flt.mul_isfinite f hf z.x w.y hzx hwy
    (le_trans (abs_mul_le_of_le hx1 hy2) hprod)
  have f4 := Flt.mul_isfinite f hf z.y w.x hzy hwx
    (le_trans (abs_mul_le_of_le hy1 hx2) hprod)
  have e1 := Flt.mul_err f z.x w.x hzx hwx f1
  have e2 := Flt.mul_err f z.y w.y hzy hwy f2
  have e3 := Flt.mul_err f z.x w.y hzx hwy f3
  have e4 := Flt.mul_err f z.y w.x hzy hwx f4
  have k1 := prod_bound hu hx1 hx2 e1
  have k2 := prod_bound hu hy1 hy2 e2
  have k3 := prod_bound hu hx1 hy2 e3
  have k4 := prod_bound hu hy1 hx2 e4
  have g1 : (Flt.sub f (Flt.mul f z.x w.x) (Flt.mul f z.y w.y)).isfinite = true := by
    apply Flt.sub_isfinite f hf _ _ f1 f2
    refine le_trans ?_ hre
    rw [abs_le] at k1 k2
    have := abs_le.1 (le_refl |Flt.toQ f z.x * Flt.toQ f w.x - Flt.toQ f z.y * Flt.toQ f w.y|)
    rw [abs_le]
    constructor <;> linarith [k1.1, k1.2, k2.1, k2.2, this.1, this.2]
  have g2 : (Flt.add f (Flt.mul f z.x w.y) (Flt.mul f z.y w.x)).isfinite = true := by
    apply Flt.add_isfinite f hf _ _ f3 f4
    refine le_trans ?_ him
    rw [abs_le] at k3 k4
    have := abs_le.1 (le_refl |Flt.toQ f z.x * Flt.toQ f w.y + Flt.toQ f z.y * Flt.toQ f w.x|)
    rw [abs_le]
    constructor <;> linarith [k3.1, k3.2, k4.1, k4.2, this.1, this.2]
  have r1 := Flt.sub_err f _ _ f1 f2 g1
  have r2 := Flt.add_err f _ _ f3 f4 g2
  refine ⟨?_, ?_, ?_⟩
  · unfold isFinite mul
    simp only [g1, g2, Bool.and_self]
  · exact cmul_re_bound hu hu1 hh hx1 hy1 hx2 hy2 e1 e2 r1
  · exact cmul_im_bound hu hu1 hh hx1 hy1 hx2 hy2 e3 e4 r2

end Complex

/-! ## The format constants over the rationals -/

theorem format_constants (f : Fmt) (hf : f.valid) :
    f.minQ = 2 / 2 ^ f.emax ∧ f.maxQ = (2 - 2 * f.uQ) * 2 ^ f.emax ∧
    f.hQ = f.uQ * f.minQ := by
  obtain ⟨hp, he⟩ := hf
  obtain ⟨p, hp'⟩ : ∃ p, f.prec = p + 2 := ⟨f.prec - 2, by omega⟩
  obtain ⟨e, he'⟩ : ∃ e, f.emax = e + 1 := ⟨f.emax - 1, by omega⟩
  have hq : f.qexp = e + p + 1 := by
    unfold Fmt.qexp
    omega
  have h1 : (1 : ℕ) ≤ 2 ^ (p + 2) := Nat.one_le_two_pow
  have hmaxK : (f.maxFiniteK : ℚ) = ((2 : ℚ) ^ (p + 2) - 1) * 2 ^ (2 * e + 1) := by
    unfold Fmt.maxFiniteK
    rw [hp', he']
    have : 2 * (e + 1) - 1 = 2 * e + 1 := by omega
    rw [this]
    push_cast [Nat.cast_sub h1]
    ring
  have hminK : (f.minNormalK : ℚ) = (2 : ℚ) ^ (p + 1) := by
    unfold Fmt.minNormalK
    rw [hp']
    have : p + 2 - 1 = p + 1 := by omega
    rw [this]
    push_cast
    ring
  unfold Fmt.minQ Fmt.maxQ Fmt.hQ Fmt.uQ
  rw [hmaxK, hminK, hq, hp', he']
  have a1 : (0 : ℚ) < 2 ^ p := by positivity
  have a2 : (0 : ℚ) < 2 ^ e := by positivity
  refine ⟨?_, ?_, ?_⟩
  · field_simp
    ring
  · field_simp
    ring
  · field_simp
    ring

theorem min_mul_max (f : Fmt) (hf : f.valid) : f.minQ * f.maxQ = 4 * (1 - f.uQ) := by
  obtain ⟨h1, h2, _⟩ := format_constants f hf
  rw [h1, h2]
  have : (0 : ℚ) < 2 ^ f.emax := by positivity
  field_simp
  ring

theorem uQ_le_of_prec (f : Fmt) (n : Nat) (h : n ≤ f.prec) : f.uQ ≤ 1 / 2 ^ n := by
  unfold Fmt.uQ
  have h1 : (2 : ℚ) ^ n ≤ 2 ^ f.prec := pow_le_pow_right₀ (by norm_num) h
  have h2 : (0 : ℚ) < 2 ^ f.prec := by positivity
  have h3 : (0 : ℚ) < 2 ^ n := by positivity
  rw [div_le_div_iff₀ h2 h3]
  linarith

theorem minQ_le_of_emax (f : Fmt) (hf : f.valid) (n : Nat) (h : n ≤ f.emax) :
    f.minQ ≤ 2 / 2 ^ n := by
  rw [(format_constants f hf).1]
  have h1 : (2 : ℚ) ^ n ≤ 2 ^ f.emax := pow_le_pow_right₀ (by norm_num) h
  have h2 : (0 : ℚ) < 2 ^ f.emax := by positivity
  have h3 : (0 : ℚ) < 2 ^ n := by positivity
  rw [div_le_div_iff₀ h2 h3]
  linarith

theorem minQ_pos (f : Fmt) : 0 < f.minQ := by
  unfold Fmt.minQ Fmt.minNormalK
  positivity


/-! ## Error of the squared length -/

theorem lensq_bound {u h m s1 s2 Nh X Y : ℚ} (hu : 0 ≤ u) (hu1 : u ≤ 1 / 256)
    (hh : h = u * m) (hX : 0 ≤ X) (hY : 0 ≤ Y) (hs1 : 0 ≤ s1) (hs2 : 0 ≤ s2)
    (e1 : |s1 - X| ≤ u * X + h) (e2 : |s2 - Y| ≤ u * Y + h)
    (e3 : |Nh - (s1 + s2)| ≤ u * |s1 + s2|) (hm : m ≤ Nh) (hm0 : 0 ≤ m) :
    |Nh - (X + Y)| ≤ 5 * u * Nh := by
  have hT : 0 ≤ s1 + s2 := add_nonneg hs1 hs2
  rw [abs_of_nonneg hT] at e3
  rw [abs_le] at e1 e2 e3
  have hN : 0 ≤ Nh := le_trans hm0 hm
  have huT : u * (s1 + s2) ≤ 1 / 256 * (s1 + s2) := mul_le_mul_of_nonneg_right hu1 hT
  have hT2 : s1 + s2 ≤ 256 / 255 * Nh := by linarith [e3.1]
  have hhN : h ≤ u * Nh := by
    rw [hh]
    exact mul_le_mul_of_nonneg_left hm hu
  have huN : u * Nh ≤ 1 / 256 * Nh := mul_le_mul_of_nonneg_right hu1 hN
  have hV : 0 ≤ X + Y := add_nonneg hX hY
  have huV : u * (X + Y) ≤ 1 / 256 * (X + Y) := mul_le_mul_of_nonneg_right hu1 hV
  have hV2 : X + Y ≤ 256 / 255 * (s1 + s2 + 2 * h) := by linarith [e1.1, e2.1]
  have hV3 : X + Y ≤ 102 / 100 * Nh := by linarith
  have k1 : u * (s1 + s2) ≤ u * (256 / 255 * Nh) := mul_le_mul_of_nonneg_left hT2 hu
  have k2 : u * (X + Y) ≤ u * (102 / 100 * Nh) := mul_le_mul_of_nonneg_left hV3 hu
  rw [abs_le]
  constructor <;> linarith [e1.1, e1.2, e2.1, e2.2, e3.1, e3.2]

namespace Flt

theorem add_isfinite_inv (f : Fmt) {x y : Flt} (h : (add f x y).isfinite = true) :
    x.isfinite = true ∧ y.isfinite = true := by
  cases x <;> cases y <;> simp [add, isfinite] at h ⊢
  rename_i s t
  split_ifs at h

theorem toQ_mul_self (f : Fmt) (x : Flt) :
    0 ≤ toQ f (mul f x x) ∧ toQ f x * toQ f x = |toQ f x| ^ 2 := by
  constructor
  · rcases mul_self_cases f x with e | e | ⟨k, e⟩ <;> rw [e]
    · simp [toQ]
    · simp [toQ]
    · rw [toQ_fin]
      simp only [Bool.false_eq_true, if_false, one_mul]
      positivity
  · rw [sq_abs]
    ring

end Flt

namespace Complex

/-- A normal `lengthSquared()` lies between `min()` and `max()` and is within the
relative error `5 u` of the exact sum of squares. -/
theorem lengthSquared_spec (f : Fmt) (hf : f.valid) (hp : 8 ≤ f.prec) (z : Complex)
    (hz : z.isFinite = true) (hn : SwiftRT.isNormal f (z.lengthSquared f) = true) :
    (z.lengthSquared f).isfinite = true ∧
    f.minQ ≤ Flt.toQ f (z.lengthSquared f) ∧ Flt.toQ f (z.lengthSquared f) ≤ f.maxQ ∧
    |Flt.toQ f (z.lengthSquared f) - (Flt.toQ f z.x * Flt.toQ f z.x
        + Flt.toQ f z.y * Flt.toQ f z.y)| ≤ 5 * f.uQ * Flt.toQ f (z.lengthSquared f) := by
  obtain ⟨k, hk, hmin, hmax⟩ := (isNormal_iff f _).1 hn
  have hS : (0 : ℚ) < 2 ^ f.qexp := by positivity
  have hfin : (z.lengthSquared f).isfinite = true := by rw [hk]; rfl
  have hminQ : f.minQ ≤ Flt.toQ f (z.lengthSquared f) := by
    rw [hk, Flt.toQ_fin]
    simp only [Bool.false_eq_true, if_false, one_mul]
    unfold Fmt.minQ
    exact div_le_div_of_nonneg_right (by exact_mod_cast hmin) (le_of_lt hS)
  have hmaxQ : Flt.toQ f (z.lengthSquared f) ≤ f.maxQ := by
    rw [hk, Flt.toQ_fin]
    simp only [Bool.false_eq_true, if_false, one_mul]
    unfold Fmt.maxQ
    exact div_le_div_of_nonneg_right (by exact_mod_cast hmax) (le_of_lt hS)
  refine ⟨hfin, hminQ, hmaxQ, ?_⟩
  unfold isFinite at hz
  simp only [Bool.and_eq_true] at hz
  obtain ⟨hzx, hzy⟩ := hz
  unfold lengthSquared at hfin hminQ ⊢
  obtain ⟨f1, f2⟩ := Flt.add_isfinite_inv f hfin
  have e1 := Flt.mul_err f z.x z.x hzx hzx f1
  have e2 := Flt.mul_err f z.y z.y hzy hzy f2
  have e3 := Flt.add_err f _ _ f1 f2 hfin
  have n1 := (Flt.toQ_mul_self f z.x).1
  have n2 := (Flt.toQ_mul_self f z.y).1
  have a1 : |Flt.toQ f z.x * Flt.toQ f z.x| = Flt.toQ f z.x * Flt.toQ f z.x :=
    abs_of_nonneg (mul_self_nonneg _)
  have a2 : |Flt.toQ f z.y * Flt.toQ f z.y| = Flt.toQ f z.y * Flt.toQ f z.y :=
    abs_of_nonneg (mul_self_nonneg _)
  rw [a1] at e1
  rw [a2] at e2
  have hu := le_of_lt (uQ_pos f)
  have hu1 : f.uQ ≤ 1 / 256 := by
    have := uQ_le_of_prec f 8 hp
    norm_num at this ⊢
    exact this
  exact lensq_bound hu hu1 (format_constants f hf).2.2 (mul_self_nonneg _)
    (mul_self_nonneg _) n1 n2 e1 e2 e3 hminQ (le_of_lt (minQ_pos f))

end Complex

/-! ## Magnitudes in a well-scaled division -/

theorem le_of_mul_self_le {x b : ℚ} (hb : 0 ≤ b) (h : x * x ≤ b * b) : x ≤ b := by
  by_contra hc
  push_neg at hc
  nlinarith

theorem abs_le_of_mul_self_le {x b : ℚ} (hb : 0 ≤ b) (h : x * x ≤ b * b) : |x| ≤ b := by
  apply le_of_mul_self_le hb
  rw [abs_mul_abs_self]
  exact h

/-- Consequences of both squared lengths being normal. -/
theorem scale_facts {u m Ω A B C D Z W Nz N t : ℚ}
    (hu0 : 0 < u) (hu1 : u ≤ 1 / 256) (hm0 : 0 < m) (hm1 : m ≤ 1 / 8)
    (hmΩ : m * Ω = 4 * (1 - u))
    (hZ0 : 0 ≤ Z) (hZa : |A| ≤ Z) (hZb : |B| ≤ Z) (hZ2 : Z * Z ≤ A * A + B * B)
    (hW2 : W * W ≤ C * C + D * D)
    (hNz1 : m ≤ Nz) (hNz2 : Nz ≤ Ω) (hNz3 : |Nz - (A * A + B * B)| ≤ 5 * u * Nz)
    (hN1 : m ≤ N) (hN2 : N ≤ Ω) (hN3 : |N - (C * C + D * D)| ≤ 5 * u * N)
    (ht : N * t = 1) :
    31 ≤ Ω ∧ 0 < t ∧ m * t ≤ 1 ∧
    A * A + B * B ≤ 102 / 100 * Ω ∧ 49 / 100 * m ≤ Z * Z ∧
    |(C * C + D * D) * t - 1| ≤ 5 * u ∧ (C * C + D * D) * t ≤ 102 / 100 ∧
    W * W * t ≤ 102 / 100 ∧ W * W ≤ 102 / 100 * Ω ∧ Z * Z ≤ 102 / 100 * Ω ∧
    398 / 100 * t ≤ Ω := by
  have hΩ0 : 0 < Ω := by
    by_contra hc
    push_neg at hc
    have := mul_nonpos_of_nonneg_of_nonpos (le_of_lt hm0) hc
    linarith
  have hΩ : 31 ≤ Ω := by
    have := mul_le_mul_of_nonneg_right hm1 (le_of_lt hΩ0)
    linarith
  have hN0 : 0 < N := lt_of_lt_of_le hm0 hN1
  have ht0 : 0 < t := by
    by_contra hc
    push_neg at hc
    have := mul_nonpos_of_nonneg_of_nonpos (le_of_lt hN0) hc
    linarith
  have hmt : m * t ≤ 1 := by
    rw [← ht]
    exact mul_le_mul_of_nonneg_right hN1 (le_of_lt ht0)
  have hNz0 : 0 < Nz := lt_of_lt_of_le hm0 hNz1
  have h5u : 5 * u ≤ 2 / 100 := by linarith
  rw [abs_le] at hNz3 hN3
  have k1 : 5 * u * Nz ≤ 2 / 100 * Nz := mul_le_mul_of_nonneg_right h5u (le_of_lt hNz0)
  have k2 : 5 * u * N ≤ 2 / 100 * N := mul_le_mul_of_nonneg_right h5u (le_of_lt hN0)
  have hzex : A * A + B * B ≤ 102 / 100 * Ω := by linarith [hNz3.1]
  have hA2 : A * A ≤ Z * Z := by
    have := abs_mul_abs_self A
    rw [← this]
    exact mul_le_mul hZa hZa (abs_nonneg _) hZ0
  have hB2 : B * B ≤ Z * Z := by
    have := abs_mul_abs_self B
    rw [← this]
    exact mul_le_mul hZb hZb (abs_nonneg _) hZ0
  have hzlo : 49 / 100 * m ≤ Z * Z := by linarith [hNz3.2]
  have hex1 : ((C * C + D * D) - N) * t ≤ 5 * u * N * t :=
    mul_le_mul_of_nonneg_right (by linarith [hN3.1]) (le_of_lt ht0)
  have hex2 : (N - (C * C + D * D)) * t ≤ 5 * u * N * t :=
    mul_le_mul_of_nonneg_right (by linarith [hN3.2]) (le_of_lt ht0)
  have e5 : 5 * u * N * t = 5 * u := by
    calc 5 * u * N * t = 5 * u * (N * t) := by ring
      _ = 5 * u := by rw [ht]; ring
  have hex : |(C * C + D * D) * t - 1| ≤ 5 * u := by
    rw [abs_le]
    constructor <;> linarith
  have hext : (C * C + D * D) * t ≤ 102 / 100 := by
    rw [abs_le] at hex
    linarith [hex.2]
  have hWt : W * W * t ≤ 102 / 100 :=
    le_trans (mul_le_mul_of_nonneg_right hW2 (le_of_lt ht0)) hext
  have hWΩ : W * W ≤ 102 / 100 * Ω := by linarith [hN3.1]
  have hmΩt : m * Ω * t ≤ Ω := by
    calc m * Ω * t = Ω * (m * t) := by ring
      _ ≤ Ω * 1 := mul_le_mul_of_nonneg_left hmt (le_of_lt hΩ0)
      _ = Ω := by ring
  have hut : u * t ≤ 1 / 256 * t := mul_le_mul_of_nonneg_right hu1 (le_of_lt ht0)
  have hT1 : 398 / 100 * t ≤ Ω := by
    rw [hmΩ] at hmΩt
    linarith
  exact ⟨hΩ, ht0, hmt, hzex, hzlo, hex, hext, hWt, hWΩ, le_trans hZ2 hzex, hT1⟩


/-- A quantity whose square is at most `P * Q * t` is at most `0.52 Ω`. -/
theorem sq_prod_bound {P Q t Ω x : ℚ} (hP : P ≤ 102 / 100 * Ω)
    (hQ0 : 0 ≤ Q) (hQ : Q ≤ 102 / 100) (ht0 : 0 < t) (hT : 398 / 100 * t ≤ Ω)
    (hΩ : 0 ≤ Ω) (hx : x * x ≤ P * Q * t) : |x| ≤ 52 / 100 * Ω := by
  apply abs_le_of_mul_self_le (by linarith)
  have h1 : P * Q ≤ 102 / 100 * Ω * (102 / 100) := mul_le_mul hP hQ hQ0 (by linarith)
  have h2 : P * Q * t ≤ 102 / 100 * Ω * (102 / 100) * t :=
    mul_le_mul_of_nonneg_right h1 (le_of_lt ht0)
  have h3 : Ω * (398 / 100 * t) ≤ Ω * Ω := mul_le_mul_of_nonneg_left hT hΩ
  linarith [mul_self_nonneg Ω]

/-- Size bounds on the products that occur in a well-scaled division. -/
theorem scale_products {u m Ω A B C D Z W t : ℚ}
    (hu0 : 0 < u) (hm0 : 0 < m) (hm1 : m ≤ 1 / 8) (hmΩ : m * Ω = 4 * (1 - u))
    (hZ0 : 0 ≤ Z) (hΩ : 31 ≤ Ω) (ht0 : 0 < t)
    (hzex : A * A + B * B ≤ 102 / 100 * Ω) (hzlo : 49 / 100 * m ≤ Z * Z)
    (hext : (C * C + D * D) * t ≤ 102 / 100) (hWt : W * W * t ≤ 102 / 100)
    (hWΩ : W * W ≤ 102 / 100 * Ω) (hZΩ : Z * Z ≤ 102 / 100 * Ω)
    (hT : 398 / 100 * t ≤ Ω) :
    Z * (W * t) ≤ 52 / 100 * Ω ∧
    |(A * C + B * D) * t| ≤ 52 / 100 * Ω ∧ |(B * C - A * D) * t| ≤ 52 / 100 * Ω ∧
    W * t ≤ Ω ∧ 5 * Z ≤ Ω ∧ m * W ≤ 1 ∧ m * W ≤ 3 * Z ∧ m ≤ Z ∧ Z * m ≤ 1 := by
  have hΩ0 : 0 ≤ Ω := by linarith
  have hsum0 : 0 ≤ A * A + B * B := add_nonneg (mul_self_nonneg _) (mul_self_nonneg _)
  have hsum1 : 0 ≤ C * C + D * D := add_nonneg (mul_self_nonneg _) (mul_self_nonneg _)
  have hWW : 0 ≤ W * W := mul_self_nonneg _
  have hZZ : 0 ≤ Z * Z := mul_self_nonneg _
  have p1 : Z * (W * t) ≤ 52 / 100 * Ω := by
    have := sq_prod_bound hZΩ (mul_nonneg hWW (le_of_lt ht0)) hWt ht0 hT hΩ0
      (x := Z * (W * t)) (le_of_eq (by ring))
    exact le_trans (le_abs_self _) this
  have p2 : |(A * C + B * D) * t| ≤ 52 / 100 * Ω := by
    apply sq_prod_bound hzex (mul_nonneg hsum1 (le_of_lt ht0)) hext ht0 hT hΩ0
    have e : (A * A + B * B) * ((C * C + D * D) * t) * t
        - (A * C + B * D) * t * ((A * C + B * D) * t)
        = ((A * D - B * C) * t) * ((A * D - B * C) * t) := by ring
    linarith [mul_self_nonneg ((A * D - B * C) * t)]
  have p3 : |(B * C - A * D) * t| ≤ 52 / 100 * Ω := by
    apply sq_prod_bound hzex (mul_nonneg hsum1 (le_of_lt ht0)) hext ht0 hT hΩ0
    have e : (A * A + B * B) * ((C * C + D * D) * t) * t
        - (B * C - A * D) * t * ((B * C - A * D) * t)
        = ((A * C + B * D) * t) * ((A * C + B * D) * t) := by ring
    linarith [mul_self_nonneg ((A * C + B * D) * t)]
  have p4 : W * t ≤ Ω := by
    apply le_of_mul_self_le hΩ0
    have e : W * t * (W * t) = W * W * t * t := by ring
    have h1 : W * W * t * t ≤ 102 / 100 * t := mul_le_mul_of_nonneg_right hWt (le_of_lt ht0)
    have h2 : 31 * Ω ≤ Ω * Ω := mul_le_mul_of_nonneg_right hΩ hΩ0
    linarith
  have p5 : 5 * Z ≤ Ω := by
    apply le_of_mul_self_le hΩ0
    have h2 : 31 * Ω ≤ Ω * Ω := mul_le_mul_of_nonneg_right hΩ hΩ0
    have e : 5 * Z * (5 * Z) = 25 * (Z * Z) := by ring
    linarith
  have hmm : m * m ≤ 1 / 8 * m := mul_le_mul_of_nonneg_right hm1 (le_of_lt hm0)
  have hmW2 : m * W * (m * W) ≤ 408 / 100 * m := by
    have h1 : m * m * (W * W) ≤ m * m * (102 / 100 * Ω) :=
      mul_le_mul_of_nonneg_left hWΩ (mul_self_nonneg _)
    have e1 : m * m * (102 / 100 * Ω) = 102 / 100 * m * (m * Ω) := by ring
    have e2 : m * W * (m * W) = m * m * (W * W) := by ring
    have h3 : m * u ≥ 0 := mul_nonneg (le_of_lt hm0) (le_of_lt hu0)
    rw [e2]
    rw [e1, hmΩ] at h1
    linarith
  have p6 : m * W ≤ 1 := by
    apply le_of_mul_self_le (by norm_num)
    linarith
  have p7 : m * W ≤ 3 * Z := by
    apply le_of_mul_self_le (by linarith)
    have e : 3 * Z * (3 * Z) = 9 * (Z * Z) := by ring
    linarith
  have p8 : m ≤ Z := by
    apply le_of_mul_self_le hZ0
    linarith
  have p9 : Z * m ≤ 1 := by
    apply le_of_mul_self_le (by norm_num)
    have h1 : Z * Z * (m * m) ≤ 102 / 100 * Ω * (m * m) :=
      mul_le_mul_of_nonneg_right hZΩ (mul_self_nonneg _)
    have e1 : 102 / 100 * Ω * (m * m) = 102 / 100 * m * (m * Ω) := by ring
    have e2 : Z * m * (Z * m) = Z * Z * (m * m) := by ring
    have h3 : m * u ≥ 0 := mul_nonneg (le_of_lt hm0) (le_of_lt hu0)
    rw [e2]
    rw [e1, hmΩ] at h1
    linarith
  exact ⟨p1, p2, p3, p4, p5, p6, p7, p8, p9⟩


/-- The rounded reciprocal-scaled divisor `conjugate(w) / lengthSquared(w)` and the first
complex product: sizes within range, and distance of the exact product of the rounded
factors from the exact quotient. -/
theorem stage2_bounds {u h m Ω A B C D Z W t c' d' : ℚ}
    (hu0 : 0 < u) (hu1 : u ≤ 1 / 256) (hh : h = u * m) (hm0 : 0 < m) (hm1 : m ≤ 1 / 8)
    (hZ0 : 0 ≤ Z) (hW0 : 0 ≤ W) (ht0 : 0 < t) (hΩ : 31 ≤ Ω)
    (hZa : |A| ≤ Z) (hZb : |B| ≤ Z) (hWc : |C| ≤ W) (hWd : |D| ≤ W)
    (p1 : Z * (W * t) ≤ 52 / 100 * Ω)
    (p2 : |(A * C + B * D) * t| ≤ 52 / 100 * Ω) (p3 : |(B * C - A * D) * t| ≤ 52 / 100 * Ω)
    (p9 : Z * m ≤ 1)
    (ec : |c' - C * t| ≤ u * |C * t| + h) (ed : |d' - (-D) * t| ≤ u * |(-D) * t| + h) :
    |c'| ≤ (1 + u) * (W * t) + h ∧ |d'| ≤ (1 + u) * (W * t) + h ∧
    Z * ((1 + u) * (W * t) + h) ≤ Ω ∧
    |A * c' - B * d'| + 2 * (u * (Z * ((1 + u) * (W * t) + h)) + h) ≤ Ω ∧
    |A * d' + B * c'| + 2 * (u * (Z * ((1 + u) * (W * t) + h)) + h) ≤ Ω ∧
    |(A * c' - B * d') - (A * C + B * D) * t| ≤ 2 * (Z * (u * (W * t) + h)) ∧
    |(A * d' + B * c') - (B * C - A * D) * t| ≤ 2 * (Z * (u * (W * t) + h)) := by
  have hv0 : 0 ≤ W * t := mul_nonneg hW0 (le_of_lt ht0)
  have hh0 : 0 ≤ h := by rw [hh]; exact mul_nonneg (le_of_lt hu0) (le_of_lt hm0)
  have hCt : |C * t| ≤ W * t := by
    rw [abs_mul, abs_of_pos ht0]
    exact mul_le_mul_of_nonneg_right hWc (le_of_lt ht0)
  have hDt : |(-D) * t| ≤ W * t := by
    rw [abs_mul, abs_neg, abs_of_pos ht0]
    exact mul_le_mul_of_nonneg_right hWd (le_of_lt ht0)
  have ec2 : |c' - C * t| ≤ u * (W * t) + h := by
    have := mul_le_mul_of_nonneg_left hCt (le_of_lt hu0)
    linarith
  have ed2 : |d' - (-D) * t| ≤ u * (W * t) + h := by
    have := mul_le_mul_of_nonneg_left hDt (le_of_lt hu0)
    linarith
  have hE0 : 0 ≤ u * (W * t) + h := add_nonneg (mul_nonneg (le_of_lt hu0) hv0) hh0
  have bc : |c'| ≤ (1 + u) * (W * t) + h := by
    have h1 := abs_le.1 ec2
    have h2 := abs_le.1 hCt
    rw [abs_le]
    constructor <;> linarith [h1.1, h1.2, h2.1, h2.2]
  have bd : |d'| ≤ (1 + u) * (W * t) + h := by
    have h1 := abs_le.1 ed2
    have h2 := abs_le.1 hDt
    rw [abs_le]
    constructor <;> linarith [h1.1, h1.2, h2.1, h2.2]
  -- the basic products, all in terms of `Ω`
  have hg0 : 0 ≤ Z * (W * t) := mul_nonneg hZ0 hv0
  have hΩ0 : 0 ≤ Ω := by linarith
  have hug : u * (Z * (W * t)) ≤ 1 / 256 * (Z * (W * t)) :=
    mul_le_mul_of_nonneg_right hu1 hg0
  have hug0 : 0 ≤ u * (Z * (W * t)) := mul_nonneg (le_of_lt hu0) hg0
  have huug : u * (u * (Z * (W * t))) ≤ 1 / 256 * (u * (Z * (W * t))) :=
    mul_le_mul_of_nonneg_right hu1 hug0
  have hZh : Z * h ≤ u := by
    rw [hh]
    calc Z * (u * m) = u * (Z * m) := by ring
      _ ≤ u * 1 := mul_le_mul_of_nonneg_left p9 (le_of_lt hu0)
      _ = u := by ring
  have hZh0 : 0 ≤ Z * h := mul_nonneg hZ0 hh0
  have huZh : u * (Z * h) ≤ 1 / 256 * (Z * h) := mul_le_mul_of_nonneg_right hu1 hZh0
  have hhle : h ≤ 1 / 256 := by
    rw [hh]
    have := mul_le_mul hu1 hm1 (le_of_lt hm0) (by norm_num : (0 : ℚ) ≤ 1 / 256)
    linarith
  have b3 : Z * ((1 + u) * (W * t) + h) ≤ Ω := by
    have e : Z * ((1 + u) * (W * t) + h) = Z * (W * t) + u * (Z * (W * t)) + Z * h := by ring
    rw [e]
    linarith
  have hZE : Z * (u * (W * t) + h) = u * (Z * (W * t)) + Z * h := by ring
  have d1 : |(A * c' - B * d') - (A * C + B * D) * t| ≤ 2 * (Z * (u * (W * t) + h)) := by
    have k1 := abs_le.1 (abs_mul_le_of_le hZa ec2)
    have k2 := abs_le.1 (abs_mul_le_of_le hZb ed2)
    rw [abs_le]
    constructor <;> linarith [k1.1, k1.2, k2.1, k2.2]
  have d2 : |(A * d' + B * c') - (B * C - A * D) * t| ≤ 2 * (Z * (u * (W * t) + h)) := by
    have k1 := abs_le.1 (abs_mul_le_of_le hZa ed2)
    have k2 := abs_le.1 (abs_mul_le_of_le hZb ec2)
    rw [abs_le]
    constructor <;> linarith [k1.1, k1.2, k2.1, k2.2]
  have e3 : u * (Z * ((1 + u) * (W * t) + h))
      = u * (Z * (W * t)) + u * (u * (Z * (W * t))) + u * (Z * h) := by ring
  refine ⟨bc, bd, b3, ?_, ?_, d1, d2⟩
  · have k1 := abs_le.1 d1
    have k2 := abs_le.1 p2
    have : |A * c' - B * d'| ≤ 52 / 100 * Ω + 2 * (Z * (u * (W * t) + h)) := by
      rw [abs_le]
      constructor <;> linarith [k1.1, k1.2, k2.1, k2.2]
    rw [e3]
    rw [hZE] at this
    linarith
  · have k1 := abs_le.1 d2
    have k2 := abs_le.1 p3
    have : |A * d' + B * c'| ≤ 52 / 100 * Ω + 2 * (Z * (u * (W * t) + h)) := by
      rw [abs_le]
      constructor <;> linarith [k1.1, k1.2, k2.1, k2.2]
    rw [e3]
    rw [hZE] at this
    linarith


/-- The second complex product `(z / w) * w`: sizes within range, and the final distance
from `z`. -/
theorem stage3_bounds {u h m Ω A B C D Z W t c' d' qx qy : ℚ}
    (hu0 : 0 < u) (hu1 : u ≤ 1 / 256) (hh : h = u * m) (hm0 : 0 < m)
    (hZ0 : 0 ≤ Z) (hW0 : 0 ≤ W) (ht0 : 0 < t)
    (hZa : |A| ≤ Z) (hZb : |B| ≤ Z) (hWc : |C| ≤ W) (hWd : |D| ≤ W)
    (p5 : 5 * Z ≤ Ω) (p6 : m * W ≤ 1) (p7 : m * W ≤ 3 * Z) (p8 : m ≤ Z)
    (hWt : W * W * t ≤ 102 / 100) (hex : |(C * C + D * D) * t - 1| ≤ 5 * u)
    (d1 : |(A * c' - B * d') - (A * C + B * D) * t| ≤ 2 * (Z * (u * (W * t) + h)))
    (d2 : |(A * d' + B * c') - (B * C - A * D) * t| ≤ 2 * (Z * (u * (W * t) + h)))
    (eqx : |qx - (A * c' - B * d')| ≤ 5 * u * (Z * ((1 + u) * (W * t) + h)) + 3 * h)
    (eqy : |qy - (A * d' + B * c')| ≤ 5 * u * (Z * ((1 + u) * (W * t) + h)) + 3 * h) :
    |qx| ≤ 2 * (Z * (W * t)) + (5 * u * (Z * ((1 + u) * (W * t) + h)) + 3 * h
        + 2 * (Z * (u * (W * t) + h))) ∧
    |qy| ≤ 2 * (Z * (W * t)) + (5 * u * (Z * ((1 + u) * (W * t) + h)) + 3 * h
        + 2 * (Z * (u * (W * t) + h))) ∧
    (2 * (Z * (W * t)) + (5 * u * (Z * ((1 + u) * (W * t) + h)) + 3 * h
        + 2 * (Z * (u * (W * t) + h)))) * W ≤ Ω ∧
    |qx * C - qy * D| + 2 * (u * ((2 * (Z * (W * t))
        + (5 * u * (Z * ((1 + u) * (W * t) + h)) + 3 * h
        + 2 * (Z * (u * (W * t) + h)))) * W) + h) ≤ Ω ∧
    |qx * D + qy * C| + 2 * (u * ((2 * (Z * (W * t))
        + (5 * u * (Z * ((1 + u) * (W * t) + h)) + 3 * h
        + 2 * (Z * (u * (W * t) + h)))) * W) + h) ≤ Ω ∧
    (∀ rx : ℚ, |rx - (qx * C - qy * D)| ≤ 5 * u * ((2 * (Z * (W * t))
        + (5 * u * (Z * ((1 + u) * (W * t) + h)) + 3 * h
        + 2 * (Z * (u * (W * t) + h)))) * W) + 3 * h → |rx - A| ≤ 64 * u * Z) ∧
    (∀ ry : ℚ, |ry - (qx * D + qy * C)| ≤ 5 * u * ((2 * (Z * (W * t))
        + (5 * u * (Z * ((1 + u) * (W * t) + h)) + 3 * h
        + 2 * (Z * (u * (W * t) + h)))) * W) + 3 * h → |ry - B| ≤ 64 * u * Z) := by
  have hv0 : 0 ≤ W * t := mul_nonneg hW0 (le_of_lt ht0)
  have hh0 : 0 ≤ h := by rw [hh]; exact mul_nonneg (le_of_lt hu0) (le_of_lt hm0)
  have hu' : 0 ≤ u := le_of_lt hu0
  have huZ0 : 0 ≤ u * Z := mul_nonneg hu' hZ0
  generalize hE2 : 5 * u * (Z * ((1 + u) * (W * t) + h)) + 3 * h
    + 2 * (Z * (u * (W * t) + h)) = E2
  have hE20 : 0 ≤ E2 := by
    rw [← hE2]
    have a1 : 0 ≤ Z * ((1 + u) * (W * t) + h) :=
      mul_nonneg hZ0 (add_nonneg (mul_nonneg (by linarith) hv0) hh0)
    have a2 : 0 ≤ Z * (u * (W * t) + h) :=
      mul_nonneg hZ0 (add_nonneg (mul_nonneg hu' hv0) hh0)
    have a3 : 0 ≤ 5 * u * (Z * ((1 + u) * (W * t) + h)) := mul_nonneg (by linarith) a1
    linarith
  -- distance of the rounded quotient from the exact one
  have qx1 : |qx - (A * C + B * D) * t| ≤ E2 := by
    have k1 := abs_le.1 d1
    have k2 := abs_le.1 eqx
    rw [abs_le, ← hE2]
    constructor <;> linarith [k1.1, k1.2, k2.1, k2.2]
  have qy1 : |qy - (B * C - A * D) * t| ≤ E2 := by
    have k1 := abs_le.1 d2
    have k2 := abs_le.1 eqy
    rw [abs_le, ← hE2]
    constructor <;> linarith [k1.1, k1.2, k2.1, k2.2]
  have hCt : |C * t| ≤ W * t := by
    rw [abs_mul, abs_of_pos ht0]
    exact mul_le_mul_of_nonneg_right hWc (le_of_lt ht0)
  have hDt : |D * t| ≤ W * t := by
    rw [abs_mul, abs_of_pos ht0]
    exact mul_le_mul_of_nonneg_right hWd (le_of_lt ht0)
  have hAC := abs_le.1 (abs_mul_le_of_le hZa hCt)
  have hBD := abs_le.1 (abs_mul_le_of_le hZb hDt)
  have hBC := abs_le.1 (abs_mul_le_of_le hZb hCt)
  have hAD := abs_le.1 (abs_mul_le_of_le hZa hDt)
  have bqx : |qx| ≤ 2 * (Z * (W * t)) + E2 := by
    have k1 := abs_le.1 qx1
    rw [abs_le]
    constructor <;> linarith [k1.1, k1.2, hAC.1, hAC.2, hBD.1, hBD.2]
  have bqy : |qy| ≤ 2 * (Z * (W * t)) + E2 := by
    have k1 := abs_le.1 qy1
    rw [abs_le]
    constructor <;> linarith [k1.1, k1.2, hBC.1, hBC.2, hAD.1, hAD.2]
  -- the monomials, all in terms of `u * Z`
  have f6 : Z * (W * W * t) ≤ 102 / 100 * Z := by
    have := mul_le_mul_of_nonneg_left hWt hZ0
    linarith
  have hk0 : 0 ≤ W * W * t := mul_nonneg (mul_self_nonneg _) (le_of_lt ht0)
  have hZk0 : 0 ≤ Z * (W * W * t) := mul_nonneg hZ0 hk0
  have f1 : u * (Z * (W * W * t)) ≤ 102 / 100 * (u * Z) := by
    have := mul_le_mul_of_nonneg_left f6 hu'
    linarith
  have f2 : u * (u * (Z * (W * W * t))) ≤ 1 / 256 * (102 / 100 * (u * Z)) := by
    have a := mul_le_mul_of_nonneg_right hu1 (mul_nonneg hu' hZk0)
    linarith
  have hhW : h * W = u * (m * W) := by rw [hh]; ring
  have hmW0 : 0 ≤ m * W := mul_nonneg (le_of_lt hm0) hW0
  have f5 : h * W ≤ 3 * (u * Z) := by
    rw [hhW]
    have := mul_le_mul_of_nonneg_left p7 hu'
    linarith
  have f3 : Z * (h * W) ≤ u * Z := by
    rw [hhW]
    have := mul_le_mul_of_nonneg_left p6 huZ0
    calc Z * (u * (m * W)) = u * Z * (m * W) := by ring
      _ ≤ u * Z * 1 := this
      _ = u * Z := by ring
  have hZhW0 : 0 ≤ Z * (h * W) := mul_nonneg hZ0 (mul_nonneg hh0 hW0)
  have f4 : u * (Z * (h * W)) ≤ 1 / 256 * (u * Z) := by
    have a := mul_le_mul_of_nonneg_right hu1 hZhW0
    linarith
  have f7 : h ≤ u * Z := by
    rw [hh]
    exact mul_le_mul_of_nonneg_left p8 hu'
  have hE2W : E2 * W ≤ 19 * (u * Z) := by
    have e : E2 * W = 5 * (u * (Z * (W * W * t))) + 5 * (u * (u * (Z * (W * W * t))))
        + 5 * (u * (Z * (h * W))) + 3 * (h * W) + 2 * (u * (Z * (W * W * t)))
        + 2 * (Z * (h * W)) := by
      rw [← hE2]
      ring
    rw [e]
    linarith
  have hE2W0 : 0 ≤ E2 * W := mul_nonneg hE20 hW0
  have huZ : u * Z ≤ 1 / 256 * Z := mul_le_mul_of_nonneg_right hu1 hZ0
  have hBqW : (2 * (Z * (W * t)) + E2) * W ≤ 212 / 100 * Z := by
    have e : (2 * (Z * (W * t)) + E2) * W = 2 * (Z * (W * W * t)) + E2 * W := by ring
    rw [e]
    linarith
  have hBqW0 : 0 ≤ (2 * (Z * (W * t)) + E2) * W :=
    mul_nonneg (add_nonneg (mul_nonneg (by norm_num) (mul_nonneg hZ0 hv0)) hE20) hW0
  have huBqW : u * ((2 * (Z * (W * t)) + E2) * W) ≤ 212 / 100 * (u * Z) := by
    have := mul_le_mul_of_nonneg_left hBqW hu'
    linarith
  have hfin : ∀ x y : ℚ, |x| ≤ (2 * (Z * (W * t)) + E2) * W →
      |y| ≤ (2 * (Z * (W * t)) + E2) * W →
      |x| + |y| + 2 * (u * ((2 * (Z * (W * t)) + E2) * W) + h) ≤ Ω := by
    intro x y hx hy
    linarith
  have hqC := abs_mul_le_of_le bqx hWc
  have hqD := abs_mul_le_of_le bqy hWd
  have hqD' := abs_mul_le_of_le bqx hWd
  have hqC' := abs_mul_le_of_le bqy hWc
  have hexA := abs_le.1 (abs_mul_le_of_le hZa hex)
  have hexB := abs_le.1 (abs_mul_le_of_le hZb hex)
  have dxC := abs_le.1 (abs_mul_le_of_le qx1 hWc)
  have dyD := abs_le.1 (abs_mul_le_of_le qy1 hWd)
  have dxD := abs_le.1 (abs_mul_le_of_le qx1 hWd)
  have dyC := abs_le.1 (abs_mul_le_of_le qy1 hWc)
  refine ⟨bqx, bqy, by linarith, ?_, ?_, ?_, ?_⟩
  · have := hfin _ _ hqC hqD
    have t1 := abs_sub (qx * C) (qy * D)
    linarith
  · have := hfin _ _ hqD' hqC'
    have t1 := abs_add (qx * D) (qy * C)
    linarith
  · intro rx hrx
    have k := abs_le.1 hrx
    rw [abs_le]
    constructor <;>
      linarith [k.1, k.2, hexA.1, hexA.2, dxC.1, dxC.2, dyD.1, dyD.2]
  · intro ry hry
    have k := abs_le.1 hry
    rw [abs_le]
    constructor <;>
      linarith [k.1, k.2, hexB.1, hexB.2, dxD.1, dxD.2, dyC.1, dyC.2]


theorem max_abs_facts (A B : ℚ) :
    0 ≤ max |A| |B| ∧ |A| ≤ max |A| |B| ∧ |B| ≤ max |A| |B| ∧
    max |A| |B| * max |A| |B| ≤ A * A + B * B := by
  refine ⟨le_trans (abs_nonneg A) (le_max_left _ _), le_max_left _ _, le_max_right _ _, ?_⟩
  rcases max_cases |A| |B| with ⟨h, _⟩ | ⟨h, _⟩
  · rw [h, abs_mul_abs_self]
    linarith [mul_self_nonneg B]
  · rw [h, abs_mul_abs_self]
    linarith [mul_self_nonneg A]

namespace Complex

/-- Round trip of the direct division in floating point: when the squared lengths of `z`
and `w` are both normal, `(z / w) * w` is finite and each of its parts is within
`64 * 2^(-prec) * max(|re z|, |im z|)` of the corresponding part of `z`. -/
theorem div_mul_cancel_err (f : Fmt) (hf : f.valid) (hp : 8 ≤ f.prec) (he : 4 ≤ f.emax)
    (z w : Complex) (hz : z.isFinite = true) (hw : w.isFinite = true)
    (hnz : SwiftRT.isNormal f (z.lengthSquared f) = true)
    (hnw : SwiftRT.isNormal f (w.lengthSquared f) = true) :
    div f z w = mul f z (w.conjugate.dividedBy f (w.lengthSquared f)) ∧
    (mul f (div f z w) w).isFinite = true ∧
    |Flt.toQ f (mul f (div f z w) w).x - Flt.toQ f z.x|
      ≤ 64 * f.uQ * max |Flt.toQ f z.x| |Flt.toQ f z.y| ∧
    |Flt.toQ f (mul f (div f z w) w).y - Flt.toQ f z.y|
      ≤ 64 * f.uQ * max |Flt.toQ f z.x| |Flt.toQ f z.y| := by
  have hdiv : div f z w = mul f z (w.conjugate.dividedBy f (w.lengthSquared f)) := by
    unfold div
    simp [hnw]
  refine ⟨hdiv, ?_⟩
  rw [hdiv]
  -- the format constants
  have hu0 := uQ_pos f
  have hu1 : f.uQ ≤ 1 / 256 := by
    have := uQ_le_of_prec f 8 hp
    norm_num at this ⊢
    exact this
  have hh := (format_constants f hf).2.2
  have hm0 := minQ_pos f
  have hm1 : f.minQ ≤ 1 / 8 := by
    have := minQ_le_of_emax f hf 4 he
    norm_num at this ⊢
    exact this
  have hmΩ := min_mul_max f hf
  -- the squared lengths
  obtain ⟨_, hNz1, hNz2, hNz3⟩ := lengthSquared_spec f hf hp z hz hnz
  obtain ⟨hNfin, hN1, hN2, hN3⟩ := lengthSquared_spec f hf hp w hw hnw
  have hzc := hz
  have hwc := hw
  unfold isFinite at hzc hwc
  simp only [Bool.and_eq_true] at hzc hwc
  obtain ⟨hzx, hzy⟩ := hzc
  obtain ⟨hwx, hwy⟩ := hwc
  obtain ⟨hZ0, hZa, hZb, hZ2⟩ := max_abs_facts (Flt.toQ f z.x) (Flt.toQ f z.y)
  obtain ⟨hW0, hWc, hWd, hW2⟩ := max_abs_facts (Flt.toQ f w.x) (Flt.toQ f w.y)
  have hN0 : 0 < Flt.toQ f (w.lengthSquared f) := lt_of_lt_of_le hm0 hN1
  have hNne : Flt.toQ f (w.lengthSquared f) ≠ 0 := ne_of_gt hN0
  have ht : Flt.toQ f (w.lengthSquared f) * (Flt.toQ f (w.lengthSquared f))⁻¹ = 1 :=
    mul_inv_cancel₀ hNne
  -- the first stage: conjugate(w) / lengthSquared(w)
  have hcx : (w.conjugate.dividedBy f (w.lengthSquared f)).x
      = Flt.div f w.x (w.lengthSquared f) := rfl
  have hcy : (w.conjugate.dividedBy f (w.lengthSquared f)).y
      = Flt.div f (Flt.neg w.y) (w.lengthSquared f) := rfl
  have hny : (Flt.neg w.y).isfinite = true := by rw [Flt.neg_isfinite]; exact hwy
  generalize hA : Flt.toQ f z.x = A at *
  generalize hB : Flt.toQ f z.y = B at *
  generalize hC : Flt.toQ f w.x = C at *
  generalize hD : Flt.toQ f w.y = D at *
  generalize hNq : Flt.toQ f (w.lengthSquared f) = N at *
  generalize hNzq : Flt.toQ f (z.lengthSquared f) = Nz at *
  generalize hZ : max |A| |B| = Z at *
  generalize hW : max |C| |D| = W at *
  generalize ht' : N⁻¹ = t at *
  obtain ⟨hΩ, ht0, hmt, hzex, hzlo, hex, hext, hWt, hWΩ, hZΩ, hT⟩ :=
    scale_facts hu0 hu1 hm0 hm1 hmΩ hZ0 hZa hZb hZ2 hW2 hNz1 hNz2 hNz3 hN1 hN2 hN3 ht
  obtain ⟨p1, p2, p3, p4, p5, p6, p7, p8, p9⟩ :=
    scale_products hu0 hm0 hm1 hmΩ hZ0 hΩ ht0 hzex hzlo hext hWt hWΩ hZΩ hT
  have hCt : |C / N| ≤ f.maxQ := by
    rw [div_eq_mul_inv, ht', abs_mul, abs_of_pos ht0]
    exact le_trans (mul_le_mul_of_nonneg_right hWc (le_of_lt ht0)) p4
  have hDt : |(-D) / N| ≤ f.maxQ := by
    rw [div_eq_mul_inv, ht', abs_mul, abs_neg, abs_of_pos ht0]
    exact le_trans (mul_le_mul_of_nonneg_right hWd (le_of_lt ht0)) p4
  have hNy : Flt.toQ f (Flt.neg w.y) = -D := by rw [Flt.toQ_neg, hD]
  have fc : (Flt.div f w.x (w.lengthSquared f)).isfinite = true := by
    apply Flt.div_isfinite f hf _ _ hwx hNfin
    · rw [hNq]; exact hNne
    · rw [hC, hNq]; exact hCt
  have fd : (Flt.div f (Flt.neg w.y) (w.lengthSquared f)).isfinite = true := by
    apply Flt.div_isfinite f hf _ _ hny hNfin
    · rw [hNq]; exact hNne
    · rw [hNy, hNq]; exact hDt
  have ec := Flt.div_err f w.x (w.lengthSquared f) hwx hNfin (by rw [hNq]; exact hNne) fc
  have ed := Flt.div_err f (Flt.neg w.y) (w.lengthSquared f) hny hNfin
    (by rw [hNq]; exact hNne) fd
  rw [hC, hNq, div_eq_mul_inv, ht'] at ec
  rw [hNy, hNq, div_eq_mul_inv, ht'] at ed
  have hw'fin : (w.conjugate.dividedBy f (w.lengthSquared f)).isFinite = true := by
    unfold isFinite
    rw [hcx, hcy, fc, fd]
    rfl
  generalize hc' : Flt.toQ f (Flt.div f w.x (w.lengthSquared f)) = c' at *
  generalize hd' : Flt.toQ f (Flt.div f (Flt.neg w.y) (w.lengthSquared f)) = d' at *
  -- the second stage: z * (conjugate(w) / lengthSquared(w))
  obtain ⟨bc, bd, b3, c2, c3, d1, d2⟩ :=
    stage2_bounds hu0 hu1 hh hm0 hm1 hZ0 hW0 ht0 hΩ hZa hZb hWc hWd p1 p2 p3 p9 ec ed
  have s2 := mul_spec f hf z (w.conjugate.dividedBy f (w.lengthSquared f)) hz hw'fin Z
    ((1 + f.uQ) * (W * t) + f.hQ)
    (by rw [hA]; exact hZa) (by rw [hB]; exact hZb)
    (by rw [hcx, hc']; exact bc) (by rw [hcy, hd']; exact bd) b3
    (by rw [hA, hB, hcx, hcy, hc', hd']; exact c2)
    (by rw [hA, hB, hcx, hcy, hc', hd']; exact c3)
  obtain ⟨qfin, eqx, eqy⟩ := s2
  rw [hA, hB, hcx, hcy, hc', hd'] at eqx eqy
  generalize hq : mul f z (w.conjugate.dividedBy f (w.lengthSquared f)) = q at *
  generalize hqx : Flt.toQ f q.x = qx at *
  generalize hqy : Flt.toQ f q.y = qy at *
  -- the third stage: (z / w) * w
  obtain ⟨bqx, bqy, b4, c4, c5, fx, fy⟩ :=
    stage3_bounds hu0 hu1 hh hm0 hZ0 hW0 ht0 hZa hZb hWc hWd p5 p6 p7 p8 hWt hex d1 d2
      eqx eqy
  have s3 := mul_spec f hf q w qfin hw _ W
    (by rw [hqx]; exact bqx) (by rw [hqy]; exact bqy)
    (by rw [hC]; exact hWc) (by rw [hD]; exact hWd) b4
    (by rw [hqx, hqy, hC, hD]; exact c4)
    (by rw [hqx, hqy, hC, hD]; exact c5)
  obtain ⟨rfin, erx, ery⟩ := s3
  rw [hqx, hqy, hC, hD] at erx ery
  exact ⟨rfin, fx _ erx, fy _ ery⟩

end Complex

/-! ## Division round trip -/

namespace Exact.Complex

/-- At an exact real type the operator `/` yields the direct quotient on either path. -/
theorem div_eq_direct (normal : ℚ → Bool) (z w : Complex) (hz : z.isZero = false)
    (hw : w.isZero = false) :
    div normal z w = some (mul z (w.conjugate.dividedBy w.lengthSquared)) := by
  obtain ⟨h1, h2, h3⟩ := scaling_orders z w hz hw
  unfold div
  simp only
  split_ifs
  · rfl
  · unfold rescaledDivide
    simp only [hz, hw, isFinite, Bool.false_eq_true, if_false, Bool.not_true, Bool.or_self]
    split_ifs
    · rw [h1]
    · rw [h2]
    · rw [h3]

end Exact.Complex

/-- C17: division round trip.  At an exact real type, for non-zero `z` and `w` the
quotient `z / w` is the direct formula `z * conjugate(w).dividedBy(lengthSquared(w))` and
`(z / w) * w` is exactly `z`.  In floating point, with at least 8 significand bits and
largest exponent at least 4, for finite `z` and `w` whose squared lengths are both
normal, `operator/` takes the direct formula, `(z / w) * w` is finite, and each of its
parts is within `64 * 2^(-prec) * max(|re z|, |im z|)` of the corresponding part of `z`. -/
theorem C17_division_round_trip :
    (∀ (normal : ℚ → Bool) (z w : Exact.Complex), z.isZero = false → w.isZero = false →
      Exact.Complex.div normal z w
        = some (Exact.Complex.mul z (w.conjugate.dividedBy w.lengthSquared)) ∧
      Exact.Complex.mul
        (Exact.Complex.mul z (w.conjugate.dividedBy w.lengthSquared)) w = z) ∧
    (∀ (f : Fmt), f.valid → 8 ≤ f.prec → 4 ≤ f.emax → ∀ (z w : Complex),
      z.isFinite = true → w.isFinite = true →
      isNormal f (z.lengthSquared f) = true → isNormal f (w.lengthSquared f) = true →
      Complex.div f z w
        = Complex.mul f z (w.conjugate.dividedBy f (w.lengthSquared f)) ∧
      (Complex.mul f (Complex.div f z w) w).isFinite = true ∧
      |Flt.toQ f (Complex.mul f (Complex.div f z w) w).x - Flt.toQ f z.x|
        ≤ 64 * f.uQ * max |Flt.toQ f z.x| |Flt.toQ f z.y| ∧
      |Flt.toQ f (Complex.mul f (Complex.div f z w) w).y - Flt.toQ f z.y|
        ≤ 64 * f.uQ * max |Flt.toQ f z.x| |Flt.toQ f z.y|) :=
  ⟨fun normal z w hz hw =>
      ⟨Exact.Complex.div_eq_direct normal z w hz hw, Exact.Complex.direct_mul_cancel z w hw⟩,
   fun f hf hp he z w hz hw hnz hnw =>
      Complex.div_mul_cancel_err f hf hp he z w hz hw hnz hnw⟩

set_option maxRecDepth 100000 in
/-- Witness of C17: `(1 + 2i) / (3 + 4i)`, exactly and in binary32. -/
theorem C17_division_round_trip_witness :
    (Exact.Complex.div (fun _ => true) ⟨1, 2⟩ ⟨3, 4⟩
        = some (Exact.Complex.mul ⟨1, 2⟩
            (Exact.Complex.dividedBy (Exact.Complex.conjugate ⟨3, 4⟩)
              (Exact.Complex.lengthSquared ⟨3, 4⟩))) ∧
      Exact.Complex.mul (Exact.Complex.mul ⟨1, 2⟩
          (Exact.Complex.dividedBy (Exact.Complex.conjugate ⟨3, 4⟩)
            (Exact.Complex.lengthSquared ⟨3, 4⟩))) ⟨3, 4⟩ = ⟨1, 2⟩) ∧
    (isNormal binary32 (Complex.lengthSquared binary32
        ⟨.fin false (2 ^ 149), .fin false (2 ^ 150)⟩) = true ∧
     isNormal binary32 (Complex.lengthSquared binary32
        ⟨.fin false (3 * 2 ^ 149), .fin false (2 ^ 151)⟩) = true ∧
     (Complex.mul binary32 (Complex.div binary32
        ⟨.fin false (2 ^ 149), .fin false (2 ^ 150)⟩
        ⟨.fin false (3 * 2 ^ 149), .fin false (2 ^ 151)⟩)
        ⟨.fin false (3 * 2 ^ 149), .fin false (2 ^ 151)⟩).isFinite = true ∧
     |Flt.toQ binary32 (Complex.mul binary32 (Complex.div binary32
          ⟨.fin false (2 ^ 149), .fin false (2 ^ 150)⟩
          ⟨.fin false (3 * 2 ^ 149), .fin false (2 ^ 151)⟩)
          ⟨.fin false (3 * 2 ^ 149), .fin false (2 ^ 151)⟩).x
        - Flt.toQ binary32 (.fin false (2 ^ 149))|
      ≤ 64 * binary32.uQ * max |Flt.toQ binary32 (.fin false (2 ^ 149))|
          |Flt.toQ binary32 (.fin false (2 ^ 150))|) :=
  ⟨C17_division_round_trip.1 (fun _ => true) ⟨1, 2⟩ ⟨3, 4⟩ (by decide) (by decide),
   by decide, by decide,
   (C17_division_round_trip.2 binary32 (by decide) (by decide) (by decide)
      ⟨.fin false (2 ^ 149), .fin false (2 ^ 150)⟩
      ⟨.fin false (3 * 2 ^ 149), .fin false (2 ^ 151)⟩
      (by decide) (by decide) (by decide) (by decide)).2.1,
   (C17_division_round_trip.2 binary32 (by decide) (by decide) (by decide)
      ⟨.fin false (2 ^ 149), .fin false (2 ^ 150)⟩
      ⟨.fin false (3 * 2 ^ 149), .fin false (2 ^ 151)⟩
      (by decide) (by decide) (by decide) (by decide)).2.2.1⟩


/-! ## Canonical representatives of equal values -/

namespace Flt

/-- Values that compare equal are identical or are zeros of possibly different sign. -/
theorem eq_cases {x y : Flt} (h : eq x y = true) :
    x = y ∨ ∃ s t, x = .fin s 0 ∧ y = .fin t 0 := by
  cases x <;> cases y <;> simp only [eq] at h <;> try contradiction
  · rename_i s t
    simp only [beq_iff_eq] at h
    subst h
    exact Or.inl rfl
  · rename_i s a t b
    simp only [Bool.and_eq_true, Bool.or_eq_true, beq_iff_eq] at h
    obtain ⟨rfl, h2⟩ := h
    rcases h2 with h0 | hs
    · subst h0
      exact Or.inr ⟨s, t, rfl, rfl⟩
    · subst hs
      exact Or.inl rfl

end Flt

namespace Complex

theorem isZero_of_eq {a b : Complex} (h : eq a b = true) (ha : a.isZero = true) :
    b.isZero = true := by
  rw [ceq_iff] at h
  rcases h with ⟨_, _, hx, hy⟩ | ⟨hfa, _⟩
  · unfold isZero at ha ⊢
    simp only [Bool.and_eq_true] at ha ⊢
    rw [Flt.feq_comm] at hx hy
    exact ⟨Flt.feq_trans hx ha.1, Flt.feq_trans hy ha.2⟩
  · rw [isFinite_of_isZero ha] at hfa
    exact absurd hfa (by decide)

end Complex

set_option maxRecDepth 100000 in
/-- C21, as stated, fails in binary32 at `a = (1, -0)`, `b = (1, +0)`: `a == b`, yet
`canonicalized()` returns each unchanged, with imaginary parts `-0` and `+0`. -/
theorem C21_canonicalized_counterexample :
    Complex.eq ⟨.fin false (2 ^ 149), .fin true 0⟩ ⟨.fin false (2 ^ 149), .fin false 0⟩ = true ∧
    Complex.wf binary32 ⟨.fin false (2 ^ 149), .fin true 0⟩ ∧
    Complex.wf binary32 ⟨.fin false (2 ^ 149), .fin false 0⟩ ∧
    Complex.canonicalized binary32 ⟨.fin false (2 ^ 149), .fin true 0⟩
      = ⟨.fin false (2 ^ 149), .fin true 0⟩ ∧
    Complex.canonicalized binary32 ⟨.fin false (2 ^ 149), .fin false 0⟩
      = ⟨.fin false (2 ^ 149), .fin false 0⟩ ∧
    ¬ (∀ a b : Complex, a.wf binary32 → b.wf binary32 → Complex.eq a b = true →
        Complex.canonicalized binary32 a = Complex.canonicalized binary32 b) := by
  refine ⟨by decide, by decide, by decide, by decide, by decide, ?_⟩
  intro h
  have := h ⟨.fin false (2 ^ 149), .fin true 0⟩ ⟨.fin false (2 ^ 149), .fin false 0⟩
    (by decide) (by decide) (by decide)
  revert this
  decide

/-- C21, amended: for values `a == b` of the format, `a.canonicalized()` and
`b.canonicalized()` are `==`, and each pair of corresponding stored components is
identical or consists of two zeros that may differ in sign.  Non-finite values both go to
`(+infinity, +0)`, zero values both go to `(+0, +0)`, and finite non-zero values are
returned unchanged. -/
theorem C21_canonicalized_of_equal (f : Fmt) (a b : Complex) (ha : a.wf f) (hb : b.wf f)
    (h : Complex.eq a b = true) :
    Complex.eq (a.canonicalized f) (b.canonicalized f) = true ∧
    (a.isFinite = false →
      a.canonicalized f = ⟨.inf false, .fin false 0⟩ ∧
      b.canonicalized f = ⟨.inf false, .fin false 0⟩) ∧
    (a.isZero = true →
      a.canonicalized f = ⟨.fin false 0, .fin false 0⟩ ∧
      b.canonicalized f = ⟨.fin false 0, .fin false 0⟩) ∧
    (a.isFinite = true → a.isZero = false →
      a.canonicalized f = a ∧ b.canonicalized f = b) ∧
    ((a.canonicalized f).x = (b.canonicalized f).x ∨
      ∃ s t, (a.canonicalized f).x = .fin s 0 ∧ (b.canonicalized f).x = .fin t 0) ∧
    ((a.canonicalized f).y = (b.canonicalized f).y ∨
      ∃ s t, (a.canonicalized f).y = .fin s 0 ∧ (b.canonicalized f).y = .fin t 0) := by
  have hnf : a.isFinite = false →
      a.canonicalized f = ⟨.inf false, .fin false 0⟩ ∧
      b.canonicalized f = ⟨.inf false, .fin false 0⟩ := by
    intro hfa
    have hfb : b.isFinite = false := by
      rcases (Complex.ceq_iff a b).1 h with ⟨hfa2, _, _, _⟩ | ⟨_, hfb⟩
      · rw [hfa] at hfa2; exact absurd hfa2 (by decide)
      · exact hfb
    exact ⟨Complex.canonicalized_of_not_isFinite f hfa,
      Complex.canonicalized_of_not_isFinite f hfb⟩
  have hzero : a.isZero = true →
      a.canonicalized f = ⟨.fin false 0, .fin false 0⟩ ∧
      b.canonicalized f = ⟨.fin false 0, .fin false 0⟩ := by
    intro hza
    exact ⟨Complex.canonicalized_of_isZero f hza,
      Complex.canonicalized_of_isZero f (Complex.isZero_of_eq h hza)⟩
  have hfin : a.isFinite = true → a.isZero = false →
      a.canonicalized f = a ∧ b.canonicalized f = b := by
    intro hfa hza
    have hfb : b.isFinite = true := by
      rcases (Complex.ceq_iff a b).1 h with ⟨_, hfb, _, _⟩ | ⟨hfa2, _⟩
      · exact hfb
      · rw [hfa] at hfa2; exact absurd hfa2 (by decide)
    have hzb : b.isZero = false := by
      cases hzb : b.isZero
      · rfl
      · rw [Complex.isZero_of_eq (Complex.ceq_symm h) hzb] at hza
        exact absurd hza (by decide)
    exact ⟨Complex.canonicalized_of_finite f ha hza hfa,
      Complex.canonicalized_of_finite f hb hzb hfb⟩
  have hcomp : ((a.canonicalized f).x = (b.canonicalized f).x ∨
      ∃ s t, (a.canonicalized f).x = .fin s 0 ∧ (b.canonicalized f).x = .fin t 0) ∧
    ((a.canonicalized f).y = (b.canonicalized f).y ∨
      ∃ s t, (a.canonicalized f).y = .fin s 0 ∧ (b.canonicalized f).y = .fin t 0) := by
    cases hfa : a.isFinite
    · obtain ⟨e1, e2⟩ := hnf hfa
      rw [e1, e2]
      exact ⟨Or.inl rfl, Or.inl rfl⟩
    · cases hza : a.isZero
      · obtain ⟨e1, e2⟩ := hfin hfa hza
        rw [e1, e2]
        rcases (Complex.ceq_iff a b).1 h with ⟨_, _, hx, hy⟩ | ⟨hfa2, _⟩
        · exact ⟨Flt.eq_cases hx, Flt.eq_cases hy⟩
        · rw [hfa] at hfa2; exact absurd hfa2 (by decide)
      · obtain ⟨e1, e2⟩ := hzero hza
        rw [e1, e2]
        exact ⟨Or.inl rfl, Or.inl rfl⟩
  refine ⟨?_, hnf, hzero, hfin, hcomp.1, hcomp.2⟩
  cases hfa : a.isFinite
  · obtain ⟨e1, e2⟩ := hnf hfa
    rw [e1, e2]
    exact Complex.ceq_refl _
  · cases hza : a.isZero
    · obtain ⟨e1, e2⟩ := hfin hfa hza
      rw [e1, e2]
      exact h
    · obtain ⟨e1, e2⟩ := hzero hza
      rw [e1, e2]
      exact Complex.ceq_refl _

set_option maxRecDepth 100000 in
/-- Witness of the amended C21 in binary32 on `a = (1, -0)`, `b = (1, +0)`. -/
theorem C21_canonicalized_of_equal_witness :
    Complex.wf binary32 ⟨.fin false (2 ^ 149), .fin true 0⟩ ∧
    Complex.wf binary32 ⟨.fin false (2 ^ 149), .fin false 0⟩ ∧
    Complex.eq ⟨.fin false (2 ^ 149), .fin true 0⟩ ⟨.fin false (2 ^ 149), .fin false 0⟩ = true ∧
    Complex.eq (Complex.canonicalized binary32 ⟨.fin false (2 ^ 149), .fin true 0⟩)
      (Complex.canonicalized binary32 ⟨.fin false (2 ^ 149), .fin false 0⟩) = true :=
  ⟨by decide, by decide, by decide,
   (C21_canonicalized_of_equal binary32 ⟨.fin false (2 ^ 149), .fin true 0⟩
      ⟨.fin false (2 ^ 149), .fin false 0⟩ (by decide) (by decide) (by decide)).1⟩

/-! ## Kernel launch helpers -/

/-- C22: for every 32-bit `N` with `N + 1023 < 2^32`, `BLOCK_COUNT(N)` is the ceiling of
`N / 1024`: the least `b` with `b * 1024 >= N`, so the launched threads cover all `N`
elements, and `BLOCK_COUNT(0) = 0`.  The sum is taken modulo `2^32`: evaluating
`N + THREADS_PER_BLOCK` and then `- 1` in 32-bit arithmetic gives the same value, and at
`N = 2^32 - 1` the sum wraps and the result is `0`. -/
theorem C22_block_count_ceiling :
    (∀ N : Nat, N + 1023 < 2 ^ 32 →
      BLOCK_COUNT N = (N + 1023) / 1024 ∧
      N ≤ BLOCK_COUNT N * THREADS_PER_BLOCK ∧
      (∀ b : Nat, N ≤ b * THREADS_PER_BLOCK → BLOCK_COUNT N ≤ b) ∧
      (∀ i : Nat, i < N → i / THREADS_PER_BLOCK < BLOCK_COUNT N)) ∧
    BLOCK_COUNT 0 = 0 ∧
    (∀ N : Nat, N < 2 ^ 32 →
      BLOCK_COUNT N
        = (((N + THREADS_PER_BLOCK) % 2 ^ 32 + 2 ^ 32 - 1) % 2 ^ 32) / THREADS_PER_BLOCK) ∧
    BLOCK_COUNT (2 ^ 32 - 1) = 0 := by
  refine ⟨?_, by decide, ?_, by decide⟩
  · intro N hN
    unfold BLOCK_COUNT THREADS_PER_BLOCK
    norm_num at hN ⊢
    refine ⟨?_, ?_, ?_, ?_⟩
    · omega
    · omega
    · intro b hb
      omega
    · intro i hi
      omega
  · intro N hN
    unfold BLOCK_COUNT THREADS_PER_BLOCK
    norm_num at hN ⊢
    omega

/-- Witness of C22 at `N = 1025`: two blocks. -/
theorem C22_block_count_ceiling_witness :
    1025 + 1023 < 2 ^ 32 ∧ BLOCK_COUNT 1025 = 2 ∧ 1025 ≤ BLOCK_COUNT 1025 * THREADS_PER_BLOCK :=
  ⟨by decide, ((C22_block_count_ceiling.1 1025 (by decide)).1).trans (by decide),
   (C22_block_count_ceiling.1 1025 (by decide)).2.1⟩

end SwiftRT
